import Mathlib

/-!
# robocin::Collection — shallow embedding and verification

`Collection<T, Container>` (src/robocin/collection/collection.h) owns one container and forwards
every operation to an algorithm of the C++ standard library.  The container is embedded as a
`List`; every member function is embedded as a function of the state of `*this`:

* a mutating member (`&`, returns `void`) maps the state of `*this` to the state it leaves;
* a consuming member (`&&`) and a copying member (`const&`) return a pair
  `(returned value, state left in *this)`.

The standard algorithms the members call (`std::remove_if`, `std::reduce`, `std::ranges::sort`,
...) are not part of the repository; they are embedded as executable models of what the GNU
library does, each documented at its definition.

The geometry and utility headers are embedded next to it: `Rect2D` over the integer value types
(src/robocin/geometry/rect2d.h) with its array-like interface and iterator
(src/robocin/geometry/internal/rect2d_internal.h), the fuzzy comparisons
(src/robocin/utility/fuzzy_compare.h) over the operations of an arithmetic type, and
`normalizeAngle` (src/robocin/utility/angular.h) over exact arithmetic.
-/

namespace robocin

/-! ## Data model -/

/-- The primary template `Collection<T, Container>` with a resizable backing (`std::vector<T>`):
the single private member `container_`. -/
structure Collection (α : Type) where
  container_ : List α
deriving DecidableEq

/-- The specialization `Collection<T, std::array<T, N>>`: the backing array always holds exactly
`N` elements. -/
structure ArrayCollection (α : Type) (N : Nat) where
  container_ : List α
  size_eq : container_.length = N

/-- The ways an embedded operation can fail: `out_of_range` is the exception `std::out_of_range`;
`precondition_violation` stands for the fault of a call that violates a precondition of the
standard library (the call has no defined behaviour and throws nothing; where it need not
fault, its outcome is a parameter of the embedding). -/
inductive Exception where
  | out_of_range
  | precondition_violation
deriving DecidableEq

/-- Copy constructor `Collection(const Collection&) = default`: a deep copy of the container. -/
def Collection.copy {α : Type} (other : Collection α) : Collection α :=
  ⟨other.container_⟩

/-- The state a `std::vector` is left in after it has been moved from: empty. -/
def Collection.moved_from {α : Type} : Collection α :=
  ⟨[]⟩

/-- `size()`: `container_.size()`. -/
def Collection.size {α : Type} (c : Collection α) : Nat :=
  c.container_.length

/-- `empty()`: `container_.empty()`. -/
def Collection.empty {α : Type} (c : Collection α) : Bool :=
  c.container_.isEmpty

/-- `size()` of the fixed-arity specialization: `container_.size()`. -/
def ArrayCollection.size {α : Type} {N : Nat} (c : ArrayCollection α N) : Nat :=
  c.container_.length

/-! ## Filter -/

/-- `std::find_if(first, last, pred)`: the index of the first element satisfying `pred`,
the length of the range when there is none. -/
def std_find_if {α : Type} (pred : α → Bool) : List α → Nat
  | [] => 0
  | x :: xs => if pred x then 0 else std_find_if pred xs + 1

/-- The copying loop of `std::remove_if`:
`for (; first != last; ++first) if (!pred(*first)) { *result = std::move(*first); ++result; }`.
The first argument is the trip count `last - first`. -/
def std_remove_if_loop {α : Type} (pred : α → Bool) : Nat → List α → Nat → Nat → List α × Nat
  | 0, buf, result, _ => (buf, result)
  | n + 1, buf, result, first =>
    match buf[first]? with
    | none => (buf, result)
    | some v =>
      if !pred v then std_remove_if_loop pred n (buf.set result v) (result + 1) (first + 1)
      else std_remove_if_loop pred n buf result (first + 1)

/-- `std::remove_if(first, last, pred)` over the whole buffer: returns the buffer after the
shifts and the index of the new logical end.
```
first = std::find_if(first, last, pred);
if (first == last) return first;
result = first; ++first;
for (; first != last; ++first) if (!pred(*first)) { *result = std::move(*first); ++result; }
return result;
``` -/
def std_remove_if {α : Type} (pred : α → Bool) (buf : List α) : List α × Nat :=
  let first := std_find_if pred buf
  if first = buf.length then (buf, first)
  else std_remove_if_loop pred (buf.length - (first + 1)) buf first (first + 1)

/-- `container_.erase(last, container_.end())`. -/
def std_erase_to_end {α : Type} (buf : List α) (last : Nat) : List α :=
  buf.take last

/-- `filter(predicate) &`:
```
iterator last = std::remove_if(container_.begin(), container_.end(), std::not_fn(predicate));
container_.erase(last, container_.end());
``` -/
def Collection.filter {α : Type} (predicate : α → Bool) (this : Collection α) : Collection α :=
  let r := std_remove_if (fun x => !predicate x) this.container_
  ⟨std_erase_to_end r.1 r.2⟩

/-- `filtered(predicate) &&`: `return filter(predicate), std::move(*this);`. -/
def Collection.filtered_rvalue {α : Type} (predicate : α → Bool) (this : Collection α) :
    Collection α × Collection α :=
  (Collection.filter predicate this, Collection.moved_from)

/-- `filtered(predicate) const&`: `return Collection(*this).filtered(predicate);`. -/
def Collection.filtered {α : Type} (predicate : α → Bool) (this : Collection α) :
    Collection α × Collection α :=
  ((Collection.filtered_rvalue predicate (Collection.copy this)).1, this)

/-! ## Transform -/

/-- The range-for of the same-type branch of `transform`:
`for (value_type& value : container_) { value = std::move(map_value(value)); }`.
The first argument is the trip count, `it` the position of the iterator. -/
def transform_loop {α : Type} (map_value : α → α) : Nat → Nat → List α → List α
  | 0, _, buf => buf
  | n + 1, it, buf =>
    match buf[it]? with
    | none => buf
    | some value => transform_loop map_value n (it + 1) (buf.set it (map_value value))

/-- `transform(op) &&`, branch `std::is_same_v<result_type, value_type>`: every element is
rewritten in place and `std::move(*this)` is returned. -/
def Collection.transform_rvalue {α : Type} (op : α → α) (this : Collection α) :
    Collection α × Collection α :=
  (⟨transform_loop op this.container_.length 0 this.container_⟩, Collection.moved_from)

/-- `transform(op) const&`, same-type branch: `return Collection(*this).transform(op);`. -/
def Collection.transform {α : Type} (op : α → α) (this : Collection α) :
    Collection α × Collection α :=
  ((Collection.transform_rvalue op (Collection.copy this)).1, this)

/-- `std::transform(first, last, std::back_inserter(out), op)`:
`for (; first != last; ++first, ++result) *result = op(*first);`, where assigning through the
back-inserter is `out.push_back`. -/
def std_transform_back_inserter {α β : Type} (op : α → β) : List α → List β → List β
  | [], out => out
  | x :: rest, out => std_transform_back_inserter op rest (out ++ [op x])

/-- `transform(op) &&`, branch `result_type != value_type`, for the resizable backing:
```
collection_internal::ResultCollection<container_type, result_type> result;
result.reserve(container_.size());
std::transform(begin, end, std::back_inserter(result.container_), op);
return result;
```
`ResultCollection<std::vector<T>, U>` is `Collection<U, std::vector<U>>`; `reserve` changes the
capacity only, which the embedding does not track.  Only the returned collection is modelled:
the source elements are left moved-from. -/
def Collection.transform_rebind_rvalue {α β : Type} (op : α → β) (this : Collection α) :
    Collection β :=
  ⟨std_transform_back_inserter op this.container_ []⟩

/-- `transform(op) const&`, branch `result_type != value_type`:
`return Collection(*this).transform(op);`. -/
def Collection.transform_rebind {α β : Type} (op : α → β) (this : Collection α) :
    Collection β × Collection α :=
  (Collection.transform_rebind_rvalue op (Collection.copy this), this)

/-! ## Flat transform -/

/-- The loop of `flat_transform(op) &&`:
```
for (auto&& element : container_) {
  auto&& transformed = std::views::transform(element, fun);
  result.insert(result.end(), begin(transformed), end(transformed));
}
``` -/
def flat_transform_loop {α β : Type} (fun_ : α → β) : List (List α) → List β → List β
  | [], result => result
  | element :: rest, result => flat_transform_loop fun_ rest (result ++ element.map fun_)

/-- `flat_transform(op) &&` (requires `std::ranges::range<value_type>`; the inner ranges are
embedded as lists).  The sum of the inner sizes is only passed to `reserve`. -/
def Collection.flat_transform_rvalue {α β : Type} (op : α → β) (this : Collection (List α)) :
    Collection β :=
  ⟨flat_transform_loop op this.container_ []⟩

/-- `flat_transform(op) const&`: `return Collection(*this).flat_transform(op);`. -/
def Collection.flat_transform {α β : Type} (op : α → β) (this : Collection (List α)) :
    Collection β × Collection (List α) :=
  (Collection.flat_transform_rvalue op (Collection.copy this), this)

/-! ## Reduce -/

/-- `std::reduce(first, last, init, binary_op)` as the GNU library implements it for
random-access iterators:
```
while ((last - first) >= 4) {
  T v1 = binary_op(first[0], first[1]);
  T v2 = binary_op(first[2], first[3]);
  T v3 = binary_op(v1, v2);
  init = binary_op(init, v3);
  first += 4;
}
for (; first != last; ++first) init = binary_op(init, *first);
return init;
```
The standard fixes the result of `std::reduce` only up to `GENERALIZED_SUM` (see
`GeneralizedSum` below), of which this is one evaluation. -/
def std_reduce {α : Type} (binary_op : α → α → α) : List α → α → α
  | a :: b :: c :: d :: rest, init =>
    std_reduce binary_op rest (binary_op init (binary_op (binary_op a b) (binary_op c d)))
  | rest, init => rest.foldl binary_op init

/-- `GENERALIZED_NONCOMMUTATIVE_SUM(op, a1, ..., aN)` of [numerics.defns]: `a1` when `N = 1`,
otherwise `op` applied to the generalized noncommutative sums of the two parts of any split of
the operands. -/
inductive GeneralizedNoncommutativeSum {α : Type} (op : α → α → α) : List α → α → Prop where
  | single (a : α) : GeneralizedNoncommutativeSum op [a] a
  | split (l r : List α) (x y : α) :
      GeneralizedNoncommutativeSum op l x → GeneralizedNoncommutativeSum op r y →
      GeneralizedNoncommutativeSum op (l ++ r) (op x y)

/-- `GENERALIZED_SUM(op, a1, ..., aN)` of [numerics.defns]: a generalized noncommutative sum of
any permutation of the operands.  `std::reduce(first, last, init, op)` may return any value `r`
with `GeneralizedSum op (init :: elements) r`. -/
def GeneralizedSum {α : Type} (op : α → α → α) (operands : List α) (r : α) : Prop :=
  ∃ bs : List α, bs.Perm operands ∧ GeneralizedNoncommutativeSum op bs r

/-- `reduce(op, init) &&`:
`return std::reduce(move_iterator(begin), move_iterator(end), std::move(init), op);`. -/
def Collection.reduce_rvalue {α : Type} (op : α → α → α) (init : α) (this : Collection α) : α :=
  std_reduce op this.container_ init

/-- `reduce(op, init) const&`:
`return std::reduce(container_.begin(), container_.end(), std::move(init), op);`. -/
def Collection.reduce {α : Type} (op : α → α → α) (init : α) (this : Collection α) : α :=
  std_reduce op this.container_ init

/-! ## Sorts -/

/-- A comparator is a strict weak ordering ([alg.sorting]): it is irreflexive and transitive,
and the induced incomparability `!comp(a, b) && !comp(b, a)` is transitive. -/
structure StrictWeakOrdering {α : Type} (comp : α → α → Bool) : Prop where
  irrefl : ∀ a, comp a a = false
  trans : ∀ a b c, comp a b = true → comp b c = true → comp a c = true
  incomp_trans : ∀ a b c, comp a b = false → comp b a = false → comp b c = false →
    comp c b = false → comp a c = false ∧ comp c a = false

/-- The equivalence induced by a comparator: neither element compares less than the other. -/
def equiv {α : Type} (comp : α → α → Bool) (a b : α) : Bool :=
  !comp a b && !comp b a

/-- One step of insertion sort: `val` walks from the back of the sorted range towards its front
past every element it compares less than (`__unguarded_linear_insert`; the walk ends at the
front of the range at the latest, which `__insertion_sort` ensures by testing
`comp(val, *first)` beforehand).  The sorted range is listed from its last element to its
first. -/
def std_linear_insert {α : Type} (comp : α → α → Bool) (val : α) : List α → List α
  | [] => [val]
  | next :: before =>
    if comp val next then next :: std_linear_insert comp val before
    else val :: next :: before

/-- `__insertion_sort(first, last, comp)`: the elements are inserted one by one, left to right,
into the sorted range that precedes them. -/
def std_insertion_sort {α : Type} (comp : α → α → Bool) (buf : List α) : List α :=
  (buf.foldl (fun sorted_rev val => std_linear_insert comp val sorted_rev) []).reverse

/-- The merge of the two sorted halves in the stable sort (`std::__move_merge`):
```
while (first1 != last1 && first2 != last2) {
  if (comp(*first2, *first1)) { *result = *first2; ++first2; }
  else { *result = *first1; ++first1; }
  ++result;
}
return copy(first2, last2, copy(first1, last1, result));
```
The first argument bounds the trip count. -/
def std_merge {α : Type} (comp : α → α → Bool) : Nat → List α → List α → List α
  | 0, l, r => l ++ r
  | _ + 1, [], r => r
  | _ + 1, l, [] => l
  | n + 1, x :: l, y :: r =>
    if comp y x then y :: std_merge comp n (x :: l) r
    else x :: std_merge comp n l (y :: r)

/-- The recursion of `__inplace_stable_sort(first, last, comp)`:
```
if (last - first < 15) { __insertion_sort(first, last, comp); return; }
middle = first + (last - first) / 2;
__inplace_stable_sort(first, middle, comp);
__inplace_stable_sort(middle, last, comp);
merge [first, middle) and [middle, last);
```
The first argument bounds the recursion depth. -/
def std_stable_sort_rec {α : Type} (comp : α → α → Bool) : Nat → List α → List α
  | 0, buf => buf
  | depth + 1, buf =>
    if buf.length < 15 then std_insertion_sort comp buf
    else
      let middle := buf.length / 2
      let left := std_stable_sort_rec comp depth (buf.take middle)
      let right := std_stable_sort_rec comp depth (buf.drop middle)
      std_merge comp (left.length + right.length) left right

/-- Reference model of `std::ranges::stable_sort(container, comp)`: merge sort over halves, with
insertion sort for ranges shorter than 15, as in the GNU library.  For a strict weak ordering
the standard determines the result of a stable sort uniquely, so every conforming
implementation returns what this model returns. -/
def std_ranges_stable_sort {α : Type} (comp : α → α → Bool) (buf : List α) : List α :=
  std_stable_sort_rec comp buf.length buf

/-- `std::iter_swap(first, last)` on the cells `first` and `last` of the buffer. -/
def std_iter_swap {α : Type} (buf : List α) (first last : Nat) : List α :=
  match buf[first]?, buf[last]? with
  | some a, some b => (buf.set first b).set last a
  | _, _ => buf

/-- The loop behind `std_lg`: the number of halvings that bring `n` below `2`.  The first
argument bounds the trip count. -/
def std_lg_loop : Nat → Nat → Nat
  | 0, _ => 0
  | fuel + 1, n => if n < 2 then 0 else std_lg_loop fuel (n / 2) + 1

/-- `std::__lg(n)` for `n > 0`: the position of the highest set bit of `n`
(`sizeof(long) * CHAR_BIT - 1 - __builtin_clzl(n)`). -/
def std_lg (n : Nat) : Nat :=
  std_lg_loop n n

/-- `__move_median_to_first(result, a, b, c, comp)` of the GNU library: swaps the median of
`*a`, `*b`, `*c` with `*result`.
```
if (comp(a, b)) {
  if (comp(b, c)) iter_swap(result, b);
  else if (comp(a, c)) iter_swap(result, c);
  else iter_swap(result, a);
}
else if (comp(a, c)) iter_swap(result, a);
else if (comp(b, c)) iter_swap(result, c);
else iter_swap(result, b);
```
-/
def std_move_median_to_first {α : Type} (comp : α → α → Bool) (buf : List α)
    (result a b c : Nat) : List α :=
  match buf[a]?, buf[b]?, buf[c]? with
  | some va, some vb, some vc =>
    if comp va vb then
      if comp vb vc then std_iter_swap buf result b
      else if comp va vc then std_iter_swap buf result c
      else std_iter_swap buf result a
    else if comp va vc then std_iter_swap buf result a
    else if comp vb vc then std_iter_swap buf result c
    else std_iter_swap buf result b
  | _, _, _ => buf

/-- `while (comp(first, pivot)) ++first;` of `__unguarded_partition`: the position the loop
stops at.  The first argument bounds the trip count; the loop of the model also stops at the end
of the buffer, which the loop of the library, unguarded, does not pass for a strict weak
ordering. -/
def std_partition_scan_up {α : Type} (comp : α → α → Bool) (buf : List α) (pivot : α) :
    Nat → Nat → Nat
  | 0, first => first
  | fuel + 1, first =>
    match buf[first]? with
    | some value =>
      if comp value pivot then std_partition_scan_up comp buf pivot fuel (first + 1)
      else first
    | none => first

/-- `while (comp(pivot, last)) --last;` of `__unguarded_partition`: the position the loop stops
at.  The first argument bounds the trip count. -/
def std_partition_scan_down {α : Type} (comp : α → α → Bool) (buf : List α) (pivot : α) :
    Nat → Nat → Nat
  | 0, last => last
  | fuel + 1, last =>
    match buf[last]? with
    | some value =>
      if comp pivot value then std_partition_scan_down comp buf pivot fuel (last - 1)
      else last
    | none => last

/-- `__unguarded_partition(first, last, pivot, comp)` of the GNU library; `pivot` is the value at
the pivot position, which the loop does not move.  Returns the buffer and the cut.
```
while (true) {
  while (comp(first, pivot)) ++first;
  --last;
  while (comp(pivot, last)) --last;
  if (!(first < last)) return first;
  iter_swap(first, last);
  ++first;
}
```
The first argument bounds the trip count. -/
def std_unguarded_partition {α : Type} (comp : α → α → Bool) (pivot : α) :
    Nat → List α → Nat → Nat → List α × Nat
  | 0, buf, first, _ => (buf, first)
  | fuel + 1, buf, first, last =>
    if std_partition_scan_up comp buf pivot buf.length first
        < std_partition_scan_down comp buf pivot buf.length (last - 1) then
      std_unguarded_partition comp pivot fuel
        (std_iter_swap buf (std_partition_scan_up comp buf pivot buf.length first)
          (std_partition_scan_down comp buf pivot buf.length (last - 1)))
        (std_partition_scan_up comp buf pivot buf.length first + 1)
        (std_partition_scan_down comp buf pivot buf.length (last - 1))
    else (buf, std_partition_scan_up comp buf pivot buf.length first)

/-- `__unguarded_partition_pivot(first, last, comp)` of the GNU library, on the range
`[first, last)` given as a list:
```
mid = first + (last - first) / 2;
__move_median_to_first(first, first + 1, mid, last - 1, comp);
return __unguarded_partition(first + 1, last, first, comp);
```
-/
def std_unguarded_partition_pivot {α : Type} (comp : α → α → Bool) (range : List α) :
    List α × Nat :=
  match (std_move_median_to_first comp range 0 1 (range.length / 2) (range.length - 1))[0]? with
  | some pivot =>
    std_unguarded_partition comp pivot range.length
      (std_move_median_to_first comp range 0 1 (range.length / 2) (range.length - 1))
      1 range.length
  | none => (range, 0)

/-- `__push_heap(first, holeIndex, topIndex, value, comp)` of the GNU library:
```
parent = (holeIndex - 1) / 2;
while (holeIndex > topIndex && comp(first + parent, value)) {
  *(first + holeIndex) = *(first + parent);
  holeIndex = parent;
  parent = (holeIndex - 1) / 2;
}
*(first + holeIndex) = value;
```
The first argument bounds the trip count. -/
def std_push_heap {α : Type} (comp : α → α → Bool) (value : α) (topIndex : Nat) :
    Nat → List α → Nat → List α
  | 0, buf, holeIndex => buf.set holeIndex value
  | fuel + 1, buf, holeIndex =>
    match buf[(holeIndex - 1) / 2]? with
    | some parent =>
      if holeIndex > topIndex && comp parent value then
        std_push_heap comp value topIndex fuel (buf.set holeIndex parent) ((holeIndex - 1) / 2)
      else buf.set holeIndex value
    | none => buf.set holeIndex value

/-- The first loop of `__adjust_heap`, which moves the hole down to a leaf along the greater
children; returns the buffer and the hole.
```
while (secondChild < (len - 1) / 2) {
  secondChild = 2 * (secondChild + 1);
  if (comp(first + secondChild, first + (secondChild - 1))) secondChild--;
  *(first + holeIndex) = *(first + secondChild);
  holeIndex = secondChild;
}
```
The first argument bounds the trip count. -/
def std_adjust_heap_loop {α : Type} (comp : α → α → Bool) (len : Nat) :
    Nat → List α → Nat → List α × Nat
  | 0, buf, holeIndex => (buf, holeIndex)
  | fuel + 1, buf, holeIndex =>
    if holeIndex < (len - 1) / 2 then
      match buf[2 * (holeIndex + 1)]?, buf[2 * (holeIndex + 1) - 1]? with
      | some right, some left =>
        if comp right left then
          std_adjust_heap_loop comp len fuel (buf.set holeIndex left) (2 * (holeIndex + 1) - 1)
        else std_adjust_heap_loop comp len fuel (buf.set holeIndex right) (2 * (holeIndex + 1))
      | _, _ => (buf, holeIndex)
    else (buf, holeIndex)

/-- The step of `__adjust_heap` after its first loop, for a last parent with one child:
```
if ((len & 1) == 0 && secondChild == (len - 2) / 2) {
  secondChild = 2 * (secondChild + 1);
  *(first + holeIndex) = *(first + (secondChild - 1));
  holeIndex = secondChild - 1;
}
```
(`len` is signed in the library: `(len - 2) / 2` is no index when `len < 2`.) -/
def std_adjust_heap_last_child {α : Type} (len : Nat) (state : List α × Nat) : List α × Nat :=
  if len % 2 = 0 ∧ 2 ≤ len ∧ state.2 = (len - 2) / 2 then
    match state.1[2 * (state.2 + 1) - 1]? with
    | some child => (state.1.set state.2 child, 2 * (state.2 + 1) - 1)
    | none => state
  else state

/-- `__adjust_heap(first, holeIndex, len, value, comp)` of the GNU library: the hole is moved
down to a leaf, then `__push_heap(first, holeIndex, topIndex, value, comp)` moves `value` up
from there, `topIndex` being the hole the call started with. -/
def std_adjust_heap {α : Type} (comp : α → α → Bool) (buf : List α) (holeIndex len : Nat)
    (value : α) : List α :=
  std_push_heap comp value holeIndex len
    (std_adjust_heap_last_child len (std_adjust_heap_loop comp len len buf holeIndex)).1
    (std_adjust_heap_last_child len (std_adjust_heap_loop comp len len buf holeIndex)).2

/-- The loop of `__make_heap`, from `parent` down to `0`:
```
while (true) {
  value = *(first + parent);
  __adjust_heap(first, parent, len, value, comp);
  if (parent == 0) return;
  parent--;
}
```
-/
def std_make_heap_loop {α : Type} (comp : α → α → Bool) (len : Nat) : Nat → List α → List α
  | 0, buf =>
    match buf[0]? with
    | some value => std_adjust_heap comp buf 0 len value
    | none => buf
  | parent + 1, buf =>
    match buf[parent + 1]? with
    | some value =>
      std_make_heap_loop comp len parent (std_adjust_heap comp buf (parent + 1) len value)
    | none => buf

/-- `__make_heap(first, last, comp)` of the GNU library: nothing for fewer than two elements,
otherwise the loop from `parent = (len - 2) / 2`. -/
def std_make_heap {α : Type} (comp : α → α → Bool) (buf : List α) : List α :=
  if buf.length < 2 then buf else std_make_heap_loop comp buf.length ((buf.length - 2) / 2) buf

/-- `__pop_heap(first, last, result, comp)` of the GNU library, `last` being `last - first`:
```
value = *result;
*result = *first;
__adjust_heap(first, 0, last - first, value, comp);
```
-/
def std_pop_heap {α : Type} (comp : α → α → Bool) (buf : List α) (last result : Nat) : List α :=
  match buf[result]?, buf[0]? with
  | some value, some top => std_adjust_heap comp (buf.set result top) 0 last value
  | _, _ => buf

/-- `__sort_heap(first, last, comp)` of the GNU library, the first argument being
`last - first`: `while (last - first > 1) { --last; __pop_heap(first, last, last, comp); }`. -/
def std_sort_heap {α : Type} (comp : α → α → Bool) : Nat → List α → List α
  | 0, buf => buf
  | last + 1, buf =>
    if last + 1 > 1 then std_sort_heap comp last (std_pop_heap comp buf last last) else buf

/-- `__partial_sort(first, last, last, comp)` of the GNU library, the heap sort that
`__introsort_loop` falls back to: `__heap_select(first, last, last, comp)`, which is
`__make_heap(first, last, comp)` followed by a loop over the empty range `[last, last)`, then
`__sort_heap(first, last, comp)`. -/
def std_partial_sort {α : Type} (comp : α → α → Bool) (range : List α) : List α :=
  std_sort_heap comp range.length (std_make_heap comp range)

/-- `__introsort_loop(first, last, depth_limit, comp)` of the GNU library, on the range
`[first, last)` given as a list:
```
while (last - first > 16) {
  if (depth_limit == 0) { __partial_sort(first, last, last, comp); return; }
  --depth_limit;
  cut = __unguarded_partition_pivot(first, last, comp);
  __introsort_loop(cut, last, depth_limit, comp);
  last = cut;
}
```
The next trip of the loop treats `[first, cut)` as the recursive call treats `[cut, last)`. -/
def std_introsort_loop {α : Type} (comp : α → α → Bool) : Nat → List α → List α
  | 0, range => if range.length > 16 then std_partial_sort comp range else range
  | depth_limit + 1, range =>
    if range.length > 16 then
      std_introsort_loop comp depth_limit
          ((std_unguarded_partition_pivot comp range).1.take
            (std_unguarded_partition_pivot comp range).2)
        ++ std_introsort_loop comp depth_limit
          ((std_unguarded_partition_pivot comp range).1.drop
            (std_unguarded_partition_pivot comp range).2)
    else range

/-- `__unguarded_insertion_sort(first, last, comp)` of the GNU library, after the sorted range
`sorted`: every element of `rest` is inserted by `__unguarded_linear_insert`. -/
def std_unguarded_insertion_sort {α : Type} (comp : α → α → Bool) (sorted rest : List α) :
    List α :=
  (rest.foldl (fun sorted_rev val => std_linear_insert comp val sorted_rev) sorted.reverse).reverse

/-- `__final_insertion_sort(first, last, comp)` of the GNU library:
```
if (last - first > 16) {
  __insertion_sort(first, first + 16, comp);
  __unguarded_insertion_sort(first + 16, last, comp);
}
else __insertion_sort(first, last, comp);
```
-/
def std_final_insertion_sort {α : Type} (comp : α → α → Bool) (buf : List α) : List α :=
  if buf.length > 16 then
    std_unguarded_insertion_sort comp (std_insertion_sort comp (buf.take 16)) (buf.drop 16)
  else std_insertion_sort comp buf

/-- `std::ranges::sort(container, comp)`, which is `std::sort(first, last, comp)`, as the GNU
library implements it (introsort: quicksort with the median of three as pivot down to ranges of
sixteen elements, heap sort when the recursion gets too deep, then one insertion sort):
```
if (first != last) {
  __introsort_loop(first, last, __lg(last - first) * 2, comp);
  __final_insertion_sort(first, last, comp);
}
```
The standard requires the result to be a permutation ordered by `comp` and leaves the order of
equivalent elements open; this is the order the GNU library gives them. -/
def std_ranges_sort {α : Type} (comp : α → α → Bool) (buf : List α) : List α :=
  if buf.length = 0 then buf
  else std_final_insertion_sort comp (std_introsort_loop comp (std_lg buf.length * 2) buf)

/-- `sort(cmp) &`: `std::ranges::sort(container_, cmp);`. -/
def Collection.sort {α : Type} (cmp : α → α → Bool) (this : Collection α) : Collection α :=
  ⟨std_ranges_sort cmp this.container_⟩

/-- `sorted(cmp) &&`: `return sort(cmp), std::move(*this);`. -/
def Collection.sorted_rvalue {α : Type} (cmp : α → α → Bool) (this : Collection α) :
    Collection α × Collection α :=
  (Collection.sort cmp this, Collection.moved_from)

/-- `sorted(cmp) const&`: `return Collection(*this).sorted(cmp);`. -/
def Collection.sorted {α : Type} (cmp : α → α → Bool) (this : Collection α) :
    Collection α × Collection α :=
  ((Collection.sorted_rvalue cmp (Collection.copy this)).1, this)

/-- `stable_sort(cmp) &`: `std::ranges::stable_sort(container_, cmp);`. -/
def Collection.stable_sort {α : Type} (cmp : α → α → Bool) (this : Collection α) :
    Collection α :=
  ⟨std_ranges_stable_sort cmp this.container_⟩

/-- `stable_sorted(cmp) &&`: `return stable_sort(cmp), std::move(*this);`. -/
def Collection.stable_sorted_rvalue {α : Type} (cmp : α → α → Bool) (this : Collection α) :
    Collection α × Collection α :=
  (Collection.stable_sort cmp this, Collection.moved_from)

/-- `stable_sorted(cmp) const&`: `return Collection(*this).stable_sorted(cmp);`. -/
def Collection.stable_sorted {α : Type} (cmp : α → α → Bool) (this : Collection α) :
    Collection α × Collection α :=
  ((Collection.stable_sorted_rvalue cmp (Collection.copy this)).1, this)

/-- The default comparator `std::ranges::less`: `a < b` on a totally ordered element type. -/
def ranges_less {α : Type} [LinearOrder α] (a b : α) : Bool :=
  decide (a < b)

/-! ## Reverse -/

/-- The loop of `std::ranges::reverse` for random-access iterators:
`while (first < last) { std::iter_swap(first, last); ++first; --last; }`.
The first argument bounds the trip count. -/
def std_reverse_loop {α : Type} : Nat → Nat → Nat → List α → List α
  | 0, _, _, buf => buf
  | n + 1, first, last, buf =>
    if first < last then std_reverse_loop n (first + 1) (last - 1) (std_iter_swap buf first last)
    else buf

/-- `std::ranges::reverse(container)`:
`if (first != last) { --last; while (first < last) { iter_swap(first, last); ++first; --last; } }`. -/
def std_ranges_reverse {α : Type} (buf : List α) : List α :=
  if buf.length = 0 then buf
  else std_reverse_loop (buf.length / 2) 0 (buf.length - 1) buf

/-- `reverse() &`: `std::ranges::reverse(container_);`. -/
def Collection.reverse {α : Type} (this : Collection α) : Collection α :=
  ⟨std_ranges_reverse this.container_⟩

/-- `reversed() &&`: `return reverse(), std::move(*this);`. -/
def Collection.reversed_rvalue {α : Type} (this : Collection α) : Collection α × Collection α :=
  (Collection.reverse this, Collection.moved_from)

/-- `reversed() const&`: `return Collection(*this).reversed();`. -/
def Collection.reversed {α : Type} (this : Collection α) : Collection α × Collection α :=
  ((Collection.reversed_rvalue (Collection.copy this)).1, this)

/-! ## Contains -/

/-- `std::ranges::find(container, value)`: the index of the first element `e` with
`e == value`, the length of the range when there is none. -/
def std_ranges_find {α υ : Type} (eq : α → υ → Bool) (value : υ) : List α → Nat
  | [] => 0
  | e :: rest => if eq e value then 0 else std_ranges_find eq value rest + 1

/-- `contains(const value_type& value) const`:
`return std::ranges::find(container_, value) != container_.end();`. -/
def Collection.contains {α : Type} [BEq α] (value : α) (this : Collection α) : Bool :=
  std_ranges_find (fun e v => e == v) value this.container_ != this.container_.length

/-- `template <class U> contains(const U& value) const`, for a probe of another type compared
through the heterogeneous `operator==` given as `eq`. -/
def Collection.contains_U {α υ : Type} (eq : α → υ → Bool) (value : υ) (this : Collection α) :
    Bool :=
  std_ranges_find eq value this.container_ != this.container_.length

/-! ## Checked element access -/

/-- `std::vector<T>::at(pos)` and `std::array<T, N>::at(pos)`: throws `std::out_of_range` when
`pos >= size()`, returns the element at `pos` otherwise. -/
def std_at {α : Type} (container : List α) (pos : Nat) : Except Exception α :=
  if h : pos < container.length then Except.ok container[pos]
  else Except.error Exception.out_of_range

/-- `at(pos)` of the primary template: `return container_.at(pos);`. -/
def Collection.at {α : Type} (this : Collection α) (pos : Nat) : Except Exception α :=
  std_at this.container_ pos

/-- `at(pos)` of the fixed-arity specialization: `return container_.at(pos);`. -/
def ArrayCollection.at {α : Type} {N : Nat} (this : ArrayCollection α N) (pos : Nat) :
    Except Exception α :=
  std_at this.container_ pos

/-- The comparator of the stable-sort example: pairs are compared by their first component. -/
def by_first (a b : Nat × String) : Bool :=
  decide (a.1 < b.1)

/-! ## Fixed-arity specialization -/

/-- An algorithm of the standard library run on the cells of a `std::array<T, N>`.  The
algorithms work in place, reading and assigning cells, so the array keeps its `N` cells: cell
`i` receives element `i` of what the list model of the algorithm returns. -/
def ArrayCollection.in_place {α : Type} {N : Nat} (algorithm : List α → List α)
    (this : ArrayCollection α N) : ArrayCollection α N :=
  ⟨List.ofFn (fun i : Fin N =>
      ((algorithm this.container_)[i.val]?).getD
        (this.container_.get ⟨i.val, by rw [this.size_eq]; exact i.isLt⟩)),
    List.length_ofFn _⟩

/-- `Collection() = default` of the specialization: the member `container_` has no
initializer, so the array is default-initialized: a cell of a class type holds a
default-constructed element, a cell of a trivially constructible type (`int`, `double`) holds an
indeterminate value.  `indeterminate` gives, cell by cell, the value the array happens to hold;
the program does not fix it. -/
def ArrayCollection.default_constructed {α : Type} (N : Nat) (indeterminate : Fin N → α) :
    ArrayCollection α N :=
  ⟨List.ofFn indeterminate, List.length_ofFn indeterminate⟩

/-- `Collection(const container_type& container)` and `Collection(container_type&& container)`
of the specialization: the raw `std::array<T, N>`, given by its `N` cells, becomes the
container. -/
def ArrayCollection.of_container {α : Type} {N : Nat} (cells : Fin N → α) : ArrayCollection α N :=
  ⟨List.ofFn cells, List.length_ofFn cells⟩

/-- The loop of the iterator-range constructor of the specialization:
```
for (iterator it = container_.begin(); first != last && it != container_.end(); ++it, ++first)
  *it = std::move(*first);
```
The source range is the list still to be read, `it` the position in the container. -/
def array_range_loop {α : Type} : List α → Nat → List α → List α
  | [], _, buf => buf
  | x :: rest, it, buf =>
    if it < buf.length then array_range_loop rest (it + 1) (buf.set it x) else buf

/-- `Collection(FirstIt first, LastIt last)` of the specialization: the constructor has no
initializer for `container_`, which is default-initialized (`indeterminate` gives the values
its cells then hold), and the loop copies the source into it. -/
def ArrayCollection.from_range {α : Type} (N : Nat) (indeterminate : Fin N → α)
    (source : List α) : ArrayCollection α N :=
  ArrayCollection.in_place (array_range_loop source 0)
    (ArrayCollection.default_constructed N indeterminate)

/-- `Collection(std::initializer_list<value_type> il) : Collection(il.begin(), il.end())`. -/
def ArrayCollection.from_initializer_list {α : Type} (N : Nat) (indeterminate : Fin N → α)
    (il : List α) : ArrayCollection α N :=
  ArrayCollection.from_range N indeterminate il

/-- `operator=(const Collection& other) = default` of the specialization: the state left in
`*this`. -/
def ArrayCollection.assign {α : Type} {N : Nat} (_this other : ArrayCollection α N) :
    ArrayCollection α N :=
  other

/-- `operator=(const container_type& container)` of the specialization:
`return container_ = container, *this;`.  (The overload taking a `std::initializer_list` assigns
the list to the `std::array`, which has no such assignment: it cannot be instantiated and is not
embedded.) -/
def ArrayCollection.assign_container {α : Type} {N : Nat} (_this : ArrayCollection α N)
    (cells : Fin N → α) : ArrayCollection α N :=
  ArrayCollection.of_container cells

/-- `operator=(R&& range)` of the specialization: `return *this = Collection(range);`. -/
def ArrayCollection.assign_range {α : Type} {N : Nat} (this : ArrayCollection α N)
    (indeterminate : Fin N → α) (range : List α) : ArrayCollection α N :=
  ArrayCollection.assign this (ArrayCollection.from_range N indeterminate range)

/-- `swap(Collection& other)` of the specialization: `container_.swap(other.container_);`.
Returns the states left in `*this` and in `other`. -/
def ArrayCollection.swap {α : Type} {N : Nat} (this other : ArrayCollection α N) :
    ArrayCollection α N × ArrayCollection α N :=
  (other, this)

/-- `sort(cmp) &` of the specialization: `std::ranges::sort(container_, cmp);`. -/
def ArrayCollection.sort {α : Type} {N : Nat} (cmp : α → α → Bool)
    (this : ArrayCollection α N) : ArrayCollection α N :=
  ArrayCollection.in_place (std_ranges_sort cmp) this

/-- `stable_sort(cmp) &` of the specialization: `std::ranges::stable_sort(container_, cmp);`. -/
def ArrayCollection.stable_sort {α : Type} {N : Nat} (cmp : α → α → Bool)
    (this : ArrayCollection α N) : ArrayCollection α N :=
  ArrayCollection.in_place (std_ranges_stable_sort cmp) this

/-- `reverse() &` of the specialization: `std::ranges::reverse(container_);`. -/
def ArrayCollection.reverse {α : Type} {N : Nat} (this : ArrayCollection α N) :
    ArrayCollection α N :=
  ArrayCollection.in_place std_ranges_reverse this

/-- `transform(op) &&` of the specialization, branch
`std::is_same_v<result_type, value_type>`: the range-for rewrites every cell in place. -/
def ArrayCollection.transform {α : Type} {N : Nat} (op : α → α) (this : ArrayCollection α N) :
    ArrayCollection α N :=
  ArrayCollection.in_place (transform_loop op this.container_.length 0) this

/-- `std::transform(first, last, result, op)` into a range that already has its cells:
`for (; first != last; ++first, ++result) *result = op(*first);`.  The source range is the list
still to be read, `result` the position written next. -/
def std_transform_into {α β : Type} (op : α → β) : List α → Nat → List β → List β
  | [], _, out => out
  | x :: rest, result, out => std_transform_into op rest (result + 1) (out.set result (op x))

/-- `transform(op) &&` of the specialization, branch `result_type != value_type`:
```
collection_internal::ResultCollection<container_type, result_type> result;
std::transform(begin, end, result.begin(), op);
return result;
```
`ResultCollection<std::array<T, N>, U>` is `Collection<U, std::array<U, N>>`; `indeterminate`
gives the values default-initialization leaves in the cells of `result`. -/
def ArrayCollection.transform_rebind {α β : Type} {N : Nat} (op : α → β)
    (indeterminate : Fin N → β) (this : ArrayCollection α N) : ArrayCollection β N :=
  ArrayCollection.in_place (std_transform_into op this.container_ 0)
    (ArrayCollection.default_constructed N indeterminate)

/-- `std::vector<T>(first, last)`: the elements of the range are appended one by one. -/
def std_vector_from_range {α : Type} : List α → List α → List α
  | [], out => out
  | x :: rest, out => std_vector_from_range rest (out ++ [x])

/-- `Collection(FirstIt first, LastIt last) : container_(first, last)` of the primary
template. -/
def Collection.from_range {α : Type} (source : List α) : Collection α :=
  ⟨std_vector_from_range source []⟩

/-- `dynamicize() const&`:
`return Collection<value_type, C<value_type>>(container_.begin(), container_.end());`.
Returns the resizable collection and the state left in `*this`. -/
def ArrayCollection.dynamicize {α : Type} {N : Nat} (this : ArrayCollection α N) :
    Collection α × ArrayCollection α N :=
  (Collection.from_range this.container_, this)

/-- `dynamicize() &&`: the same construction through move iterators.  Only the returned
collection is modelled: the cells of `*this` are left moved-from. -/
def ArrayCollection.dynamicize_rvalue {α : Type} {N : Nat} (this : ArrayCollection α N) :
    Collection α :=
  Collection.from_range this.container_

/-! ## Reduce with an execution policy -/

/-- `reduce(policy, op, init)`:
`return std::reduce(policy, container_.begin(), container_.end(), std::move(init), op);`.
With an execution policy the library may group and reorder the operands freely: the call may
return any `r` with `GENERALIZED_SUM(op, init, e0, ..., e(n-1)) = r`.  The embedding is the
relation between the receiver and the values the call may return. -/
def Collection.reduce_policy {α : Type} (op : α → α → α) (init : α) (this : Collection α)
    (r : α) : Prop :=
  GeneralizedSum op (init :: this.container_) r

/-! ## Element access, comparison, conversions -/

/-- `std::vector<T>::front()`: `return *begin();`, the first element.  The precondition
`!empty()` is not checked and no exception is raised: on an empty vector the call has no defined
behaviour, it reads whatever storage the vector has and returns what it finds there, or
faults.  `undefined` is that outcome, which the program does not fix: `Except.ok v` when the
read yields `v`, `Except.error precondition_violation` when it faults. -/
def std_front {α : Type} (undefined : Except Exception α) : List α → Except Exception α
  | [] => undefined
  | x :: _ => Except.ok x

/-- `std::vector<T>::back()`: `return *(end() - 1);`, the last element.  The precondition
`!empty()` is not checked and no exception is raised: `undefined` is the outcome of the call on
an empty vector, as for `front()`. -/
def std_back {α : Type} (undefined : Except Exception α) : List α → Except Exception α
  | [] => undefined
  | x :: rest => Except.ok ((x :: rest).getLast (List.cons_ne_nil x rest))

/-- `front()`: `return container_.front();`. -/
def Collection.front {α : Type} (undefined : Except Exception α) (this : Collection α) :
    Except Exception α :=
  std_front undefined this.container_

/-- `back()`: `return container_.back();`. -/
def Collection.back {α : Type} (undefined : Except Exception α) (this : Collection α) :
    Except Exception α :=
  std_back undefined this.container_

/-- `explicit operator bool() const noexcept`: `return not container_.empty();`. -/
def Collection.to_bool {α : Type} (this : Collection α) : Bool :=
  !this.empty

/-- `std::equal(first1, last1, first2)` on two ranges of the same length. -/
def std_equal {α : Type} [BEq α] : List α → List α → Bool
  | [], _ => true
  | _ :: _, [] => false
  | x :: xs, y :: ys => if x == y then std_equal xs ys else false

/-- `operator==` of `std::vector`: `size() == other.size() && std::equal(begin(), end(),
other.begin())`. -/
def std_vector_eq {α : Type} [BEq α] (a b : List α) : Bool :=
  a.length == b.length && std_equal a b

/-- `operator==(const Collection& other) const`: `return container_ == other.container_;`. -/
def Collection.eq {α : Type} [BEq α] (this other : Collection α) : Bool :=
  std_vector_eq this.container_ other.container_

/-- `std::lexicographical_compare_three_way(first1, last1, first2, last2, comp)`:
```
for (; first1 != last1 && first2 != last2; ++first1, ++first2)
  if (auto c = comp(*first1, *first2); c != 0) return c;
return first1 != last1 ? greater : first2 != last2 ? less : equal;
``` -/
def std_lexicographical_compare_three_way {α : Type} (comp : α → α → Ordering) :
    List α → List α → Ordering
  | [], [] => Ordering.eq
  | [], _ :: _ => Ordering.lt
  | _ :: _, [] => Ordering.gt
  | x :: xs, y :: ys =>
    match comp x y with
    | Ordering.eq => std_lexicographical_compare_three_way comp xs ys
    | c => c

/-- `operator<=>(const Collection& other) const`: `return container_ <=> other.container_;`,
the three-way comparison of the elements being `compare`. -/
def Collection.three_way {α : Type} [Ord α] (this other : Collection α) : Ordering :=
  std_lexicographical_compare_three_way compare this.container_ other.container_

/-- `operator container_type() const&`: `return container_;`. -/
def Collection.to_container {α : Type} (this : Collection α) : List α :=
  this.container_

/-- `explicit Collection(const container_type& container) : container_(container)`. -/
def Collection.of_container {α : Type} (container : List α) : Collection α :=
  ⟨container⟩

/-- `operator container_type() const&` of the specialization: the raw `std::array<T, N>`,
given by its `N` cells. -/
def ArrayCollection.to_container {α : Type} {N : Nat} (this : ArrayCollection α N) :
    Fin N → α :=
  fun i => this.container_.get ⟨i.val, by rw [this.size_eq]; exact i.isLt⟩

/-- `operator std::pair<F, S>() const&`:
```
value_type first{};
value_type second{};
if (const_iterator it = container_.begin(); it != container_.end()) {
  first = *it;
  if (++it != end()) { second = *it; }
}
return {F(std::move(first)), S(std::move(second))};
```
`value_type{}` is `default`; `F` and `S` are the conversions of an element to the slot
types. -/
def Collection.to_pair {α φ σ : Type} [Inhabited α] (F : α → φ) (S : α → σ)
    (this : Collection α) : φ × σ :=
  match this.container_ with
  | [] => (F default, S default)
  | first :: rest =>
    match rest with
    | [] => (F first, S default)
    | second :: _ => (F first, S second)

/-- `collection_internal::assign<I>(tuple, collection)`:
```
if constexpr (I < sizeof...(Ts)) {
  if (I < collection.size()) {
    std::get<I>(tuple) = collection[I];
    assign<I + 1, T, Container, Ts...>(tuple, collection);
  }
}
```
A `std::tuple<Ts...>` of `n` slots is a dependent function on `Fin n`; `conv i` is the
assignment of an element to slot `i`.  The first argument bounds the number of
instantiations. -/
def collection_internal_assign {α : Type} {n : Nat} {Ts : Fin n → Type}
    (conv : (i : Fin n) → α → Ts i) :
    Nat → Nat → ((i : Fin n) → Ts i) → Collection α → ((i : Fin n) → Ts i)
  | 0, _, tuple, _ => tuple
  | fuel + 1, I, tuple, collection =>
    if h : I < n then
      match collection.container_[I]? with
      | some element =>
        collection_internal_assign conv fuel (I + 1)
          (Function.update tuple ⟨I, h⟩ (conv ⟨I, h⟩ element)) collection
      | none => tuple
    else tuple

/-- `operator std::tuple<Ts...>() const&`:
```
std::tuple<Ts...> result{};
collection_internal::assign(result, *this);
return result;
```
`result{}` value-initializes every slot (`default`); `assign` starts at `I = 0`. -/
def Collection.to_tuple {α : Type} {n : Nat} {Ts : Fin n → Type} [∀ i, Inhabited (Ts i)]
    (conv : (i : Fin n) → α → Ts i) (this : Collection α) : (i : Fin n) → Ts i :=
  collection_internal_assign conv n 0 (fun _ => default) this

/-! ## Geometry: `Rect2D` over the integer value types -/

/-- The integer value types `Rect2D` is instantiated with (rect2d.cpp): `std::int16_t`,
`std::int32_t`, `std::int64_t`. -/
inductive IntegerType where
  | int16
  | int32
  | int64
deriving DecidableEq

/-- The width of the value type in bits. -/
def IntegerType.bits : IntegerType → Nat
  | IntegerType.int16 => 16
  | IntegerType.int32 => 32
  | IntegerType.int64 => 64

/-- The width of the type the operands of `+` and `-` are promoted to: `int` for
`std::int16_t`, the type itself otherwise. -/
def IntegerType.promoted_bits : IntegerType → Nat
  | IntegerType.int16 => 32
  | IntegerType.int32 => 32
  | IntegerType.int64 => 64

/-- The value of the two's-complement integer of the given width that is congruent to `z`. -/
def wrap (bits : Nat) (z : Int) : Int :=
  Int.bmod z (2 ^ bits)

/-- `z` is a value of the type: it is left unchanged by `wrap`. -/
def IntegerType.in_range (T : IntegerType) (z : Int) : Prop :=
  -(2 ^ (T.bits - 1) : Int) ≤ z ∧ z < (2 ^ (T.bits - 1) : Int)

/-- `static_cast<value_type>(e)`, also the conversion of an argument to a `value_type`
parameter. -/
def IntegerType.cast (T : IntegerType) (e : Int) : Int :=
  wrap T.bits e

/-- The result of `a + b` or `a - b` on operands of the value type, `z` being the exact sum or
difference: the operation is carried out in the promoted type, where an overflow is taken to
wrap around. -/
def IntegerType.arith (T : IntegerType) (z : Int) : Int :=
  wrap T.promoted_bits z

/-- Modelled from the spec: `Point2D<T>` (robocin/geometry/point2d.h is not among the sources):
the aggregate of the coordinates `x` and `y`, as rect2d.h reads and constructs it. -/
structure Point2D where
  x : Int
  y : Int
deriving DecidableEq

/-- `Rect2D<T>`: the members `top_left`, `width`, `height`. -/
structure Rect2D where
  top_left : Point2D
  width : Int
  height : Int
deriving DecidableEq

/-- `Point2D<value_type>(x, y)`: the arguments are converted to the value type. -/
def Point2D.construct (T : IntegerType) (x y : Int) : Point2D :=
  ⟨T.cast x, T.cast y⟩

/-- The coordinates of the point are values of the type. -/
def Point2D.valid (T : IntegerType) (p : Point2D) : Prop :=
  T.in_range p.x ∧ T.in_range p.y

/-- The members of the rectangle are values of the type. -/
def Rect2D.valid (T : IntegerType) (r : Rect2D) : Prop :=
  r.top_left.valid T ∧ T.in_range r.width ∧ T.in_range r.height

/-- The sums `top_left.x + width` and `top_left.y + height` do not overflow: they are values of
the type. -/
def Rect2D.no_overflow (T : IntegerType) (r : Rect2D) : Prop :=
  T.in_range (r.top_left.x + r.width) ∧ T.in_range (r.top_left.y + r.height)

/-- `Rect2D() : top_left(0, 0), width{}, height{}`. -/
def Rect2D.default_constructed : Rect2D :=
  ⟨⟨0, 0⟩, 0, 0⟩

/-- `static consteval Rect2D create() { return Rect2D(); }`. -/
def Rect2D.create : Rect2D :=
  Rect2D.default_constructed

/-- `Rect2D(const Point2D& top_left, value_type width, value_type height)`. -/
def Rect2D.construct (top_left : Point2D) (width height : Int) : Rect2D :=
  ⟨top_left, width, height⟩

/-- `Rect2D(const Point2D& top_left, const Point2D& bottom_right)`:
```
top_left(top_left),
width{static_cast<value_type>(bottom_right.x - top_left.x)},
height{static_cast<value_type>(bottom_right.y - top_left.y)}
``` -/
def Rect2D.from_corners (T : IntegerType) (top_left bottom_right : Point2D) : Rect2D :=
  ⟨top_left, T.cast (T.arith (bottom_right.x - top_left.x)),
    T.cast (T.arith (bottom_right.y - top_left.y))⟩

/-- `isNull()` for an integer value type.  `has_epsilon_v` is false for the integer types (the
other branch calls `fuzzyIsZero`, which needs a floating-point type), so the code is
`return top_left.x == 0 and top_left.y == 0 and width == 0 and height == 0;`. -/
def Rect2D.isNull (this : Rect2D) : Bool :=
  decide (this.top_left.x = 0) && decide (this.top_left.y = 0) && decide (this.width = 0)
    && decide (this.height = 0)

/-- `operator==` for an integer value type:
```
return top_left.x == other.top_left.x and top_left.y == other.top_left.y
       and width == other.width and height == other.height;
``` -/
def Rect2D.eq (this other : Rect2D) : Bool :=
  decide (this.top_left.x = other.top_left.x) && decide (this.top_left.y = other.top_left.y)
    && decide (this.width = other.width) && decide (this.height = other.height)

/-- `contains(const Point2D<value_type>& point)`:
```
return top_left.x <= point.x and point.x <= (top_left.x + width) and point.y >= top_left.y
       and point.y <= (top_left.y + height);
``` -/
def Rect2D.contains (T : IntegerType) (this : Rect2D) (point : Point2D) : Bool :=
  decide (this.top_left.x ≤ point.x) && decide (point.x ≤ T.arith (this.top_left.x + this.width))
    && decide (point.y ≥ this.top_left.y)
    && decide (point.y ≤ T.arith (this.top_left.y + this.height))

/-- `contains(const Rect2D& rect)`:
```
return this->contains(rect.top_left)
       and this->contains(
           Point2D<value_type>(rect.top_left.x + rect.width, rect.top_left.y + rect.height));
``` -/
def Rect2D.contains_rect (T : IntegerType) (this rect : Rect2D) : Bool :=
  this.contains T rect.top_left
    && this.contains T (Point2D.construct T (T.arith (rect.top_left.x + rect.width))
        (T.arith (rect.top_left.y + rect.height)))

/-- `intersects(const Rect2D& other)`:
`return this->contains(other.top_left) or other.contains(this->top_left);`. -/
def Rect2D.intersects (T : IntegerType) (this other : Rect2D) : Bool :=
  this.contains T other.top_left || other.contains T this.top_left

/-! ## Shape rebinding -/

/-- A C++ type as the rebinding engine sees it: a type that is not a specialization of a
template, a specialization `Container<Ts...>` of a template whose parameters are all types, or
a specialization `Container<T, N>` of a template with one type and one `std::size_t`
parameter. -/
inductive CppType where
  | named (name : String)
  | of_types (template_name : String) (arguments : List CppType)
  | of_type_and_size (template_name : String) (argument : CppType) (n : Nat)

/-- `template_container<Container>::type`, the member alias template of the matching partial
specialization:
```
template <class... Ts, template <class...> class Container>
struct template_container<Container<Ts...>> {
  template <class... Us> using type = Container<Us...>;
};
template <class T, std::size_t N, template <class, std::size_t> class Container>
struct template_container<Container<T, N>> {
  template <class U> using type = Container<U, N>;
};
```
applied to one type `U`, as `ResultCollection` applies it.  `Container<U>` names the
specialization in which every parameter after the first has its default argument:
`default_arguments Container U` lists these.  The primary template is only declared, so other
types have no `type`. -/
def template_container_type (default_arguments : String → CppType → List CppType) :
    CppType → CppType → Option CppType
  | CppType.of_types template_name _, U =>
    some (CppType.of_types template_name (U :: default_arguments template_name U))
  | CppType.of_type_and_size template_name _ n, U =>
    some (CppType.of_type_and_size template_name U n)
  | CppType.named _, _ => none

/-- `ResultCollection<Container, U>`:
`Collection<U, typename template_container<Container>::template type<U>>`. -/
def ResultCollection (default_arguments : String → CppType → List CppType)
    (Container U : CppType) : Option CppType :=
  (template_container_type default_arguments Container U).map
    (fun container => CppType.of_types "robocin::Collection" [U, container])

/-- The default template arguments of the sequence containers of the standard library:
`template <class T, class Allocator = std::allocator<T>> class vector` (likewise `deque`,
`list`, `forward_list`). -/
def std_default_arguments (template_name : String) (U : CppType) : List CppType :=
  if template_name = "std::vector" ∨ template_name = "std::deque" ∨ template_name = "std::list"
      ∨ template_name = "std::forward_list" then
    [CppType.of_types "std::allocator" [U]]
  else []

/-! ## Transform, flat transform and filter with an execution policy -/

/-- The positions `0, ..., n - 1`, each exactly once, in the order a parallel algorithm
processes them. -/
def is_schedule (n : Nat) (schedule : List Nat) : Prop :=
  schedule.Perm (List.range n)

/-- `std::for_each(policy, first, last, f)` with `f` assigning through its argument
(`value = std::move(map_value(value))`): `f` is applied to every cell once, in an order the
library chooses; `schedule` lists the positions in that order. -/
def std_for_each_policy {α : Type} (schedule : List Nat) (map_value : α → α)
    (buf : List α) : List α :=
  schedule.foldl
    (fun b i =>
      match b[i]? with
      | some value => b.set i (map_value value)
      | none => b)
    buf

/-- `std::transform(policy, first, last, result, op)` into a range that already has its
cells: `result[i] = op(first[i])` for every position `i`, in the order of `schedule`. -/
def std_transform_policy {α β : Type} (schedule : List Nat) (op : α → β) (src : List α)
    (result : Nat) (out : List β) : List β :=
  schedule.foldl
    (fun o i =>
      match src[i]? with
      | some x => o.set (result + i) (op x)
      | none => o)
    out

/-- `transform(policy, op) &&`, branch `std::is_same_v<result_type, value_type>`:
`std::for_each(policy, begin, end, ...)` rewrites the cells and `std::move(*this)` is
returned. -/
def Collection.transform_policy_rvalue {α : Type} (schedule : List Nat) (op : α → α)
    (this : Collection α) : Collection α × Collection α :=
  (⟨std_for_each_policy schedule op this.container_⟩, Collection.moved_from)

/-- `transform(policy, op) const&`, same-type branch:
`return Collection(*this).transform(policy, op);`. -/
def Collection.transform_policy {α : Type} (schedule : List Nat) (op : α → α)
    (this : Collection α) : Collection α × Collection α :=
  ((Collection.transform_policy_rvalue schedule op (Collection.copy this)).1, this)

/-- `explicit Collection(size_type count) : container_(count)`: `count` value-initialized
elements. -/
def Collection.of_count {α : Type} [Inhabited α] (count : Nat) : Collection α :=
  ⟨List.replicate count default⟩

/-- `transform(policy, op) &&`, branch `result_type != value_type`:
```
collection_internal::ResultCollection<container_type, result_type> result(container_.size());
std::transform(policy, begin, end, result.begin(), op);
return result;
``` -/
def Collection.transform_rebind_policy_rvalue {α β : Type} [Inhabited β] (schedule : List Nat)
    (op : α → β) (this : Collection α) : Collection β :=
  ⟨std_transform_policy schedule op this.container_ 0
    (Collection.of_count this.container_.length).container_⟩

/-- `transform(policy, op) const&`, branch `result_type != value_type`. -/
def Collection.transform_rebind_policy {α β : Type} [Inhabited β] (schedule : List Nat)
    (op : α → β) (this : Collection α) : Collection β × Collection α :=
  (Collection.transform_rebind_policy_rvalue schedule op (Collection.copy this), this)

/-- The loop of `flat_transform(policy, op) &&`:
```
for (auto&& element : container_) {
  out = std::transform(pol, std::begin(element), std::end(element), out, fun);
}
```
`out` is the position in `result`; the inner ranges are transformed one after the other, each
with its own schedule. -/
def flat_transform_policy_loop {α β : Type} (fun_ : α → β) :
    List (List α) → List (List Nat) → Nat → List β → List β
  | [], _, _, result => result
  | element :: rest, schedules, out, result =>
    flat_transform_policy_loop fun_ rest schedules.tail (out + element.length)
      (std_transform_policy (schedules.headD []) fun_ element out result)

/-- `flat_transform(policy, op) &&`:
```
size_type result_size = std::reduce(pol, sizes_view.begin(), sizes_view.end(), size_type{0});
collection_internal::ResultCollection<container_type, result_type> result(result_size);
auto&& out = result.begin();
for (auto&& element : container_) { out = std::transform(pol, ..., out, fun); }
return result;
```
`result_size` is the value the reduction of the inner sizes returned. -/
def Collection.flat_transform_policy_rvalue {α β : Type} [Inhabited β] (result_size : Nat)
    (schedules : List (List Nat)) (op : α → β) (this : Collection (List α)) : Collection β :=
  ⟨flat_transform_policy_loop op this.container_ schedules 0
    (Collection.of_count result_size).container_⟩

/-- `flat_transform(policy, op) const&`:
`return Collection(*this).flat_transform(policy, op);`. -/
def Collection.flat_transform_policy {α β : Type} [Inhabited β] (result_size : Nat)
    (schedules : List (List Nat)) (op : α → β) (this : Collection (List α)) :
    Collection β × Collection (List α) :=
  (Collection.flat_transform_policy_rvalue result_size schedules op (Collection.copy this),
    this)

/-- `std::remove_if(policy, first, last, pred)`: by [alg.remove] the elements that do not
satisfy `pred` are moved to the front in their order and the iterator past them is returned;
the cells from there on are left with unspecified values, given by `unspecified`. -/
def std_remove_if_policy {α : Type} (unspecified : List α) (pred : α → Bool) (buf : List α) :
    List α × Nat :=
  ((buf.filter (fun x => !pred x)) ++
      unspecified.take (buf.length - (buf.filter (fun x => !pred x)).length),
    (buf.filter (fun x => !pred x)).length)

/-- `filter(policy, predicate) &`:
```
iterator last = std::remove_if(policy, begin, end, std::not_fn(predicate));
container_.erase(last, container_.end());
``` -/
def Collection.filter_policy {α : Type} (unspecified : List α) (predicate : α → Bool)
    (this : Collection α) : Collection α :=
  ⟨std_erase_to_end (std_remove_if_policy unspecified (fun x => !predicate x) this.container_).1
    (std_remove_if_policy unspecified (fun x => !predicate x) this.container_).2⟩

/-- `filtered(policy, predicate) &&`: `filter(policy, predicate); return std::move(*this);`. -/
def Collection.filtered_policy_rvalue {α : Type} (unspecified : List α) (predicate : α → Bool)
    (this : Collection α) : Collection α × Collection α :=
  (Collection.filter_policy unspecified predicate this, Collection.moved_from)

/-- `filtered(policy, predicate) const&`:
`return Collection(*this).filtered(policy, predicate);`. -/
def Collection.filtered_policy {α : Type} (unspecified : List α) (predicate : α → Bool)
    (this : Collection α) : Collection α × Collection α :=
  ((Collection.filtered_policy_rvalue unspecified predicate (Collection.copy this)).1, this)

/-- `contains(const Point2D<value_type>& point)` over an arbitrary value type, integer or
floating-point: `le` is the `<=` of the type (`a >= b` is `b <= a`), `add` its `+`; the
rectangle and the point are given by their members. -/
def contains_any {V : Type} (le : V → V → Bool) (add : V → V → V)
    (top_left_x top_left_y width height : V) (point_x point_y : V) : Bool :=
  le top_left_x point_x && le point_x (add top_left_x width) && le top_left_y point_y
    && le point_y (add top_left_y height)

/-- `intersects(const Rect2D& other)` over an arbitrary value type:
`return this->contains(other.top_left) or other.contains(this->top_left);`. -/
def intersects_any {V : Type} (le : V → V → Bool) (add : V → V → V)
    (x y width height other_x other_y other_width other_height : V) : Bool :=
  contains_any le add x y width height other_x other_y
    || contains_any le add other_x other_y other_width other_height x y

/-! ## Geometry: the array-like interface of `Rect2D` -/

/-- The members of a `Rect2D<T>` that the array-like interface and the iterator read, for any
value type `V`, integer or floating-point (the concept `StructRect` of rect2d_internal.h:
`rect.top_left`, `rect.width`, `rect.height`). -/
structure StructRect (V : Type) where
  top_left_x : V
  top_left_y : V
  width : V
  height : V

/-- The members of a rectangle over an integer value type. -/
def Rect2D.to_struct (this : Rect2D) : StructRect Int :=
  ⟨this.top_left.x, this.top_left.y, this.width, this.height⟩

/-- `static consteval size_type size() { return 4; }`. -/
def StructRect.size {V : Type} (_this : StructRect V) : Nat :=
  4

/-- `operator[](size_type pos)` of `Rect2D`, both overloads: a `switch` on `pos` returning
`top_left.x`, `top_left.y`, `width`, `height` for `0`, `1`, `2`, `3` and throwing
`std::out_of_range` in the `default` case.  `size_type` is unsigned. -/
def StructRect.subscript {V : Type} (this : StructRect V) (pos : Nat) : Except Exception V :=
  match pos with
  | 0 => Except.ok this.top_left_x
  | 1 => Except.ok this.top_left_y
  | 2 => Except.ok this.width
  | 3 => Except.ok this.height
  | _ => Except.error Exception.out_of_range

/-- The class `rect2d_internal::iterator<RT>`: the pointer `ptr_` to the rectangle (`none` is
`nullptr`, the value of a default-constructed iterator) and the signed index `index_`. -/
structure rect2d_internal.iterator (V : Type) where
  ptr_ : Option (StructRect V)
  index_ : Int

/-- A member read through `ptr_->`: reading through a null pointer has no defined behaviour. -/
def rect2d_internal.iterator.arrow {V : Type} (ptr_ : Option (StructRect V))
    (member : StructRect V → V) : Except Exception V :=
  match ptr_ with
  | some rect => Except.ok (member rect)
  | none => Except.error Exception.precondition_violation

/-- `operator[](difference_type n)` of the iterator: a `switch` on `index_ + n` returning
`ptr_->top_left.x`, `ptr_->top_left.y`, `ptr_->width`, `ptr_->height` for `0`, `1`, `2`, `3` and
throwing `std::out_of_range` in the `default` case. -/
def rect2d_internal.iterator.subscript {V : Type} (this : rect2d_internal.iterator V) (n : Int) :
    Except Exception V :=
  if this.index_ + n = 0 then rect2d_internal.iterator.arrow this.ptr_ StructRect.top_left_x
  else if this.index_ + n = 1 then rect2d_internal.iterator.arrow this.ptr_ StructRect.top_left_y
  else if this.index_ + n = 2 then rect2d_internal.iterator.arrow this.ptr_ StructRect.width
  else if this.index_ + n = 3 then rect2d_internal.iterator.arrow this.ptr_ StructRect.height
  else Except.error Exception.out_of_range

/-- `operator*()` of the iterator: the same `switch`, on `index_`. -/
def rect2d_internal.iterator.dereference {V : Type} (this : rect2d_internal.iterator V) :
    Except Exception V :=
  if this.index_ = 0 then rect2d_internal.iterator.arrow this.ptr_ StructRect.top_left_x
  else if this.index_ = 1 then rect2d_internal.iterator.arrow this.ptr_ StructRect.top_left_y
  else if this.index_ = 2 then rect2d_internal.iterator.arrow this.ptr_ StructRect.width
  else if this.index_ = 3 then rect2d_internal.iterator.arrow this.ptr_ StructRect.height
  else Except.error Exception.out_of_range

/-- `operator++()` of the iterator: `return ++index_, *this;`. -/
def rect2d_internal.iterator.pre_increment {V : Type} (this : rect2d_internal.iterator V) :
    rect2d_internal.iterator V :=
  ⟨this.ptr_, this.index_ + 1⟩

/-- `begin()` and `cbegin()` of `Rect2D`: `iterator{this, /*index=*/0}`. -/
def StructRect.cbegin {V : Type} (this : StructRect V) : rect2d_internal.iterator V :=
  ⟨some this, 0⟩

/-- `end()` and `cend()` of `Rect2D`: `iterator{this, size()}`. -/
def StructRect.cend {V : Type} (this : StructRect V) : rect2d_internal.iterator V :=
  ⟨some this, (this.size : Int)⟩

/-- The iteration `for (auto it = first; it != last; ++it) visit(*it);` over two iterators into
one rectangle (their `ptr_` are the same pointer, so the defaulted `operator==` compares the
indices), collecting the values visited.  The first argument bounds the trip count: the result
is `none` when it is used up before the loop ends. -/
def rect2d_internal.iterate {V : Type} :
    Nat → rect2d_internal.iterator V → rect2d_internal.iterator V → List V →
      Option (Except Exception (List V))
  | 0, _, _, _ => none
  | fuel + 1, it, last, visited =>
    if it.index_ = last.index_ then some (Except.ok visited)
    else
      match it.dereference with
      | Except.error e => some (Except.error e)
      | Except.ok value => rect2d_internal.iterate fuel it.pre_increment last (visited ++ [value])

/-! ## Fuzzy comparison -/

/-- The operations of the arithmetic types that the fuzzy comparisons use: for operands brought
to their common type `C` and an epsilon of the floating-point type `E`, the difference
`lhs - rhs`, `std::abs`, the comparison `value <= epsilon` and the comparison `lhs < rhs`.
Nothing is assumed of them: the integer types and the IEEE floating-point types with their NaNs
and infinities are instances. -/
structure ArithmeticType (C E : Type) where
  sub : C → C → C
  abs : C → C
  le : C → E → Bool
  lt : C → C → Bool

/-- Exact arithmetic: the operations of a linearly ordered field, such as the rationals and the
reals. -/
def exact_arithmetic (α : Type) [LinearOrderedField α] : ArithmeticType α α :=
  ⟨fun a b => a - b, fun a => |a|, fun a b => decide (a ≤ b), fun a b => decide (a < b)⟩

/-- `std::is_lt` of a `std::strong_ordering`. -/
def std_is_lt : Ordering → Bool
  | Ordering.lt => true
  | _ => false

/-- `std::is_lteq` of a `std::strong_ordering`. -/
def std_is_lteq : Ordering → Bool
  | Ordering.gt => false
  | _ => true

/-- `std::is_gt` of a `std::strong_ordering`. -/
def std_is_gt : Ordering → Bool
  | Ordering.gt => true
  | _ => false

/-- `std::is_gteq` of a `std::strong_ordering`. -/
def std_is_gteq : Ordering → Bool
  | Ordering.lt => false
  | _ => true

/-- `fuzzyIsZero(value, epsilon)`: `return std::abs(value) <= epsilon;`. -/
def fuzzyIsZero {C E : Type} (A : ArithmeticType C E) (value : C) (epsilon : E) : Bool :=
  A.le (A.abs value) epsilon

/-- `fuzzyCmpEqual(lhs, rhs, epsilon)`: `return std::abs(lhs - rhs) <= epsilon;`. -/
def fuzzyCmpEqual {C E : Type} (A : ArithmeticType C E) (lhs rhs : C) (epsilon : E) : Bool :=
  A.le (A.abs (A.sub lhs rhs)) epsilon

/-- `fuzzyCmpNotEqual(lhs, rhs, epsilon)`: `return not fuzzyCmpEqual(lhs, rhs, epsilon);`. -/
def fuzzyCmpNotEqual {C E : Type} (A : ArithmeticType C E) (lhs rhs : C) (epsilon : E) : Bool :=
  !fuzzyCmpEqual A lhs rhs epsilon

/-- `fuzzyCmpThreeWay(lhs, rhs, epsilon)`:
```
if (fuzzyCmpEqual(lhs, rhs, epsilon)) { return std::strong_ordering::equal; }
return (lhs < rhs) ? std::strong_ordering::less : std::strong_ordering::greater;
```
-/
def fuzzyCmpThreeWay {C E : Type} (A : ArithmeticType C E) (lhs rhs : C) (epsilon : E) :
    Ordering :=
  if fuzzyCmpEqual A lhs rhs epsilon then Ordering.eq
  else if A.lt lhs rhs then Ordering.lt else Ordering.gt

/-- `fuzzyCmpLess(lhs, rhs, epsilon)`:
`return std::is_lt(fuzzyCmpThreeWay(lhs, rhs, epsilon));`. -/
def fuzzyCmpLess {C E : Type} (A : ArithmeticType C E) (lhs rhs : C) (epsilon : E) : Bool :=
  std_is_lt (fuzzyCmpThreeWay A lhs rhs epsilon)

/-- `fuzzyCmpLessEqual(lhs, rhs, epsilon)`:
`return std::is_lteq(fuzzyCmpThreeWay(lhs, rhs, epsilon));`. -/
def fuzzyCmpLessEqual {C E : Type} (A : ArithmeticType C E) (lhs rhs : C) (epsilon : E) : Bool :=
  std_is_lteq (fuzzyCmpThreeWay A lhs rhs epsilon)

/-- `fuzzyCmpGreater(lhs, rhs, epsilon)`:
`return std::is_gt(fuzzyCmpThreeWay(lhs, rhs, epsilon));`. -/
def fuzzyCmpGreater {C E : Type} (A : ArithmeticType C E) (lhs rhs : C) (epsilon : E) : Bool :=
  std_is_gt (fuzzyCmpThreeWay A lhs rhs epsilon)

/-- `fuzzyCmpGreaterEqual(lhs, rhs, epsilon)`:
`return std::is_gteq(fuzzyCmpThreeWay(lhs, rhs, epsilon));`. -/
def fuzzyCmpGreaterEqual {C E : Type} (A : ArithmeticType C E) (lhs rhs : C) (epsilon : E) :
    Bool :=
  std_is_gteq (fuzzyCmpThreeWay A lhs rhs epsilon)

/-! ## Floating-point operands of the fuzzy comparisons -/

/-- The values of an IEEE 754 binary floating-point type: NaN, the two infinities, and the
finite values, each given by the rational number it stands for (the two zeros are not told
apart; `-`, `std::abs`, `<=` and `<` agree on them up to the sign of a zero result). -/
inductive IeeeValue where
  | nan
  | infinity (negative : Bool)
  | finite (value : ℚ)
deriving DecidableEq

/-- Unary minus on floating-point values. -/
def IeeeValue.neg : IeeeValue → IeeeValue
  | IeeeValue.nan => IeeeValue.nan
  | IeeeValue.infinity negative => IeeeValue.infinity (!negative)
  | IeeeValue.finite value => IeeeValue.finite (-value)

/-- The integer nearest to a rational, the even one of the two when it lies halfway. -/
def round_half_even (q : ℚ) : Int :=
  if q - Int.floor q < 1 / 2 then Int.floor q
  else if 1 / 2 < q - Int.floor q then Int.floor q + 1
  else if Int.floor q % 2 = 0 then Int.floor q
  else Int.floor q + 1

/-- The `double` (binary64) nearest to a positive rational `q`, ties to even, which is the
default rounding: the result has 53 significant bits, so it is a multiple of
`2 ^ (e - 52)` for the exponent `e` of `q`, no exponent being below `-1022`; a result that
reaches `2 ^ 1024` overflows to infinity. -/
def round_binary64_positive (q : ℚ) : IeeeValue :=
  if (round_half_even (q / 2 ^ (max (Int.log 2 q) (-1022) - 52)) : ℚ)
      * 2 ^ (max (Int.log 2 q) (-1022) - 52) < 2 ^ 1024
  then IeeeValue.finite ((round_half_even (q / 2 ^ (max (Int.log 2 q) (-1022) - 52)) : ℚ)
      * 2 ^ (max (Int.log 2 q) (-1022) - 52))
  else IeeeValue.infinity false

/-- The `double` (binary64) nearest to a rational, ties to even. -/
def round_binary64 (q : ℚ) : IeeeValue :=
  if q = 0 then IeeeValue.finite 0
  else if 0 < q then round_binary64_positive q
  else IeeeValue.neg (round_binary64_positive (-q))

/-- `lhs - rhs` on floating-point values: NaN when an operand is NaN or both are the same
infinity, an infinity when one operand is infinite, and otherwise the exact difference rounded
to the format by `round`. -/
def IeeeValue.sub (round : ℚ → IeeeValue) : IeeeValue → IeeeValue → IeeeValue
  | IeeeValue.nan, _ => IeeeValue.nan
  | _, IeeeValue.nan => IeeeValue.nan
  | IeeeValue.infinity s, IeeeValue.infinity t =>
    if s = t then IeeeValue.nan else IeeeValue.infinity s
  | IeeeValue.infinity s, IeeeValue.finite _ => IeeeValue.infinity s
  | IeeeValue.finite _, IeeeValue.infinity t => IeeeValue.infinity (!t)
  | IeeeValue.finite x, IeeeValue.finite y => round (x - y)

/-- `std::abs` on floating-point values. -/
def IeeeValue.abs : IeeeValue → IeeeValue
  | IeeeValue.nan => IeeeValue.nan
  | IeeeValue.infinity _ => IeeeValue.infinity false
  | IeeeValue.finite value => IeeeValue.finite |value|

/-- `a <= b` on floating-point values: false when an operand is NaN. -/
def IeeeValue.le : IeeeValue → IeeeValue → Bool
  | IeeeValue.nan, _ => false
  | _, IeeeValue.nan => false
  | IeeeValue.infinity s, IeeeValue.infinity t => s || !t
  | IeeeValue.infinity s, IeeeValue.finite _ => s
  | IeeeValue.finite _, IeeeValue.infinity t => !t
  | IeeeValue.finite x, IeeeValue.finite y => decide (x ≤ y)

/-- `a < b` on floating-point values: false when an operand is NaN. -/
def IeeeValue.lt : IeeeValue → IeeeValue → Bool
  | IeeeValue.nan, _ => false
  | _, IeeeValue.nan => false
  | IeeeValue.infinity s, IeeeValue.infinity t => s && !t
  | IeeeValue.infinity s, IeeeValue.finite _ => s
  | IeeeValue.finite _, IeeeValue.infinity t => !t
  | IeeeValue.finite x, IeeeValue.finite y => decide (x < y)

/-- The arithmetic of an IEEE 754 floating-point type whose rounding is `round`. -/
def ieee_arithmetic (round : ℚ → IeeeValue) : ArithmeticType IeeeValue IeeeValue :=
  ⟨IeeeValue.sub round, IeeeValue.abs, IeeeValue.le, IeeeValue.lt⟩

/-- The arithmetic of `double` under the default rounding. -/
def binary64 : ArithmeticType IeeeValue IeeeValue :=
  ieee_arithmetic round_binary64

/-! ## Angles -/

/-- The integral part of a quotient, the fractional part truncated (rounding toward zero). -/
def std_trunc {α : Type} [LinearOrderedField α] [FloorRing α] (q : α) : Int :=
  if 0 ≤ q then Int.floor q else Int.ceil q

/-- Reference model of `std::fmod(x, y)` over exact arithmetic: `x - n * y`, where `n` is the
quotient `x / y` with its fractional part truncated. -/
def std_fmod {α : Type} [LinearOrderedField α] [FloorRing α] (x y : α) : α :=
  x - (std_trunc (x / y) : α) * y

/-- `normalizeAngle(angle)` over exact arithmetic.  `kPi` is the constant
`std::numbers::pi_v<F>` of the standard library.
```
constexpr F k2Pi = 2 * kPi;
if (-kPi <= angle && angle <= kPi) { return static_cast<F>(angle); }
F result = std::fmod(static_cast<F>(angle), k2Pi);
if (result < -kPi) { result += k2Pi; } else if (result > kPi) { result -= k2Pi; }
return result;
```
-/
def normalizeAngle {α : Type} [LinearOrderedField α] [FloorRing α] (kPi : α) (angle : α) : α :=
  if -kPi ≤ angle ∧ angle ≤ kPi then angle
  else
    if std_fmod angle (2 * kPi) < -kPi then std_fmod angle (2 * kPi) + 2 * kPi
    else if std_fmod angle (2 * kPi) > kPi then std_fmod angle (2 * kPi) - 2 * kPi
    else std_fmod angle (2 * kPi)

/-! ## Fixed-arity specialization: copying reverse and the range constructor -/

/-- `reversed() &&` of the specialization: `return reverse(), std::move(*this);`: the
collection returned. -/
def ArrayCollection.reversed_rvalue {α : Type} {N : Nat} (this : ArrayCollection α N) :
    ArrayCollection α N :=
  ArrayCollection.reverse this

/-- `reversed() const&` of the specialization: `return Collection(*this).reversed();`: the
collection returned and the state of `*this`. -/
def ArrayCollection.reversed {α : Type} {N : Nat} (this : ArrayCollection α N) :
    ArrayCollection α N × ArrayCollection α N :=
  (ArrayCollection.reversed_rvalue ⟨this.container_, this.size_eq⟩, this)

/-- `Collection(R&& range)` of the specialization:
`Collection(std::begin(std::forward<R>(range)), std::end(std::forward<R>(range)))`. -/
def ArrayCollection.of_range {α : Type} (N : Nat) (indeterminate : Fin N → α)
    (range : List α) : ArrayCollection α N :=
  ArrayCollection.from_range N indeterminate range

/-! ## Theorems -/

/-- Overwriting cell `n` does not change the first `n` cells. -/
theorem take_set_self {α : Type} (l : List α) (n : Nat) (a : α) :
    (l.set n a).take n = l.take n := by
  induction l generalizing n with
  | nil => simp
  | cons x xs ih => cases n <;> simp [ih]

/-- Invariant of the copying loop of `std::remove_if`: with `orig` the buffer on entry to the
algorithm, the first `result` cells hold the elements of `orig.take first` that are kept, and the
cells from `first` on are untouched. -/
theorem std_remove_if_loop_spec {α : Type} (pred : α → Bool) (orig : List α) :
    ∀ (n : Nat) (buf : List α) (result first : Nat),
      result ≤ first → first + n = orig.length → buf.length = orig.length →
      buf.take result = (orig.take first).filter (fun x => !pred x) →
      buf.drop first = orig.drop first →
      (std_remove_if_loop pred n buf result first).1.take
          (std_remove_if_loop pred n buf result first).2
        = orig.filter (fun x => !pred x) := by
  intro n
  induction n with
  | zero =>
    intro buf result first _ hn _ htake _
    have h : first = orig.length := by omega
    simp only [std_remove_if_loop]
    rw [htake, h, List.take_length]
  | succ n ih =>
    intro buf result first hle hn hlen htake hdrop
    have hlt : first < buf.length := by omega
    have hlt2 : first < orig.length := by omega
    have hget : buf[first] = orig[first] := by
      have h1 : (buf.drop first)[0]? = (orig.drop first)[0]? := by rw [hdrop]
      simpa [List.getElem?_drop, List.getElem?_eq_getElem hlt, List.getElem?_eq_getElem hlt2]
        using h1
    have htk : orig.take (first + 1) = orig.take first ++ [orig[first]] := by
      rw [List.take_succ, List.getElem?_eq_getElem hlt2]; rfl
    simp only [std_remove_if_loop, List.getElem?_eq_getElem hlt]
    by_cases hp : pred buf[first] = true
    · simp only [hp, Bool.not_true, Bool.false_eq_true, if_false]
      apply ih buf result (first + 1) (by omega) (by omega) hlen
      · rw [htk, List.filter_append, htake]
        simp [← hget, hp]
      · rw [← List.drop_drop, ← List.drop_drop, hdrop]
    · simp only [Bool.not_eq_true] at hp
      simp only [hp, Bool.not_false, if_true]
      apply ih (buf.set result buf[first]) (result + 1) (first + 1) (by omega) (by omega)
        (by simp [hlen])
      · rw [htk, List.filter_append, ← htake]
        have hr : result < buf.length := by omega
        rw [List.take_succ, take_set_self]
        simp [← hget, hp, hr]
      · rw [List.drop_set_of_lt _ _ (by omega : result < first + 1)]
        rw [← List.drop_drop, ← List.drop_drop, hdrop]

/-- What `std::find_if` returns: no element before the returned index satisfies `pred`, and the
element at the returned index, when there is one, does. -/
theorem std_find_if_spec {α : Type} (pred : α → Bool) (buf : List α) :
    std_find_if pred buf ≤ buf.length ∧
    (buf.take (std_find_if pred buf)).filter (fun x => !pred x)
      = buf.take (std_find_if pred buf) ∧
    buf.filter (fun x => !pred x)
      = buf.take (std_find_if pred buf)
        ++ (buf.drop (std_find_if pred buf)).filter (fun x => !pred x) ∧
    (∀ h : std_find_if pred buf < buf.length, pred buf[std_find_if pred buf] = true) := by
  induction buf with
  | nil => simp [std_find_if]
  | cons x xs ih =>
    by_cases hp : pred x = true
    · simp [std_find_if, hp]
    · simp only [Bool.not_eq_true] at hp
      obtain ⟨h1, h2, h3, h4⟩ := ih
      refine ⟨?_, ?_, ?_, ?_⟩
      · simp [std_find_if, hp, h1]
      · simp [std_find_if, hp, h2]
      · simp only [std_find_if, hp, Bool.false_eq_true, if_false, List.take_succ_cons,
          List.drop_succ_cons, List.cons_append]
        rw [List.filter_cons_of_pos (by simp [hp]), h3]
      · intro h
        simp only [std_find_if, hp, Bool.false_eq_true, if_false, List.length_cons,
          Nat.add_lt_add_iff_right] at h
        simpa [std_find_if, hp] using h4 h

/-- The cells before the index `std::remove_if` returns are exactly the elements of the range
that do not satisfy `pred`, in their original order. -/
theorem std_remove_if_spec {α : Type} (pred : α → Bool) (buf : List α) :
    (std_remove_if pred buf).1.take (std_remove_if pred buf).2
      = buf.filter (fun x => !pred x) := by
  obtain ⟨h1, h2, h3, h4⟩ := std_find_if_spec pred buf
  unfold std_remove_if
  by_cases hf : std_find_if pred buf = buf.length
  · simp only [hf, if_true]
    rw [hf] at h2
    simpa using h2.symm
  · simp only [hf, if_false]
    have hlt : std_find_if pred buf < buf.length := by omega
    apply std_remove_if_loop_spec pred buf _ buf _ _ (by omega) (by omega) rfl _ rfl
    rw [List.take_succ, List.getElem?_eq_getElem hlt, List.filter_append, h2]
    simp [h4 hlt]

/-- The contents `filter(predicate) &` leaves in the container. -/
theorem Collection.filter_container {α : Type} (predicate : α → Bool) (c : Collection α) :
    (Collection.filter predicate c).container_ = c.container_.filter predicate := by
  simp only [Collection.filter, std_erase_to_end, std_remove_if_spec, Bool.not_not]

/-- C1: for every resizable Collection `c` and predicate `p`, `c.filtered(p)` and the state
left by the mutating `c.filter(p)` are exactly the subsequence of the elements of `c` that
satisfy `p`, in their original relative order, and the size of the result is the number of
elements of `c` satisfying `p`. -/
theorem C1_filtered_is_subsequence {α : Type} (c : Collection α) (p : α → Bool) :
    (Collection.filtered p c).1.container_ = c.container_.filter p ∧
    (Collection.filter p c).container_ = c.container_.filter p ∧
    (Collection.filtered p c).1.container_.Sublist c.container_ ∧
    (∀ x, x ∈ (Collection.filtered p c).1.container_ ↔ x ∈ c.container_ ∧ p x = true) ∧
    (Collection.filtered p c).1.size = c.container_.countP p ∧
    (Collection.filter p c).size = c.container_.countP p := by
  have h : (Collection.filtered p c).1.container_ = c.container_.filter p := by
    simp [Collection.filtered, Collection.filtered_rvalue, Collection.copy,
      Collection.filter_container]
  refine ⟨h, Collection.filter_container p c, ?_, ?_, ?_, ?_⟩
  · rw [h]; exact List.filter_sublist _
  · intro x; rw [h]; exact List.mem_filter
  · rw [Collection.size, h, List.countP_eq_length_filter]
  · rw [Collection.size, Collection.filter_container, List.countP_eq_length_filter]

/-- Invariant of the range-for of `transform`: the cells before the iterator are mapped, the
cells from the iterator on are untouched. -/
theorem transform_loop_spec {α : Type} (map_value : α → α) :
    ∀ (n it : Nat) (buf : List α), it + n = buf.length →
      transform_loop map_value n it buf = buf.take it ++ (buf.drop it).map map_value := by
  intro n
  induction n with
  | zero =>
    intro it buf h
    have h2 : buf.length ≤ it := by omega
    simp [transform_loop, List.drop_eq_nil_of_le h2, List.take_of_length_le h2]
  | succ n ih =>
    intro it buf h
    have hlt : it < buf.length := by omega
    simp only [transform_loop, List.getElem?_eq_getElem hlt]
    rw [ih _ _ (by simp; omega)]
    rw [List.take_succ, take_set_self, List.drop_set_of_lt _ _ (Nat.lt_succ_self it)]
    simp only [List.getElem?_set_self hlt, Option.toList, List.append_assoc,
      List.singleton_append, Nat.succ_eq_add_one]
    rw [List.drop_eq_getElem_cons hlt, List.map_cons]

/-- The contents the same-type `transform` returns. -/
theorem Collection.transform_container {α : Type} (f : α → α) (c : Collection α) :
    (Collection.transform f c).1.container_ = c.container_.map f := by
  simp [Collection.transform, Collection.transform_rvalue, Collection.copy,
    transform_loop_spec f c.container_.length 0 c.container_ (by simp)]

/-- C2: for every Collection `c` and every function `f : T -> T`, `c.transform(f)` has the same
size as `c`, and at every index `i` its element is `f(c[i])` (an index at or past the size holds
no element on either side). -/
theorem C2_transform_same_type {α : Type} (c : Collection α) (f : α → α) :
    (Collection.transform f c).1.size = c.size ∧
    ∀ i : Nat, (Collection.transform f c).1.container_[i]? = (c.container_[i]?).map f := by
  rw [Collection.size, Collection.transform_container]
  exact ⟨by simp [Collection.size], fun i => by simp⟩

/-- What `std::transform` into a back-inserter appends. -/
theorem std_transform_back_inserter_spec {α β : Type} (op : α → β) :
    ∀ (src : List α) (out : List β),
      std_transform_back_inserter op src out = out ++ src.map op := by
  intro src
  induction src with
  | nil => intro out; simp [std_transform_back_inserter]
  | cons x rest ih => intro out; simp [std_transform_back_inserter, ih]

/-- The contents the type-changing `transform` returns. -/
theorem Collection.transform_rebind_container {α β : Type} (g : α → β) (c : Collection α) :
    (Collection.transform_rebind g c).1.container_ = c.container_.map g := by
  simp [Collection.transform_rebind, Collection.transform_rebind_rvalue, Collection.copy,
    std_transform_back_inserter_spec]

/-- C3: for every resizable Collection `c` and every function `g : T -> U`, `c.transform(g)` is
a resizable collection of `U` of the same size as `c` whose element at every index `i` is
`g(c[i])`: `g` is applied to the source elements in order. -/
theorem C3_transform_rebind {α β : Type} (c : Collection α) (g : α → β) :
    (Collection.transform_rebind g c).1.size = c.size ∧
    (∀ i : Nat, (Collection.transform_rebind g c).1.container_[i]? = (c.container_[i]?).map g) ∧
    (Collection.transform_rebind g c).1.container_ = c.container_.map g := by
  rw [Collection.size, Collection.transform_rebind_container]
  exact ⟨by simp [Collection.size], fun i => by simp, rfl⟩

/-- What the loop of `flat_transform` appends. -/
theorem flat_transform_loop_spec {α β : Type} (f : α → β) :
    ∀ (src : List (List α)) (result : List β),
      flat_transform_loop f src result = result ++ (src.map (List.map f)).flatten := by
  intro src
  induction src with
  | nil => intro result; simp [flat_transform_loop]
  | cons element rest ih => intro result; simp [flat_transform_loop, ih]

/-- The contents `flat_transform` returns. -/
theorem Collection.flat_transform_container {α β : Type} (f : α → β)
    (c : Collection (List α)) :
    (Collection.flat_transform f c).1.container_ = (c.container_.map (List.map f)).flatten := by
  simp [Collection.flat_transform, Collection.flat_transform_rvalue, Collection.copy,
    flat_transform_loop_spec]

/-- C4: for every Collection `c` of sequences and every function `f`, `c.flat_transform(f)` is
the concatenation, in outer order, of the inner sequences each mapped element-wise by `f`; its
size is the sum of the inner lengths; empty inner sequences contribute nothing; exactly one
level of nesting is removed (the elements of the inner sequences are not flattened further);
and `flat_transform([[1,2],[3],[]], x -> 2x) == [2,4,6]`. -/
theorem C4_flat_transform {α β : Type} (c : Collection (List α)) (f : α → β) :
    (Collection.flat_transform f c).1.container_ = (c.container_.map (List.map f)).flatten ∧
    (Collection.flat_transform f c).1.size = (c.container_.map List.length).sum ∧
    (Collection.flat_transform f ⟨c.container_.filter (fun e => !e.isEmpty)⟩).1
      = (Collection.flat_transform f c).1 ∧
    (Collection.flat_transform (fun e : List Nat => e) ⟨[[[1], [2, 3]], [[4]], []]⟩).1
      = ⟨[[1], [2, 3], [4]]⟩ ∧
    (Collection.flat_transform (fun x : Nat => 2 * x) ⟨[[1, 2], [3], []]⟩).1 = ⟨[2, 4, 6]⟩ := by
  refine ⟨Collection.flat_transform_container f c, ?_, ?_, by decide, by decide⟩
  · rw [Collection.size, Collection.flat_transform_container]
    simp [List.length_flatten, Function.comp_def]
  · have h : ∀ l : List (List α),
        ((l.filter (fun e => !e.isEmpty)).map (List.map f)).flatten
          = (l.map (List.map f)).flatten := by
      intro l
      induction l with
      | nil => rfl
      | cons e rest ih =>
        cases e with
        | nil => simpa using ih
        | cons x xs => simp [ih]
    have h2 : ∀ a b : Collection β, a.container_ = b.container_ → a = b := by
      intro a b hab; cases a; cases b; simp_all
    apply h2
    rw [Collection.flat_transform_container, Collection.flat_transform_container]
    exact h c.container_

/-- For an associative operation, folding from `op x b` is `op x` applied to the fold from
`b`. -/
theorem foldl_assoc_shift {α : Type} (op : α → α → α)
    (hassoc : ∀ a b c, op (op a b) c = op a (op b c)) :
    ∀ (l : List α) (x b : α), l.foldl op (op x b) = op x (l.foldl op b) := by
  intro l
  induction l with
  | nil => intro x b; rfl
  | cons y ys ih => intro x b; simp only [List.foldl_cons]; rw [hassoc, ih]

/-- For an associative operation the GNU evaluation of `std::reduce` is the left fold. -/
theorem std_reduce_eq_foldl {α : Type} (op : α → α → α)
    (hassoc : ∀ a b c, op (op a b) c = op a (op b c)) :
    ∀ (n : Nat) (l : List α) (init : α), l.length ≤ n →
      std_reduce op l init = l.foldl op init := by
  intro n
  induction n using Nat.strong_induction_on with
  | _ n ih =>
    intro l init hn
    match l with
    | [] => simp [std_reduce]
    | [a] => simp [std_reduce]
    | [a, b] => simp [std_reduce]
    | [a, b, c] => simp [std_reduce]
    | a :: b :: c :: d :: rest =>
      simp only [std_reduce, List.foldl_cons]
      rw [ih rest.length (by simp at hn; omega) rest _ (Nat.le_refl _)]
      congr 1
      simp only [hassoc]

/-- For an associative operation, every generalized noncommutative sum is taken over a
non-empty operand list `a :: t` and is the left fold of `t` from `a`. -/
theorem GeneralizedNoncommutativeSum.exists_foldl {α : Type} (op : α → α → α)
    (hassoc : ∀ a b c, op (op a b) c = op a (op b c)) {l : List α} {r : α}
    (h : GeneralizedNoncommutativeSum op l r) :
    ∃ (a : α) (t : List α), l = a :: t ∧ r = t.foldl op a := by
  induction h with
  | single a => exact ⟨a, [], rfl, rfl⟩
  | split l r x y _ _ ihl ihr =>
    obtain ⟨a, t, rfl, rfl⟩ := ihl
    obtain ⟨b, t2, rfl, rfl⟩ := ihr
    refine ⟨a, t ++ b :: t2, rfl, ?_⟩
    rw [List.foldl_append, List.foldl_cons]
    exact (foldl_assoc_shift op hassoc t2 _ b).symm

/-- For an associative and commutative operation, every value the standard permits
`std::reduce` to return is the left fold. -/
theorem GeneralizedSum.eq_foldl {α : Type} (op : α → α → α)
    (hassoc : ∀ a b c, op (op a b) c = op a (op b c)) (hcomm : ∀ a b, op a b = op b a)
    (init : α) (l : List α) (r : α) (h : GeneralizedSum op (init :: l) r) :
    r = l.foldl op init := by
  haveI : RightCommutative op := ⟨fun b a1 a2 => by rw [hassoc, hcomm a1 a2, ← hassoc]⟩
  obtain ⟨bs, hperm, hsum⟩ := h
  match bs, hperm, hsum with
  | [], hperm, _ => exact absurd hperm.length_eq (by simp)
  | b :: t, hperm, hsum =>
    obtain ⟨b2, t2, heq, rfl⟩ := GeneralizedNoncommutativeSum.exists_foldl op hassoc hsum
    simp only [List.cons.injEq] at heq
    obtain ⟨rfl, rfl⟩ := heq
    have hmem : init ∈ b :: t := hperm.symm.subset (List.mem_cons_self _ _)
    rcases List.mem_cons.mp hmem with hb | ht
    · subst hb
      exact (List.Perm.cons_inv hperm).foldl_eq _
    · obtain ⟨s, s2, rfl⟩ := List.append_of_mem ht
      have h1 : (init :: (b :: (s ++ s2))).Perm (init :: l) :=
        ((@List.perm_middle _ init (b :: s) s2).symm).trans hperm
      have h2 : (b :: (s ++ s2)).Perm l := List.Perm.cons_inv h1
      rw [← h2.foldl_eq init, (@List.perm_middle _ init s s2).foldl_eq b]
      simp only [List.foldl_cons]
      rw [hcomm]

/-- Folding further operands onto a generalized noncommutative sum, one at a time from the
left, is again a generalized noncommutative sum. -/
theorem GeneralizedNoncommutativeSum.foldl {α : Type} (op : α → α → α) :
    ∀ (l pre : List α) (x : α), GeneralizedNoncommutativeSum op pre x →
      GeneralizedNoncommutativeSum op (pre ++ l) (l.foldl op x) := by
  intro l
  induction l with
  | nil => intro pre x h; simpa using h
  | cons y ys ih =>
    intro pre x h
    have h2 := ih (pre ++ [y]) (op x y) (.split pre [y] x y h (.single y))
    simpa using h2

/-- The GNU evaluation of `std::reduce`, continued from a generalized noncommutative sum, is
again a generalized noncommutative sum. -/
theorem std_reduce_noncommutativeSum {α : Type} (op : α → α → α) :
    ∀ (n : Nat) (l : List α), l.length ≤ n →
      ∀ (pre : List α) (x : α), GeneralizedNoncommutativeSum op pre x →
        GeneralizedNoncommutativeSum op (pre ++ l) (std_reduce op l x) := by
  intro n
  induction n using Nat.strong_induction_on with
  | _ n ih =>
    intro l hn pre x h
    match l with
    | [] => simpa [std_reduce] using h
    | [a] => exact GeneralizedNoncommutativeSum.foldl op [a] pre x h
    | [a, b] => exact GeneralizedNoncommutativeSum.foldl op [a, b] pre x h
    | [a, b, c] => exact GeneralizedNoncommutativeSum.foldl op [a, b, c] pre x h
    | a :: b :: c :: d :: rest =>
      simp only [std_reduce]
      have h4 : GeneralizedNoncommutativeSum op ([a, b] ++ [c, d]) (op (op a b) (op c d)) :=
        .split [a, b] [c, d] _ _ (.split [a] [b] a b (.single a) (.single b))
          (.split [c] [d] c d (.single c) (.single d))
      have h5 := GeneralizedNoncommutativeSum.split pre _ x _ h h4
      have h6 := ih rest.length (by simp at hn; omega) rest (Nat.le_refl _) _ _ h5
      simpa using h6

/-- The GNU evaluation of `std::reduce` is one of the values the standard permits. -/
theorem std_reduce_generalizedSum {α : Type} (op : α → α → α) (l : List α) (init : α) :
    GeneralizedSum op (init :: l) (std_reduce op l init) :=
  ⟨init :: l, List.Perm.refl _,
    std_reduce_noncommutativeSum op l.length l (Nat.le_refl _) [init] init (.single init)⟩

/-! ### Strict weak orderings -/

/-- A strict weak ordering is asymmetric. -/
theorem StrictWeakOrdering.asymm {α : Type} {comp : α → α → Bool}
    (h : StrictWeakOrdering comp) {a b : α} (hab : comp a b = true) : comp b a = false := by
  cases hba : comp b a with
  | false => rfl
  | true => have := h.trans a b a hab hba; rw [h.irrefl] at this; cases this

/-- In a strict weak ordering "does not compare less" is transitive. -/
theorem StrictWeakOrdering.neg_trans {α : Type} {comp : α → α → Bool}
    (h : StrictWeakOrdering comp) {a b c : α} (hab : comp a b = false)
    (hbc : comp b c = false) : comp a c = false := by
  cases hac : comp a c with
  | false => rfl
  | true =>
    cases hba : comp b a with
    | true => have := h.trans b a c hba hac; rw [hbc] at this; cases this
    | false =>
      cases hcb : comp c b with
      | true => have := h.trans a c b hac hcb; rw [hab] at this; cases this
      | false => have := (h.incomp_trans a b c hab hba hbc hcb).1; rw [hac] at this; cases this

/-- The induced equivalence of a strict weak ordering is transitive, read from a common
element: two elements equivalent to the same element are equivalent to each other. -/
theorem StrictWeakOrdering.equiv_of_equiv {α : Type} {comp : α → α → Bool}
    (h : StrictWeakOrdering comp) {a x y : α} (hx : equiv comp a x = true)
    (hy : equiv comp a y = true) : comp x y = false ∧ comp y x = false := by
  simp only [equiv, Bool.and_eq_true, Bool.not_eq_true'] at hx hy
  exact h.incomp_trans x a y hx.2 hx.1 hy.1 hy.2

/-! ### Insertion sort -/

/-- Linear insertion keeps the elements. -/
theorem std_linear_insert_perm {α : Type} (comp : α → α → Bool) (val : α) :
    ∀ l : List α, (std_linear_insert comp val l).Perm (val :: l) := by
  intro l
  induction l with
  | nil => exact List.Perm.refl _
  | cons next before ih =>
    by_cases hc : comp val next = true
    · simp only [std_linear_insert, hc, if_true]
      exact (List.Perm.cons next ih).trans (List.Perm.swap val next before)
    · simp only [std_linear_insert, hc, if_false]
      exact List.Perm.refl _

/-- Linear insertion keeps the range (listed from its last element to its first) ordered. -/
theorem std_linear_insert_sorted {α : Type} {comp : α → α → Bool}
    (h : StrictWeakOrdering comp) (val : α) :
    ∀ l : List α, l.Pairwise (fun a b => comp a b = false) →
      (std_linear_insert comp val l).Pairwise (fun a b => comp a b = false) := by
  intro l
  induction l with
  | nil => intro _; simp [std_linear_insert]
  | cons next before ih =>
    intro hl
    rw [List.pairwise_cons] at hl
    by_cases hc : comp val next = true
    · simp only [std_linear_insert, hc, if_true]
      rw [List.pairwise_cons]
      refine ⟨?_, ih hl.2⟩
      intro z hz
      rcases List.mem_cons.mp ((std_linear_insert_perm comp val before).subset hz) with hz | hz
      · subst hz; exact h.asymm hc
      · exact hl.1 z hz
    · simp only [Bool.not_eq_true] at hc
      simp only [std_linear_insert, hc, Bool.false_eq_true, if_false]
      rw [List.pairwise_cons]
      refine ⟨?_, List.pairwise_cons.mpr hl⟩
      intro z hz
      rcases List.mem_cons.mp hz with hz | hz
      · subst hz; exact hc
      · exact h.neg_trans hc (hl.1 z hz)

/-- Linear insertion never moves an element past an equivalent one. -/
theorem std_linear_insert_filter {α : Type} {comp : α → α → Bool}
    (h : StrictWeakOrdering comp) (a val : α) :
    ∀ l : List α, (std_linear_insert comp val l).filter (fun b => equiv comp a b)
      = (val :: l).filter (fun b => equiv comp a b) := by
  intro l
  induction l with
  | nil => rfl
  | cons next before ih =>
    by_cases hc : comp val next = true
    · simp only [std_linear_insert, hc, if_true]
      rw [List.filter_cons, ih]
      by_cases hv : equiv comp a val = true
      · by_cases hn : equiv comp a next = true
        · have := (h.equiv_of_equiv hv hn).1
          rw [hc] at this; cases this
        · simp [List.filter_cons, hv, hn]
      · simp [List.filter_cons, hv]
    · simp only [Bool.not_eq_true] at hc
      simp only [std_linear_insert, hc, Bool.false_eq_true, if_false]

/-- The fold of insertion sort: the accumulated range is a permutation of what was inserted,
is ordered, and lists equivalent elements in insertion order (last inserted first). -/
theorem std_insertion_fold_spec {α : Type} {comp : α → α → Bool}
    (h : StrictWeakOrdering comp) :
    ∀ (buf acc : List α), acc.Pairwise (fun a b => comp a b = false) →
      (buf.foldl (fun sorted_rev val => std_linear_insert comp val sorted_rev) acc).Perm
          (buf.reverse ++ acc) ∧
      (buf.foldl (fun sorted_rev val => std_linear_insert comp val sorted_rev) acc).Pairwise
          (fun a b => comp a b = false) ∧
      ∀ a, (buf.foldl (fun sorted_rev val => std_linear_insert comp val sorted_rev) acc).filter
            (fun b => equiv comp a b)
          = (buf.reverse ++ acc).filter (fun b => equiv comp a b) := by
  intro buf
  induction buf with
  | nil => intro acc hacc; exact ⟨by simp, by simpa using hacc, fun a => by simp⟩
  | cons x xs ih =>
    intro acc hacc
    obtain ⟨h1, h2, h3⟩ := ih (std_linear_insert comp x acc) (std_linear_insert_sorted h x acc hacc)
    simp only [List.foldl_cons, List.reverse_cons, List.append_assoc, List.singleton_append]
    refine ⟨h1.trans (List.Perm.append_left _ (std_linear_insert_perm comp x acc)), h2, ?_⟩
    intro a
    rw [h3 a, List.filter_append, std_linear_insert_filter h a x acc, ← List.filter_append]

/-- Insertion sort returns an ordered permutation that keeps equivalent elements in their
original order. -/
theorem std_insertion_sort_spec {α : Type} {comp : α → α → Bool}
    (h : StrictWeakOrdering comp) (buf : List α) :
    (std_insertion_sort comp buf).Perm buf ∧
    (std_insertion_sort comp buf).Pairwise (fun x y => comp y x = false) ∧
    ∀ a, (std_insertion_sort comp buf).filter (fun b => equiv comp a b)
      = buf.filter (fun b => equiv comp a b) := by
  obtain ⟨h1, h2, h3⟩ := std_insertion_fold_spec h buf [] List.Pairwise.nil
  refine ⟨?_, ?_, ?_⟩
  · exact (List.reverse_perm _).trans (h1.trans (by simp))
  · unfold std_insertion_sort
    rw [List.pairwise_reverse]
    exact h2
  · intro a
    unfold std_insertion_sort
    rw [List.filter_reverse, h3 a]
    simp [List.filter_reverse]

/-- Insertion sort keeps the elements, whatever the comparator. -/
theorem std_insertion_sort_perm {α : Type} (comp : α → α → Bool) (buf : List α) :
    (std_insertion_sort comp buf).Perm buf := by
  have key : ∀ (l acc : List α),
      (l.foldl (fun sorted_rev val => std_linear_insert comp val sorted_rev) acc).Perm
        (l.reverse ++ acc) := by
    intro l
    induction l with
    | nil => intro acc; simp
    | cons x xs ih =>
      intro acc
      simp only [List.foldl_cons, List.reverse_cons, List.append_assoc, List.singleton_append]
      exact (ih _).trans (List.Perm.append_left _ (std_linear_insert_perm comp x acc))
  exact (List.reverse_perm _).trans ((key buf []).trans (by simp))

/-! ### Merge and stable sort -/

/-- The merge keeps the elements of both ranges. -/
theorem std_merge_perm {α : Type} (comp : α → α → Bool) :
    ∀ (n : Nat) (l r : List α), (std_merge comp n l r).Perm (l ++ r) := by
  intro n
  induction n with
  | zero => intro l r; exact List.Perm.refl _
  | succ n ih =>
    intro l r
    match l, r with
    | [], r => simp [std_merge]
    | x :: l, [] => simp [std_merge]
    | x :: l, y :: r =>
      by_cases hc : comp y x = true
      · simp only [std_merge, hc, if_true]
        exact (List.Perm.cons y (ih (x :: l) r)).trans
          (@List.perm_middle _ y (x :: l) r).symm
      · simp only [Bool.not_eq_true] at hc
        simp only [std_merge, hc, Bool.false_eq_true, if_false]
        exact List.Perm.cons x (ih l (y :: r))

/-- The merge of two ordered ranges is ordered. -/
theorem std_merge_sorted {α : Type} {comp : α → α → Bool} (h : StrictWeakOrdering comp) :
    ∀ (n : Nat) (l r : List α), l.length + r.length ≤ n →
      l.Pairwise (fun x y => comp y x = false) → r.Pairwise (fun x y => comp y x = false) →
      (std_merge comp n l r).Pairwise (fun x y => comp y x = false) := by
  intro n
  induction n with
  | zero =>
    intro l r hn _ _
    have hl : l = [] := List.eq_nil_of_length_eq_zero (by omega)
    have hr : r = [] := List.eq_nil_of_length_eq_zero (by omega)
    subst hl; subst hr
    simp [std_merge]
  | succ n ih =>
    intro l r hn hl hr
    match l, r, hn, hl, hr with
    | [], r, _, _, hr => simpa [std_merge] using hr
    | x :: l, [], _, hl, _ => simpa [std_merge] using hl
    | x :: l, y :: r, hn, hl, hr =>
      have hl2 := List.pairwise_cons.mp hl
      have hr2 := List.pairwise_cons.mp hr
      simp only [List.length_cons] at hn
      by_cases hc : comp y x = true
      · simp only [std_merge, hc, if_true]
        rw [List.pairwise_cons]
        refine ⟨?_, ih (x :: l) r (by simp only [List.length_cons]; omega) hl hr2.2⟩
        intro z hz
        rcases List.mem_append.mp ((std_merge_perm comp n (x :: l) r).subset hz) with hz | hz
        · rcases List.mem_cons.mp hz with hz | hz
          · subst hz; exact h.asymm hc
          · exact h.neg_trans (hl2.1 z hz) (h.asymm hc)
        · exact hr2.1 z hz
      · simp only [Bool.not_eq_true] at hc
        simp only [std_merge, hc, Bool.false_eq_true, if_false]
        rw [List.pairwise_cons]
        refine ⟨?_, ih l (y :: r) (by simp only [List.length_cons]; omega) hl2.2 hr⟩
        intro z hz
        rcases List.mem_append.mp ((std_merge_perm comp n l (y :: r)).subset hz) with hz | hz
        · exact hl2.1 z hz
        · rcases List.mem_cons.mp hz with hz | hz
          · subst hz; exact hc
          · exact h.neg_trans (hr2.1 z hz) hc

/-- The merge never moves an element of the second range past an equivalent element of the
first. -/
theorem std_merge_filter {α : Type} {comp : α → α → Bool} (h : StrictWeakOrdering comp)
    (a : α) :
    ∀ (n : Nat) (l r : List α), l.Pairwise (fun x y => comp y x = false) →
      (std_merge comp n l r).filter (fun b => equiv comp a b)
        = l.filter (fun b => equiv comp a b) ++ r.filter (fun b => equiv comp a b) := by
  intro n
  induction n with
  | zero => intro l r _; simp [std_merge]
  | succ n ih =>
    intro l r hl
    match l, r, hl with
    | [], r, _ => simp [std_merge]
    | x :: l, [], _ => simp [std_merge]
    | x :: l, y :: r, hl =>
      have hl2 := List.pairwise_cons.mp hl
      by_cases hc : comp y x = true
      · simp only [std_merge, hc, if_true]
        rw [List.filter_cons, ih (x :: l) r hl]
        by_cases hy : equiv comp a y = true
        · have hnone : (x :: l).filter (fun b => equiv comp a b) = [] := by
            rw [List.filter_eq_nil_iff]
            intro z hz hez
            have hyz := (h.equiv_of_equiv hy hez).1
            have hzx : comp z x = false := by
              rcases List.mem_cons.mp hz with hz | hz
              · subst hz; exact h.irrefl _
              · exact hl2.1 z hz
            have := h.neg_trans hyz hzx
            rw [hc] at this; cases this
          simp [hnone, hy]
        · simp [hy]
      · simp only [Bool.not_eq_true] at hc
        simp only [std_merge, hc, Bool.false_eq_true, if_false]
        rw [List.filter_cons, ih l (y :: r) hl2.2]
        by_cases hx : equiv comp a x = true
        · simp [hx]
        · simp [hx]

/-- The recursion of the stable sort keeps the elements. -/
theorem std_stable_sort_rec_perm {α : Type} (comp : α → α → Bool) :
    ∀ (depth : Nat) (buf : List α), (std_stable_sort_rec comp depth buf).Perm buf := by
  intro depth
  induction depth with
  | zero => intro buf; exact List.Perm.refl _
  | succ depth ih =>
    intro buf
    by_cases hlen : buf.length < 15
    · simp only [std_stable_sort_rec, hlen, if_true]
      exact std_insertion_sort_perm comp buf
    · simp only [std_stable_sort_rec, hlen, if_false]
      refine (std_merge_perm comp _ _ _).trans ?_
      refine (List.Perm.append (ih _) (ih _)).trans ?_
      rw [List.take_append_drop]

/-- The recursion of the stable sort, given enough depth, returns an ordered range that keeps
equivalent elements in their original order. -/
theorem std_stable_sort_rec_spec {α : Type} {comp : α → α → Bool}
    (h : StrictWeakOrdering comp) :
    ∀ (depth : Nat) (buf : List α), buf.length ≤ depth →
      (std_stable_sort_rec comp depth buf).Pairwise (fun x y => comp y x = false) ∧
      ∀ a, (std_stable_sort_rec comp depth buf).filter (fun b => equiv comp a b)
        = buf.filter (fun b => equiv comp a b) := by
  intro depth
  induction depth with
  | zero =>
    intro buf hd
    have hb : buf = [] := List.eq_nil_of_length_eq_zero (by omega)
    subst hb
    simp [std_stable_sort_rec]
  | succ depth ih =>
    intro buf hd
    by_cases hlen : buf.length < 15
    · simp only [std_stable_sort_rec, hlen, if_true]
      exact (std_insertion_sort_spec h buf).2
    · simp only [std_stable_sort_rec, hlen, if_false]
      have htake : (buf.take (buf.length / 2)).length ≤ depth := by
        rw [List.length_take]; omega
      have hdrop : (buf.drop (buf.length / 2)).length ≤ depth := by
        rw [List.length_drop]; omega
      obtain ⟨hl1, hl2⟩ := ih _ htake
      obtain ⟨hr1, hr2⟩ := ih _ hdrop
      refine ⟨std_merge_sorted h _ _ _ (Nat.le_refl _) hl1 hr1, ?_⟩
      intro a
      rw [std_merge_filter h a _ _ _ hl1, hl2 a, hr2 a, ← List.filter_append,
        List.take_append_drop]

/-! ### Sort -/

/-- Putting `x` in the place of an element `y` of a list and `y` in front of the list is a
permutation of the list with `x` in front. -/
theorem perm_cons_set {α : Type} :
    ∀ (t : List α) (j : Nat) (x y : α), t[j]? = some y → (y :: t.set j x).Perm (x :: t) := by
  intro t
  induction t with
  | nil => intro j x y h; simp at h
  | cons z t ih =>
    intro j x y h
    cases j with
    | zero =>
      simp only [List.getElem?_cons_zero, Option.some.injEq] at h
      subst h
      simp only [List.set_cons_zero]
      exact List.Perm.swap _ _ _
    | succ j =>
      simp only [List.getElem?_cons_succ] at h
      simp only [List.set_cons_succ]
      exact (List.Perm.swap z y _).trans
        (((ih j x y h).cons z).trans (List.Perm.swap x z t))

/-- `std::iter_swap` permutes the buffer. -/
theorem std_iter_swap_perm {α : Type} :
    ∀ (buf : List α) (first last : Nat), (std_iter_swap buf first last).Perm buf := by
  intro buf
  induction buf with
  | nil => intro first last; simp [std_iter_swap]
  | cons x t ih =>
    intro first last
    cases first with
    | zero =>
      cases last with
      | zero => simp [std_iter_swap]
      | succ j =>
        simp only [std_iter_swap, List.getElem?_cons_zero, List.getElem?_cons_succ]
        cases h : t[j]? with
        | none => exact List.Perm.refl _
        | some y =>
          simp only [List.set_cons_zero, List.set_cons_succ]
          exact perm_cons_set t j x y h
    | succ i =>
      cases last with
      | zero =>
        simp only [std_iter_swap, List.getElem?_cons_zero, List.getElem?_cons_succ]
        cases h : t[i]? with
        | none => exact List.Perm.refl _
        | some y =>
          simp only [List.set_cons_zero, List.set_cons_succ]
          exact perm_cons_set t i x y h
      | succ j =>
        have := ih i j
        simp only [std_iter_swap, List.getElem?_cons_succ] at this ⊢
        cases h1 : t[i]? with
        | none => exact List.Perm.refl _
        | some a =>
          cases h2 : t[j]? with
          | none => exact List.Perm.refl _
          | some b =>
            simp only [h1, h2] at this
            simp only [List.set_cons_succ]
            exact this.cons x

/-- Moving an element into the hole and the value in hand into the place of that element is a
permutation of the buffer with the value in the hole. -/
theorem set_hole_perm {α : Type} (buf : List α) (hole child : Nat) (v value : α)
    (hh : hole < buf.length) (hc : buf[child]? = some v) :
    ((buf.set hole v).set child value).Perm (buf.set hole value) := by
  by_cases he : child = hole
  · subst he
    rw [List.set_set]
  · have h := std_iter_swap_perm (buf.set hole value) hole child
    have h1 : (buf.set hole value)[hole]? = some value := by
      rw [List.getElem?_set_self hh]
    have h2 : (buf.set hole value)[child]? = some v := by
      rw [List.getElem?_set_ne (fun e => he e.symm), hc]
    simp only [std_iter_swap, h1, h2, List.set_set] at h
    exact h

/-- `__move_median_to_first` permutes the buffer. -/
theorem std_move_median_to_first_perm {α : Type} (comp : α → α → Bool) (buf : List α)
    (result a b c : Nat) : (std_move_median_to_first comp buf result a b c).Perm buf := by
  unfold std_move_median_to_first
  split
  · split_ifs <;> exact std_iter_swap_perm _ _ _
  · exact List.Perm.refl _

/-- `__unguarded_partition` permutes the buffer. -/
theorem std_unguarded_partition_perm {α : Type} (comp : α → α → Bool) (pivot : α) :
    ∀ (fuel : Nat) (buf : List α) (first last : Nat),
      (std_unguarded_partition comp pivot fuel buf first last).1.Perm buf := by
  intro fuel
  induction fuel with
  | zero => intro buf first last; exact List.Perm.refl _
  | succ fuel ih =>
    intro buf first last
    simp only [std_unguarded_partition]
    split_ifs
    · exact (ih _ _ _).trans (std_iter_swap_perm _ _ _)
    · exact List.Perm.refl _

/-- `__unguarded_partition_pivot` permutes the range. -/
theorem std_unguarded_partition_pivot_perm {α : Type} (comp : α → α → Bool) (range : List α) :
    (std_unguarded_partition_pivot comp range).1.Perm range := by
  unfold std_unguarded_partition_pivot
  split
  · exact (std_unguarded_partition_perm comp _ _ _ _ _).trans
      (std_move_median_to_first_perm comp _ _ _ _ _)
  · exact List.Perm.refl _

/-- `__push_heap` leaves a permutation of the buffer with the value in the hole. -/
theorem std_push_heap_perm {α : Type} (comp : α → α → Bool) (value : α) (topIndex : Nat) :
    ∀ (fuel : Nat) (buf : List α) (holeIndex : Nat), holeIndex < buf.length →
      (std_push_heap comp value topIndex fuel buf holeIndex).Perm (buf.set holeIndex value) := by
  intro fuel
  induction fuel with
  | zero => intro buf holeIndex _; exact List.Perm.refl _
  | succ fuel ih =>
    intro buf holeIndex hh
    simp only [std_push_heap]
    cases hp : buf[(holeIndex - 1) / 2]? with
    | none => exact List.Perm.refl _
    | some parent =>
      simp only
      split_ifs
      · have hlt : (holeIndex - 1) / 2 < (buf.set holeIndex parent).length := by
          rw [List.length_set]
          exact (List.getElem?_eq_some_iff.mp hp).1
        exact (ih _ _ hlt).trans (set_hole_perm buf holeIndex _ parent value hh hp)
      · exact List.Perm.refl _

/-- The first loop of `__adjust_heap` keeps the hole inside the buffer, and the buffer with any
value in the hole stays a permutation. -/
theorem std_adjust_heap_loop_perm {α : Type} (comp : α → α → Bool) (len : Nat) (value : α) :
    ∀ (fuel : Nat) (buf : List α) (holeIndex : Nat), holeIndex < buf.length →
      (std_adjust_heap_loop comp len fuel buf holeIndex).2
          < (std_adjust_heap_loop comp len fuel buf holeIndex).1.length ∧
        ((std_adjust_heap_loop comp len fuel buf holeIndex).1.set
          (std_adjust_heap_loop comp len fuel buf holeIndex).2 value).Perm
          (buf.set holeIndex value) := by
  intro fuel
  induction fuel with
  | zero => intro buf holeIndex hh; exact ⟨hh, List.Perm.refl _⟩
  | succ fuel ih =>
    intro buf holeIndex hh
    simp only [std_adjust_heap_loop]
    split_ifs with h1
    · cases hr : buf[2 * (holeIndex + 1)]? with
      | none => exact ⟨hh, List.Perm.refl _⟩
      | some right =>
        cases hl : buf[2 * (holeIndex + 1) - 1]? with
        | none => exact ⟨hh, List.Perm.refl _⟩
        | some left =>
          simp only
          split_ifs
          · have hlt : 2 * (holeIndex + 1) - 1 < (buf.set holeIndex left).length := by
              rw [List.length_set]
              exact (List.getElem?_eq_some_iff.mp hl).1
            obtain ⟨i1, i2⟩ := ih _ _ hlt
            exact ⟨i1, i2.trans (set_hole_perm buf holeIndex _ left value hh hl)⟩
          · have hlt : 2 * (holeIndex + 1) < (buf.set holeIndex right).length := by
              rw [List.length_set]
              exact (List.getElem?_eq_some_iff.mp hr).1
            obtain ⟨i1, i2⟩ := ih _ _ hlt
            exact ⟨i1, i2.trans (set_hole_perm buf holeIndex _ right value hh hr)⟩
    · exact ⟨hh, List.Perm.refl _⟩

/-- The `if` after the first loop of `__adjust_heap` keeps the same two facts. -/
theorem std_adjust_heap_last_child_perm {α : Type} (len : Nat) (value : α)
    (state : List α × Nat) (hh : state.2 < state.1.length) :
    (std_adjust_heap_last_child len state).2 < (std_adjust_heap_last_child len state).1.length ∧
      ((std_adjust_heap_last_child len state).1.set (std_adjust_heap_last_child len state).2
        value).Perm (state.1.set state.2 value) := by
  unfold std_adjust_heap_last_child
  split_ifs
  · cases hc : state.1[2 * (state.2 + 1) - 1]? with
    | none => exact ⟨hh, List.Perm.refl _⟩
    | some child =>
      simp only
      refine ⟨?_, set_hole_perm state.1 state.2 _ child value hh hc⟩
      rw [List.length_set]
      exact (List.getElem?_eq_some_iff.mp hc).1
  · exact ⟨hh, List.Perm.refl _⟩

/-- `__adjust_heap` leaves a permutation of the buffer with the value in the hole. -/
theorem std_adjust_heap_perm {α : Type} (comp : α → α → Bool) (buf : List α)
    (holeIndex len : Nat) (value : α) (hh : holeIndex < buf.length) :
    (std_adjust_heap comp buf holeIndex len value).Perm (buf.set holeIndex value) := by
  unfold std_adjust_heap
  obtain ⟨h1, h2⟩ := std_adjust_heap_loop_perm comp len value len buf holeIndex hh
  obtain ⟨h3, h4⟩ := std_adjust_heap_last_child_perm len value _ h1
  exact (std_push_heap_perm comp value holeIndex len _ _ h3).trans (h4.trans h2)

/-- Writing back the element a cell holds leaves the buffer as it is. -/
theorem set_getElem_eq_self {α : Type} :
    ∀ (buf : List α) (i : Nat) (v : α), buf[i]? = some v → buf.set i v = buf := by
  intro buf
  induction buf with
  | nil => intro i v h; simp at h
  | cons x t ih =>
    intro i v h
    cases i with
    | zero =>
      simp only [List.getElem?_cons_zero, Option.some.injEq] at h
      simp [h]
    | succ i =>
      simp only [List.getElem?_cons_succ] at h
      simp [ih i v h]

/-- The loop of `__make_heap` permutes the buffer. -/
theorem std_make_heap_loop_perm {α : Type} (comp : α → α → Bool) (len : Nat) :
    ∀ (parent : Nat) (buf : List α), (std_make_heap_loop comp len parent buf).Perm buf := by
  intro parent
  induction parent with
  | zero =>
    intro buf
    simp only [std_make_heap_loop]
    cases h : buf[0]? with
    | none => exact List.Perm.refl _
    | some value =>
      have h1 := std_adjust_heap_perm comp buf 0 len value (List.getElem?_eq_some_iff.mp h).1
      rw [set_getElem_eq_self buf 0 value h] at h1
      exact h1
  | succ parent ih =>
    intro buf
    simp only [std_make_heap_loop]
    cases h : buf[parent + 1]? with
    | none => exact List.Perm.refl _
    | some value =>
      have h1 := std_adjust_heap_perm comp buf (parent + 1) len value
        (List.getElem?_eq_some_iff.mp h).1
      rw [set_getElem_eq_self buf (parent + 1) value h] at h1
      exact (ih _).trans h1

/-- `__make_heap` permutes the buffer. -/
theorem std_make_heap_perm {α : Type} (comp : α → α → Bool) (buf : List α) :
    (std_make_heap comp buf).Perm buf := by
  unfold std_make_heap
  split_ifs
  · exact List.Perm.refl _
  · exact std_make_heap_loop_perm comp _ _ _

/-- `__pop_heap` permutes the buffer. -/
theorem std_pop_heap_perm {α : Type} (comp : α → α → Bool) (buf : List α) (last result : Nat) :
    (std_pop_heap comp buf last result).Perm buf := by
  unfold std_pop_heap
  cases h1 : buf[result]? with
  | none => exact List.Perm.refl _
  | some value =>
    cases h2 : buf[0]? with
    | none => exact List.Perm.refl _
    | some top =>
      simp only
      have h0 : 0 < (buf.set result top).length := by
        rw [List.length_set]
        exact (List.getElem?_eq_some_iff.mp h2).1
      have h3 := std_adjust_heap_perm comp (buf.set result top) 0 last value h0
      have h4 := std_iter_swap_perm buf result 0
      simp only [std_iter_swap, h1, h2] at h4
      exact h3.trans h4

/-- `__sort_heap` permutes the buffer. -/
theorem std_sort_heap_perm {α : Type} (comp : α → α → Bool) :
    ∀ (last : Nat) (buf : List α), (std_sort_heap comp last buf).Perm buf := by
  intro last
  induction last with
  | zero => intro buf; exact List.Perm.refl _
  | succ last ih =>
    intro buf
    simp only [std_sort_heap]
    split_ifs
    · exact (ih _).trans (std_pop_heap_perm comp buf last last)
    · exact List.Perm.refl _

/-- The heap sort `__partial_sort(first, last, last)` permutes the range. -/
theorem std_partial_sort_perm {α : Type} (comp : α → α → Bool) (range : List α) :
    (std_partial_sort comp range).Perm range :=
  (std_sort_heap_perm comp _ _).trans (std_make_heap_perm comp range)

/-- `__introsort_loop` permutes the range. -/
theorem std_introsort_loop_perm {α : Type} (comp : α → α → Bool) :
    ∀ (depth_limit : Nat) (range : List α),
      (std_introsort_loop comp depth_limit range).Perm range := by
  intro depth_limit
  induction depth_limit with
  | zero =>
    intro range
    simp only [std_introsort_loop]
    split_ifs
    · exact std_partial_sort_perm comp range
    · exact List.Perm.refl _
  | succ depth_limit ih =>
    intro range
    simp only [std_introsort_loop]
    split_ifs
    · refine ((ih _).append (ih _)).trans ?_
      rw [List.take_append_drop]
      exact std_unguarded_partition_pivot_perm comp range
    · exact List.Perm.refl _

/-- The final pass of the sort is the insertion sort of the whole range: the unguarded
insertions after the first sixteen elements continue the same walk. -/
theorem std_final_insertion_sort_eq {α : Type} (comp : α → α → Bool) (buf : List α) :
    std_final_insertion_sort comp buf = std_insertion_sort comp buf := by
  unfold std_final_insertion_sort
  split_ifs
  · simp only [std_unguarded_insertion_sort, std_insertion_sort, List.reverse_reverse]
    rw [← List.foldl_append, List.take_append_drop]
  · rfl


/-- The sort returns a permutation of the range, whatever the comparator. -/
theorem std_ranges_sort_perm {α : Type} (comp : α → α → Bool) (buf : List α) :
    (std_ranges_sort comp buf).Perm buf := by
  unfold std_ranges_sort
  split_ifs
  · exact List.Perm.refl _
  · rw [std_final_insertion_sort_eq]
    exact (std_insertion_sort_perm comp _).trans (std_introsort_loop_perm comp _ buf)

/-- For a strict weak ordering the sort returns an ordered range: no element compares less than
an earlier one. -/
theorem std_ranges_sort_sorted {α : Type} {comp : α → α → Bool} (h : StrictWeakOrdering comp)
    (buf : List α) : (std_ranges_sort comp buf).Pairwise (fun x y => comp y x = false) := by
  unfold std_ranges_sort
  split_ifs with h0
  · rw [List.eq_nil_of_length_eq_zero h0]
    exact List.Pairwise.nil
  · rw [std_final_insertion_sort_eq]
    exact (std_insertion_sort_spec h _).2.1

/-! ### Reverse -/

/-- Invariant of the loop of `std::ranges::reverse`: the cells outside `[first, n - first)` hold
the mirrored elements of the original range, the cells inside are untouched. -/
theorem std_reverse_loop_spec {α : Type} (orig : List α) :
    ∀ (m first : Nat) (buf : List α), first + m = orig.length / 2 →
      buf.length = orig.length →
      (∀ i, i < orig.length → buf[i]? =
        if first ≤ i ∧ i + first < orig.length then orig[i]? else orig[orig.length - 1 - i]?) →
      std_reverse_loop m first (orig.length - 1 - first) buf = orig.reverse := by
  intro m
  induction m with
  | zero =>
    intro first buf hm hlen hinv
    simp only [std_reverse_loop]
    apply List.ext_getElem?
    intro i
    by_cases hi : i < orig.length
    · rw [hinv i hi, List.getElem?_reverse hi]
      split
      · next h => 
        have : orig.length - 1 - i = i := by omega
        rw [this]
      · rfl
    · rw [List.getElem?_eq_none (by omega), List.getElem?_eq_none (by simp; omega)]
  | succ m ih =>
    intro first buf hm hlen hinv
    have h1 : first < orig.length - 1 - first := by omega
    have hf : first < buf.length := by omega
    have hl : orig.length - 1 - first < buf.length := by omega
    simp only [std_reverse_loop, h1, if_true, std_iter_swap, List.getElem?_eq_getElem hf,
      List.getElem?_eq_getElem hl]
    have hsub : orig.length - 1 - first - 1 = orig.length - 1 - (first + 1) := by omega
    rw [hsub]
    apply ih (first + 1) _ (by omega) (by simp [hlen])
    intro i hi
    have hfo : buf[first]? = orig[first]? := by
      rw [hinv first (by omega), if_pos ⟨Nat.le_refl _, by omega⟩]
    have hlo : buf[orig.length - 1 - first]? = orig[orig.length - 1 - first]? := by
      rw [hinv _ (by omega), if_pos ⟨by omega, by omega⟩]
    rw [List.getElem?_set, List.getElem?_set]
    by_cases e1 : orig.length - 1 - first = i
    · subst e1
      simp only [if_true, List.length_set, hl]
      rw [if_neg (by omega)]
      rw [← List.getElem?_eq_getElem hf, hfo]
      congr 1
      omega
    · rw [if_neg e1]
      by_cases e2 : first = i
      · subst e2
        simp only [if_true, hf]
        rw [if_neg (by omega), ← List.getElem?_eq_getElem hl, hlo]
      · rw [if_neg e2, hinv i hi]
        by_cases hmid : first ≤ i ∧ i + first < orig.length
        · rw [if_pos hmid, if_pos ⟨by omega, by omega⟩]
        · rw [if_neg hmid, if_neg (by omega)]

/-- `std::ranges::reverse` returns the elements in reverse order. -/
theorem std_ranges_reverse_eq {α : Type} (buf : List α) :
    std_ranges_reverse buf = buf.reverse := by
  unfold std_ranges_reverse
  by_cases h : buf.length = 0
  · simp only [h, if_true]
    rw [List.eq_nil_of_length_eq_zero h]; rfl
  · simp only [h, if_false]
    have := std_reverse_loop_spec buf (buf.length / 2) 0 buf (by omega) rfl
      (by intro i hi; rw [if_pos ⟨Nat.zero_le _, by omega⟩])
    simpa using this

/-- The contents `reversed()` returns. -/
theorem Collection.reversed_container {α : Type} (c : Collection α) :
    (Collection.reversed c).1.container_ = c.container_.reverse := by
  simp [Collection.reversed, Collection.reversed_rvalue, Collection.reverse, Collection.copy,
    std_ranges_reverse_eq]

/-! ### Claims -/

/-- For an associative operation the policy-free `reduce`, as the GNU library evaluates it, is
the left fold. -/
theorem Collection.reduce_eq_foldl_of_assoc {α : Type} (c : Collection α) (op : α → α → α)
    (init : α) (hassoc : ∀ a b c, op (op a b) c = op a (op b c)) :
    Collection.reduce op init c = c.container_.foldl op init :=
  std_reduce_eq_foldl op hassoc c.container_.length c.container_ init (Nat.le_refl _)

/-- C5, as stated, fails: with subtraction on the integers, `reduce([1,2,3,4], -, 0)` is
`0 - ((1 - 2) - (3 - 4)) = 0`, while the left fold `(((0 - 1) - 2) - 3) - 4` is `-10`. -/
theorem C5_reduce_is_not_left_fold :
    Collection.reduce (fun a b : Int => a - b) 0 ⟨[1, 2, 3, 4]⟩ = 0 ∧
    List.foldl (fun a b : Int => a - b) 0 [1, 2, 3, 4] = -10 ∧
    Collection.reduce (fun a b : Int => a - b) 0 ⟨[1, 2, 3, 4]⟩
      ≠ List.foldl (fun a b : Int => a - b) 0 (Collection.mk [1, 2, 3, 4]).container_ :=
  ⟨by decide, by decide, by decide⟩

/-- C5, amended: for every Collection `c = [e0, ..., e(n-1)]`, every seed `init` and every
binary operation `op` that is associative, the policy-free `c.reduce(op, init)` (in both its
copying and its consuming form) is the left-to-right fold
`op(...op(op(init, e0), e1)..., e(n-1))`; commutativity is not needed (concatenation of
`[2], [3], [4], [5], [6]` from `[1]` gives `[1, 2, 3, 4, 5, 6]`); on an empty collection `reduce`
returns `init` for every operation, and on fewer than four elements it is the left fold for
every operation; `reduce([1,2,3,4], +, 0) == 10`. -/
theorem C5_reduce_left_fold_assoc {α : Type} (c : Collection α) (op : α → α → α)
    (init : α) (hassoc : ∀ a b c, op (op a b) c = op a (op b c)) :
    Collection.reduce op init c = c.container_.foldl op init ∧
    Collection.reduce_rvalue op init c = c.container_.foldl op init ∧
    (∀ op2 : α → α → α, Collection.reduce op2 init ⟨[]⟩ = init) ∧
    (∀ (op2 : α → α → α) (d : Collection α), d.size < 4 →
      Collection.reduce op2 init d = d.container_.foldl op2 init) ∧
    Collection.reduce (fun a b : List Nat => a ++ b) [1] ⟨[[2], [3], [4], [5], [6]]⟩
      = [1, 2, 3, 4, 5, 6] ∧
    Collection.reduce (fun a b : Nat => a + b) 0 ⟨[1, 2, 3, 4]⟩ = 10 := by
  refine ⟨Collection.reduce_eq_foldl_of_assoc c op init hassoc,
    Collection.reduce_eq_foldl_of_assoc c op init hassoc, fun _ => rfl, ?_, by decide,
    by decide⟩
  intro op2 d hd
  obtain ⟨l⟩ := d
  match l, hd with
  | [], _ => rfl
  | [_], _ => rfl
  | [_, _], _ => rfl
  | [_, _, _], _ => rfl
  | _ :: _ :: _ :: _ :: _, hd => simp [Collection.size] at hd; omega

/-- Witness of C5 amended: concatenation, associative and not commutative, over
`[[2], [3], [4], [5], [6]]` from `[1]`. -/
theorem C5_reduce_left_fold_assoc_witness :
    (∀ a b c : List Nat, a ++ b ++ c = a ++ (b ++ c)) ∧
    Collection.reduce (fun a b : List Nat => a ++ b) [1] ⟨[[2], [3], [4], [5], [6]]⟩
      = List.foldl (fun a b : List Nat => a ++ b) [1] [[2], [3], [4], [5], [6]] :=
  ⟨List.append_assoc,
    (C5_reduce_left_fold_assoc ⟨[[2], [3], [4], [5], [6]]⟩ (fun a b : List Nat => a ++ b) [1]
      List.append_assoc).1⟩

/-- Comparing pairs by their first component is a strict weak ordering. -/
theorem by_first_strictWeakOrdering : StrictWeakOrdering by_first := by
  refine ⟨?_, ?_, ?_⟩
  · intro a; simp [by_first]
  · intro a b c; simp only [by_first, decide_eq_true_eq]; omega
  · intro a b c; simp only [by_first, decide_eq_false_iff_not]; omega

/-- The default ascending comparator is a strict weak ordering. -/
theorem ranges_less_strictWeakOrdering {α : Type} [LinearOrder α] :
    StrictWeakOrdering (ranges_less : α → α → Bool) := by
  refine ⟨?_, ?_, ?_⟩
  · intro a; simp [ranges_less]
  · intro a b c; simp only [ranges_less, decide_eq_true_eq]; exact lt_trans
  · intro a b c
    simp only [ranges_less, decide_eq_false_iff_not, not_lt]
    intro h1 h2 h3 h4
    exact ⟨le_trans h3 h1, le_trans h2 h4⟩

/-- C6: for every Collection `c` and every strict weak ordering `cmp`, `c.stable_sorted(cmp)`
is a permutation of `c` (so of the same size) in which no later element compares less than an
earlier one, and for every element `a` the elements equivalent to `a` appear in the same
relative order as in `c`; `[(1,"a"),(1,"b"),(0,"c")]` sorted by first component is
`[(0,"c"),(1,"a"),(1,"b")]`. -/
theorem C6_stable_sorted {α : Type} (c : Collection α) (cmp : α → α → Bool)
    (h : StrictWeakOrdering cmp) :
    (Collection.stable_sorted cmp c).1.container_.Perm c.container_ ∧
    (Collection.stable_sorted cmp c).1.size = c.size ∧
    (Collection.stable_sorted cmp c).1.container_.Pairwise (fun x y => cmp y x = false) ∧
    (∀ a, (Collection.stable_sorted cmp c).1.container_.filter (fun b => equiv cmp a b)
      = c.container_.filter (fun b => equiv cmp a b)) ∧
    (Collection.stable_sorted by_first ⟨[(1, "a"), (1, "b"), (0, "c")]⟩).1
      = ⟨[(0, "c"), (1, "a"), (1, "b")]⟩ := by
  have hperm : (Collection.stable_sorted cmp c).1.container_.Perm c.container_ :=
    std_stable_sort_rec_perm cmp c.container_.length c.container_
  obtain ⟨hs, hf⟩ := std_stable_sort_rec_spec h c.container_.length c.container_ (Nat.le_refl _)
  exact ⟨hperm, hperm.length_eq, hs, hf, by decide⟩

/-- Witness of C6: the example of the claim, sorted by first component. -/
theorem C6_stable_sorted_witness :
    StrictWeakOrdering by_first ∧
    (Collection.stable_sorted by_first ⟨[(1, "a"), (1, "b"), (0, "c")]⟩).1.container_.Perm
      [(1, "a"), (1, "b"), (0, "c")] ∧
    (Collection.stable_sorted by_first ⟨[(1, "a"), (1, "b"), (0, "c")]⟩).1.container_.Pairwise
      (fun x y => by_first y x = false) :=
  ⟨by_first_strictWeakOrdering,
    (C6_stable_sorted ⟨[(1, "a"), (1, "b"), (0, "c")]⟩ by_first by_first_strictWeakOrdering).1,
    (C6_stable_sorted ⟨[(1, "a"), (1, "b"), (0, "c")]⟩ by_first
      by_first_strictWeakOrdering).2.2.1⟩

/-- C7: for every Collection `c` and every strict weak ordering `cmp`, `c.sorted(cmp)` is a
permutation of `c` (same elements with the same multiplicities, same size) such that for all
indices `i < j` the element at `j` does not compare less than the element at `i`. -/
theorem C7_sorted {α : Type} [DecidableEq α] (c : Collection α) (cmp : α → α → Bool)
    (h : StrictWeakOrdering cmp) :
    (Collection.sorted cmp c).1.container_.Perm c.container_ ∧
    (∀ a, (Collection.sorted cmp c).1.container_.count a = c.container_.count a) ∧
    (Collection.sorted cmp c).1.size = c.size ∧
    (∀ (i j : Nat) (hi : i < (Collection.sorted cmp c).1.container_.length)
        (hj : j < (Collection.sorted cmp c).1.container_.length), i < j →
      cmp (Collection.sorted cmp c).1.container_[j] (Collection.sorted cmp c).1.container_[i]
        = false) := by
  have hperm : (Collection.sorted cmp c).1.container_.Perm c.container_ :=
    std_ranges_sort_perm cmp c.container_
  have hs : (Collection.sorted cmp c).1.container_.Pairwise (fun x y => cmp y x = false) :=
    std_ranges_sort_sorted h c.container_
  exact ⟨hperm, fun a => hperm.count_eq a, hperm.length_eq,
    fun i j hi hj hij => List.pairwise_iff_getElem.mp hs i j hi hj hij⟩

/-- Witness of C7: the default ascending order on `[3, 1, 2, 1]`. -/
theorem C7_sorted_witness :
    StrictWeakOrdering (@ranges_less Nat _) ∧
    (Collection.sorted (@ranges_less Nat _) ⟨[3, 1, 2, 1]⟩).1.container_.Perm [3, 1, 2, 1] ∧
    (Collection.sorted (@ranges_less Nat _) ⟨[3, 1, 2, 1]⟩).1 = ⟨[1, 1, 2, 3]⟩ :=
  ⟨ranges_less_strictWeakOrdering,
    (C7_sorted ⟨[3, 1, 2, 1]⟩ (@ranges_less Nat _) ranges_less_strictWeakOrdering).1,
    by decide⟩

/-- C8: for each of filter, sort, stable_sort and reverse, the copying form applied to a
collection `c` returns exactly the contents the mutating form leaves in a copy of `c`, which
are the contents the consuming form returns for that copy, and `c` itself is left equal to its
prior value. -/
theorem C8_copying_forms_frame {α : Type} (c : Collection α) (p : α → Bool)
    (cmp : α → α → Bool) :
    ((Collection.filtered p c).1 = Collection.filter p (Collection.copy c) ∧
      (Collection.filtered p c).1 = (Collection.filtered_rvalue p (Collection.copy c)).1 ∧
      (Collection.filtered p c).2 = c) ∧
    ((Collection.sorted cmp c).1 = Collection.sort cmp (Collection.copy c) ∧
      (Collection.sorted cmp c).1 = (Collection.sorted_rvalue cmp (Collection.copy c)).1 ∧
      (Collection.sorted cmp c).2 = c) ∧
    ((Collection.stable_sorted cmp c).1 = Collection.stable_sort cmp (Collection.copy c) ∧
      (Collection.stable_sorted cmp c).1
        = (Collection.stable_sorted_rvalue cmp (Collection.copy c)).1 ∧
      (Collection.stable_sorted cmp c).2 = c) ∧
    ((Collection.reversed c).1 = Collection.reverse (Collection.copy c) ∧
      (Collection.reversed c).1 = (Collection.reversed_rvalue (Collection.copy c)).1 ∧
      (Collection.reversed c).2 = c) ∧
    Collection.copy c = c :=
  ⟨⟨rfl, rfl, rfl⟩, ⟨rfl, rfl, rfl⟩, ⟨rfl, rfl, rfl⟩, ⟨rfl, rfl, rfl⟩, rfl⟩

/-- What `std::ranges::find` returns: an index within the range exactly when some element
is equal to the probe. -/
theorem std_ranges_find_ne_length {α υ : Type} (eq : α → υ → Bool) (value : υ) :
    ∀ l : List α, std_ranges_find eq value l ≤ l.length ∧
      (std_ranges_find eq value l ≠ l.length ↔ ∃ e ∈ l, eq e value = true) := by
  intro l
  induction l with
  | nil => simp [std_ranges_find]
  | cons e rest ih =>
    by_cases he : eq e value = true
    · simp only [std_ranges_find, he, if_true, List.length_cons]
      exact ⟨Nat.zero_le _, fun _ => ⟨e, List.mem_cons_self _ _, he⟩,
        fun _ => (Nat.succ_ne_zero _).symm⟩
    · simp only [Bool.not_eq_true] at he
      simp only [std_ranges_find, he, Bool.false_eq_true, if_false, List.length_cons, ne_eq,
        Nat.add_right_cancel_iff, List.mem_cons, exists_eq_or_imp, false_or]
      exact ⟨Nat.succ_le_succ ih.1, ih.2⟩

/-- What `contains` returns, for a probe of any type. -/
theorem Collection.contains_U_iff {α υ : Type} (eq : α → υ → Bool) (value : υ)
    (c : Collection α) :
    Collection.contains_U eq value c = true ↔ ∃ e ∈ c.container_, eq e value = true := by
  simp only [Collection.contains_U, bne_iff_ne]
  exact (std_ranges_find_ne_length eq value c.container_).2

/-- C9: for every Collection `c` and every probe value `v`, `c.contains(v)` is true if and only
if some element of `c` is equal to `v` (under the `operator==` of the elements, also for a probe
of another type); in particular it is false on an empty collection and does not depend on the
order of the elements. -/
theorem C9_contains {α υ : Type} [BEq α] (c : Collection α) (v : α) (eq : α → υ → Bool)
    (u : υ) :
    (Collection.contains v c = true ↔ ∃ e ∈ c.container_, (e == v) = true) ∧
    (Collection.contains_U eq u c = true ↔ ∃ e ∈ c.container_, eq e u = true) ∧
    Collection.contains v (⟨[]⟩ : Collection α) = false ∧
    (∀ c2 : Collection α, c2.container_.Perm c.container_ →
      Collection.contains v c2 = Collection.contains v c) := by
  have hc : ∀ d : Collection α,
      Collection.contains v d = true ↔ ∃ e ∈ d.container_, (e == v) = true :=
    fun d => Collection.contains_U_iff (fun e w => e == w) v d
  refine ⟨hc c, Collection.contains_U_iff eq u c, rfl, ?_⟩
  intro c2 hperm
  rw [Bool.eq_iff_iff, hc c2, hc c]
  constructor
  · rintro ⟨e, he, h⟩; exact ⟨e, hperm.subset he, h⟩
  · rintro ⟨e, he, h⟩; exact ⟨e, hperm.symm.subset he, h⟩

/-- C10: for every Collection `c`, resizable or of fixed arity `N`, and every index `i`,
`c.at(i)` returns the element at position `i` when `i < size(c)` and fails with an out-of-range
condition when `i >= size(c)`; in particular `at(size())` always fails. -/
theorem C10_at_checked {α : Type} {N : Nat} (c : Collection α) (a : ArrayCollection α N)
    (i : Nat) :
    (∀ h : i < c.container_.length, Collection.at c i = Except.ok c.container_[i]) ∧
    (c.size ≤ i → Collection.at c i = Except.error Exception.out_of_range) ∧
    Collection.at c c.size = Except.error Exception.out_of_range ∧
    (∀ h : i < a.container_.length, ArrayCollection.at a i = Except.ok a.container_[i]) ∧
    (a.size ≤ i → ArrayCollection.at a i = Except.error Exception.out_of_range) ∧
    ArrayCollection.at a a.size = Except.error Exception.out_of_range ∧
    a.size = N ∧
    ArrayCollection.at a N = Except.error Exception.out_of_range := by
  have key : ∀ (l : List α) (k : Nat), l.length ≤ k →
      std_at l k = Except.error Exception.out_of_range := by
    intro l k hk
    simp [std_at, Nat.not_lt.mpr hk]
  refine ⟨?_, ?_, ?_, ?_, ?_, ?_, a.size_eq, ?_⟩
  · intro h; simp [Collection.at, std_at, h]
  · intro h; exact key _ _ h
  · exact key _ _ (Nat.le_refl _)
  · intro h; simp [ArrayCollection.at, std_at, h]
  · intro h; exact key _ _ h
  · exact key _ _ (Nat.le_refl _)
  · exact key _ _ (Nat.le_of_eq a.size_eq)

/-! ### Fixed-arity specialization -/

/-- Two fixed-arity collections with the same cells are equal. -/
theorem ArrayCollection.ext_container {α : Type} {N : Nat} (a b : ArrayCollection α N)
    (h : a.container_ = b.container_) : a = b := by
  cases a; cases b; simp_all

/-- An algorithm that keeps the number of cells leaves its whole output in the array. -/
theorem ArrayCollection.in_place_container {α : Type} {N : Nat} (algorithm : List α → List α)
    (a : ArrayCollection α N)
    (h : (algorithm a.container_).length = a.container_.length) :
    (ArrayCollection.in_place algorithm a).container_ = algorithm a.container_ := by
  apply List.ext_getElem
  · rw [(ArrayCollection.in_place algorithm a).size_eq, h, a.size_eq]
  · intro i h1 h2
    simp only [ArrayCollection.in_place, List.getElem_ofFn, List.getElem?_eq_getElem h2,
      Option.getD_some]

/-- The range-for of `transform` visits every cell: the result is the mapped list. -/
theorem transform_loop_eq_map {α : Type} (f : α → α) (l : List α) :
    transform_loop f l.length 0 l = l.map f := by
  simpa using transform_loop_spec f l.length 0 l (by simp)

/-- `std::transform` into existing cells overwrites as many cells as the source has
elements, from position `result` on. -/
theorem std_transform_into_spec {α β : Type} (op : α → β) :
    ∀ (src : List α) (result : Nat) (out : List β), result + src.length ≤ out.length →
      std_transform_into op src result out
        = out.take result ++ src.map op ++ out.drop (result + src.length) := by
  intro src
  induction src with
  | nil => intro result out _; simp [std_transform_into]
  | cons x rest ih =>
    intro result out h
    simp only [List.length_cons] at h
    have hr : result < out.length := by omega
    simp only [std_transform_into]
    rw [ih (result + 1) (out.set result (op x)) (by simp; omega)]
    rw [List.take_succ, take_set_self, List.drop_set_of_lt _ _ (by omega)]
    simp [hr, Nat.add_assoc, Nat.add_comm 1]

/-- The copy loop of the range constructor of the specialization keeps the number of cells. -/
theorem array_range_loop_length {α : Type} :
    ∀ (source : List α) (it : Nat) (buf : List α),
      (array_range_loop source it buf).length = buf.length := by
  intro source
  induction source with
  | nil => intro it buf; rfl
  | cons x rest ih =>
    intro it buf
    by_cases h : it < buf.length
    · simp [array_range_loop, h, ih]
    · simp [array_range_loop, h]

/-- The sort model keeps the number of elements. -/
theorem std_ranges_sort_length {α : Type} (cmp : α → α → Bool) (l : List α) :
    (std_ranges_sort cmp l).length = l.length :=
  (std_ranges_sort_perm cmp l).length_eq

/-- The stable sort model keeps the number of elements. -/
theorem std_ranges_stable_sort_length {α : Type} (cmp : α → α → Bool) (l : List α) :
    (std_ranges_stable_sort cmp l).length = l.length :=
  (std_stable_sort_rec_perm cmp l.length l).length_eq

/-- The cells `sort` leaves in a fixed-arity collection. -/
theorem ArrayCollection.sort_container {α : Type} {N : Nat} (cmp : α → α → Bool)
    (a : ArrayCollection α N) :
    (ArrayCollection.sort cmp a).container_ = std_ranges_sort cmp a.container_ :=
  ArrayCollection.in_place_container _ a (std_ranges_sort_length cmp a.container_)

/-- The cells `stable_sort` leaves in a fixed-arity collection. -/
theorem ArrayCollection.stable_sort_container {α : Type} {N : Nat} (cmp : α → α → Bool)
    (a : ArrayCollection α N) :
    (ArrayCollection.stable_sort cmp a).container_
      = std_ranges_stable_sort cmp a.container_ :=
  ArrayCollection.in_place_container _ a (std_ranges_stable_sort_length cmp a.container_)

/-- The cells `reverse` leaves in a fixed-arity collection. -/
theorem ArrayCollection.reverse_container {α : Type} {N : Nat} (a : ArrayCollection α N) :
    (ArrayCollection.reverse a).container_ = a.container_.reverse := by
  rw [ArrayCollection.reverse, ArrayCollection.in_place_container _ a
    (by rw [std_ranges_reverse_eq, List.length_reverse]), std_ranges_reverse_eq]

/-- The cells the same-type `transform` leaves in a fixed-arity collection. -/
theorem ArrayCollection.array_transform_container {α : Type} {N : Nat} (f : α → α)
    (a : ArrayCollection α N) :
    (ArrayCollection.transform f a).container_ = a.container_.map f := by
  rw [ArrayCollection.transform, ArrayCollection.in_place_container _ a
    (by rw [transform_loop_eq_map, List.length_map]), transform_loop_eq_map]

/-- The cells the type-changing `transform` of the specialization returns. -/
theorem ArrayCollection.array_transform_rebind_container {α β : Type} {N : Nat} (g : α → β)
    (indeterminate : Fin N → β) (a : ArrayCollection α N) :
    (ArrayCollection.transform_rebind g indeterminate a).container_ = a.container_.map g := by
  have hspec := std_transform_into_spec g a.container_ 0
    (ArrayCollection.default_constructed N indeterminate).container_
    (by simp [ArrayCollection.default_constructed, a.size_eq])
  have hdrop : (ArrayCollection.default_constructed N indeterminate).container_.drop
      (0 + a.container_.length) = [] := by
    simp [ArrayCollection.default_constructed, a.size_eq]
  rw [hdrop] at hspec
  simp only [List.take_zero, List.nil_append, List.append_nil] at hspec
  rw [ArrayCollection.transform_rebind, ArrayCollection.in_place_container _ _
    (by rw [hspec]; simp [ArrayCollection.default_constructed, a.size_eq]), hspec]

/-- What `std::vector<T>(first, last)` appends. -/
theorem std_vector_from_range_spec {α : Type} :
    ∀ (src out : List α), std_vector_from_range src out = out ++ src := by
  intro src
  induction src with
  | nil => intro out; simp [std_vector_from_range]
  | cons x rest ih => intro out; simp [std_vector_from_range, ih]

/-- The copy loop of the range constructor of the specialization overwrites the cells from
`it` on with the source, as far as both reach. -/
theorem array_range_loop_spec {α : Type} :
    ∀ (source : List α) (it : Nat) (buf : List α), it ≤ buf.length →
      array_range_loop source it buf
        = buf.take it ++ source.take (buf.length - it)
          ++ buf.drop (it + min source.length (buf.length - it)) := by
  intro source
  induction source with
  | nil => intro it buf _; simp [array_range_loop]
  | cons x rest ih =>
    intro it buf hle
    by_cases h : it < buf.length
    · simp only [array_range_loop, h, if_true]
      rw [ih (it + 1) (buf.set it x) (by simp; omega)]
      rw [List.take_succ, take_set_self, List.drop_set_of_lt _ _ (by omega)]
      have h1 : buf.length - it = (buf.length - (it + 1)) + 1 := by omega
      have h2 : it + 1 + min rest.length ((buf.set it x).length - (it + 1))
          = it + min (rest.length + 1) (buf.length - it) := by
        simp only [List.length_set]; omega
      rw [h2, List.length_set]
      have h3 : (x :: rest).take (buf.length - it) = x :: rest.take (buf.length - (it + 1)) := by
        rw [h1]; rfl
      rw [h3]
      simp [h]
    · have he : it = buf.length := by omega
      subst he
      simp [array_range_loop]

/-- The cells the range constructor of the specialization leaves: the first `N` source
elements, then the cells the loop did not reach, with the values default-initialization left in
them. -/
theorem ArrayCollection.from_range_container {α : Type} (N : Nat) (indeterminate : Fin N → α)
    (source : List α) :
    (ArrayCollection.from_range N indeterminate source).container_
      = source.take N ++ (List.ofFn indeterminate).drop source.length := by
  rw [ArrayCollection.from_range, ArrayCollection.in_place_container _ _
    (array_range_loop_length _ _ _), array_range_loop_spec _ _ _ (Nat.zero_le _)]
  simp only [ArrayCollection.default_constructed, List.take_zero, List.nil_append,
    List.length_ofFn, Nat.sub_zero, Nat.zero_add]
  by_cases h : source.length ≤ N
  · rw [Nat.min_eq_left h]
  · rw [Nat.min_eq_right (by omega), List.drop_of_length_le (by simp),
      List.drop_of_length_le (by simp; omega)]

/-- C11: for every fixed-arity Collection over `std::array<T, N>`, `size() == N` holds after
every way of constructing it (default, from a raw array, from an iterator range or a literal
list of any length) and after every operation of the type: sort, stable_sort, reverse, same-type
transform, swap and assignment; the in-place operations leave all `N` cells of the algorithm's
output, and the range constructor leaves the first `N` source elements followed by the cells it
did not reach, which keep whatever default-initialization left in them.  For `N = 4`, a
collection built from two or from six elements has size `4`. -/
theorem C11_fixed_arity_size {α : Type} {N : Nat} (a b : ArrayCollection α N)
    (indeterminate : Fin N → α) (cells : Fin N → α) (source : List α) (cmp : α → α → Bool) (f : α → α) :
    a.size = N ∧
    (ArrayCollection.default_constructed N indeterminate).size = N ∧
    (ArrayCollection.of_container cells).size = N ∧
    (ArrayCollection.from_range N indeterminate source).size = N ∧
    (ArrayCollection.from_initializer_list N indeterminate source).size = N ∧
    (ArrayCollection.sort cmp a).size = N ∧
    (ArrayCollection.stable_sort cmp a).size = N ∧
    (ArrayCollection.reverse a).size = N ∧
    (ArrayCollection.transform f a).size = N ∧
    (ArrayCollection.swap a b).1.size = N ∧ (ArrayCollection.swap a b).2.size = N ∧
    (ArrayCollection.assign a b).size = N ∧
    (ArrayCollection.assign_container a cells).size = N ∧
    (ArrayCollection.assign_range a indeterminate source).size = N ∧
    (ArrayCollection.sort cmp a).container_ = std_ranges_sort cmp a.container_ ∧
    (ArrayCollection.stable_sort cmp a).container_ = std_ranges_stable_sort cmp a.container_ ∧
    (ArrayCollection.reverse a).container_ = a.container_.reverse ∧
    (ArrayCollection.transform f a).container_ = a.container_.map f ∧
    (ArrayCollection.from_range N indeterminate source).container_
      = source.take N ++ (List.ofFn indeterminate).drop source.length ∧
    (ArrayCollection.from_range 4 (fun i => 100 + i.val) [1, 2]).size = 4 ∧
    (ArrayCollection.from_range 4 (fun i => 100 + i.val) [1, 2, 3, 4, 5, 6]).size = 4 :=
  ⟨a.size_eq, ArrayCollection.size_eq _, ArrayCollection.size_eq _, ArrayCollection.size_eq _,
    ArrayCollection.size_eq _, ArrayCollection.size_eq _, ArrayCollection.size_eq _,
    ArrayCollection.size_eq _, ArrayCollection.size_eq _, b.size_eq, a.size_eq, b.size_eq,
    ArrayCollection.size_eq _, ArrayCollection.size_eq _,
    ArrayCollection.sort_container cmp a, ArrayCollection.stable_sort_container cmp a,
    ArrayCollection.reverse_container a, ArrayCollection.array_transform_container f a,
    ArrayCollection.from_range_container N indeterminate source,
    ArrayCollection.size_eq _, ArrayCollection.size_eq _⟩

/-- C12: for every fixed-arity Collection `a` of arity `N` and every function `g : T -> U`,
`a.transform(g)` is a fixed-arity collection of `U` with the same arity `N` whose element at
every index `i < N` is `g(a[i])`. -/
theorem C12_fixed_arity_transform_rebind {α β : Type} {N : Nat} (a : ArrayCollection α N)
    (g : α → β) (indeterminate : Fin N → β) :
    (ArrayCollection.transform_rebind g indeterminate a).size = N ∧
    (ArrayCollection.transform_rebind g indeterminate a).container_ = a.container_.map g ∧
    (∀ i : Nat, (ArrayCollection.transform_rebind g indeterminate a).container_[i]?
      = (a.container_[i]?).map g) ∧
    (∀ i : Fin N,
      ArrayCollection.to_container (ArrayCollection.transform_rebind g indeterminate a) i
        = g (ArrayCollection.to_container a i)) := by
  refine ⟨ArrayCollection.size_eq _,
    ArrayCollection.array_transform_rebind_container g indeterminate a, ?_, ?_⟩
  · intro i; rw [ArrayCollection.array_transform_rebind_container]; simp
  · intro i
    simp only [ArrayCollection.to_container, List.get_eq_getElem,
      ArrayCollection.array_transform_rebind_container, List.getElem_map]

/-- C13: for every Collection `c`, resizable or of fixed arity, converting `c` to its raw
container and constructing a Collection from that raw container yields a Collection equal to
`c`: same size, equal elements in the same order. -/
theorem C13_raw_container_round_trip {α : Type} {N : Nat} (c : Collection α)
    (a : ArrayCollection α N) :
    Collection.of_container (Collection.to_container c) = c ∧
    (Collection.of_container (Collection.to_container c)).size = c.size ∧
    (∀ i : Nat, (Collection.of_container (Collection.to_container c)).container_[i]?
      = c.container_[i]?) ∧
    ArrayCollection.of_container (ArrayCollection.to_container a) = a ∧
    (ArrayCollection.of_container (ArrayCollection.to_container a)).container_
      = a.container_ := by
  have ha : (ArrayCollection.of_container (ArrayCollection.to_container a)).container_
      = a.container_ := by
    obtain ⟨l, hl⟩ := a
    subst hl
    exact List.ofFn_get l
  exact ⟨rfl, rfl, fun _ => rfl, ArrayCollection.ext_container _ _ ha, ha⟩

/-- C17: for every fixed-arity Collection `a` of arity `N`, `a.dynamicize()` is a resizable
Collection of size `N` whose element at every index is the element of `a` at that index, in the
copying form (which leaves `a` unchanged) and in the consuming form. -/
theorem C17_dynamicize {α : Type} {N : Nat} (a : ArrayCollection α N) :
    (ArrayCollection.dynamicize a).1.container_ = a.container_ ∧
    (ArrayCollection.dynamicize a).1.size = N ∧
    (∀ i : Nat, (ArrayCollection.dynamicize a).1.container_[i]? = a.container_[i]?) ∧
    (ArrayCollection.dynamicize a).2 = a ∧
    (ArrayCollection.dynamicize_rvalue a).container_ = a.container_ ∧
    (ArrayCollection.dynamicize_rvalue a).size = N := by
  have h : (Collection.from_range a.container_).container_ = a.container_ := by
    simp [Collection.from_range, std_vector_from_range_spec]
  refine ⟨h, ?_, ?_, rfl, h, ?_⟩
  · rw [Collection.size]; exact h ▸ a.size_eq
  · intro i; exact congrArg (fun l => l[i]?) h
  · rw [Collection.size]; exact h ▸ a.size_eq

/-! ### Reduce with an execution policy -/

/-- C14: for every Collection `c`, every seed `init` and every binary operation `op` that is
associative and commutative, every value `reduce` called with an execution policy may return,
whatever grouping and order of the operands the evaluation uses, is the value of the policy-free
`reduce`, namely the left fold of `op` over `c` from `init`; and the call has such a value. -/
theorem C14_reduce_policy_assoc_comm {α : Type} (c : Collection α) (op : α → α → α)
    (init : α) (hassoc : ∀ a b c, op (op a b) c = op a (op b c))
    (hcomm : ∀ a b, op a b = op b a) :
    (∀ r, Collection.reduce_policy op init c r →
      r = Collection.reduce op init c ∧ r = c.container_.foldl op init) ∧
    Collection.reduce_policy op init c (Collection.reduce op init c) ∧
    (∀ r1 r2, Collection.reduce_policy op init c r1 → Collection.reduce_policy op init c r2 →
      r1 = r2) := by
  have hfold : Collection.reduce op init c = c.container_.foldl op init :=
    std_reduce_eq_foldl op hassoc c.container_.length c.container_ init (Nat.le_refl _)
  have hall : ∀ r, Collection.reduce_policy op init c r → r = c.container_.foldl op init :=
    fun r hr => GeneralizedSum.eq_foldl op hassoc hcomm init c.container_ r hr
  refine ⟨fun r hr => ⟨(hall r hr).trans hfold.symm, hall r hr⟩,
    std_reduce_generalizedSum op c.container_ init, ?_⟩
  intro r1 r2 h1 h2
  rw [hall r1 h1, hall r2 h2]

/-- Witness of C14: addition on the naturals over `[1, 2, 3, 4]` from `0`, evaluated as
`(4 + 3) + ((2 + 1) + 0)`. -/
theorem C14_reduce_policy_assoc_comm_witness :
    (∀ a b c : Nat, a + b + c = a + (b + c)) ∧ (∀ a b : Nat, a + b = b + a) ∧
    Collection.reduce_policy (fun a b : Nat => a + b) 0 ⟨[1, 2, 3, 4]⟩ ((4 + 3) + ((2 + 1) + 0)) ∧
    (4 + 3) + ((2 + 1) + 0) = Collection.reduce (fun a b : Nat => a + b) 0 ⟨[1, 2, 3, 4]⟩ := by
  have hsum : Collection.reduce_policy (fun a b : Nat => a + b) 0 ⟨[1, 2, 3, 4]⟩
      ((4 + 3) + ((2 + 1) + 0)) :=
    ⟨[4, 3, 2, 1, 0], by decide,
      GeneralizedNoncommutativeSum.split [4, 3] [2, 1, 0] (4 + 3) ((2 + 1) + 0)
        (GeneralizedNoncommutativeSum.split [4] [3] 4 3
          (GeneralizedNoncommutativeSum.single 4) (GeneralizedNoncommutativeSum.single 3))
        (GeneralizedNoncommutativeSum.split [2, 1] [0] (2 + 1) 0
          (GeneralizedNoncommutativeSum.split [2] [1] 2 1
            (GeneralizedNoncommutativeSum.single 2) (GeneralizedNoncommutativeSum.single 1))
          (GeneralizedNoncommutativeSum.single 0))⟩
  exact ⟨Nat.add_assoc, Nat.add_comm, hsum,
    ((C14_reduce_policy_assoc_comm ⟨[1, 2, 3, 4]⟩ (fun a b : Nat => a + b) 0
      Nat.add_assoc Nat.add_comm).1 _ hsum).1⟩

/-! ### Conversions -/

/-- What `collection_internal::assign<I>` leaves in the tuple: the slots from `I` on that have
an element receive it, every other slot keeps its value. -/
theorem collection_internal_assign_spec {α : Type} {n : Nat} {Ts : Fin n → Type}
    (conv : (i : Fin n) → α → Ts i) (c : Collection α) :
    ∀ (fuel I : Nat) (tuple : (i : Fin n) → Ts i), I + fuel = n →
      ∀ j : Fin n, collection_internal_assign conv fuel I tuple c j
        = if I ≤ j.val then
            (match c.container_[j.val]? with
              | some element => conv j element
              | none => tuple j)
          else tuple j := by
  intro fuel
  induction fuel with
  | zero =>
    intro I tuple hI j
    have : ¬ I ≤ j.val := by have := j.isLt; omega
    simp [collection_internal_assign, this]
  | succ fuel ih =>
    intro I tuple hI j
    have hIn : I < n := by omega
    simp only [collection_internal_assign, hIn, dite_true]
    cases hc : c.container_[I]? with
    | none =>
      simp only
      split
      · next hle =>
        have hlen : c.container_.length ≤ I := List.getElem?_eq_none_iff.mp hc
        rw [List.getElem?_eq_none (by omega)]
      · rfl
    | some element =>
      simp only
      rw [ih (I + 1) _ (by omega) j]
      by_cases hj : j.val = I
      · have hje : j = ⟨I, hIn⟩ := Fin.ext hj
        subst hje
        simp [hc]
      · have hne : j ≠ ⟨I, hIn⟩ := fun h => hj (congrArg Fin.val h)
        by_cases hlt : I + 1 ≤ j.val
        · simp only [hlt, if_true, Function.update_noteq hne, (by omega : I ≤ j.val)]
        · have hnle : ¬ I ≤ j.val := by omega
          simp only [hlt, if_false, Function.update_noteq hne, hnle]

/-- What the tuple conversion leaves in each slot. -/
theorem Collection.to_tuple_apply {α : Type} {n : Nat} {Ts : Fin n → Type}
    [∀ i, Inhabited (Ts i)] (conv : (i : Fin n) → α → Ts i) (c : Collection α) (i : Fin n) :
    Collection.to_tuple conv c i
      = match c.container_[i.val]? with
        | some element => conv i element
        | none => default := by
  rw [Collection.to_tuple, collection_internal_assign_spec conv c n 0 _ (by simp) i]
  simp

/-- C15: for every Collection `c` and every `n`-slot tuple target, the conversion assigns slot
`i` the value `c[i]` for every `i < min(n, size(c))`, and every slot from `min(n, size(c))` on
holds the default-constructed value of its type; the elements of `c` at positions `>= n` are
ignored (collections that agree on their first `n` elements convert alike) and the conversion
always returns.  Converting `[5, 6]` to three slots gives `(5, 6, 0)`. -/
theorem C15_tuple_conversion {α : Type} {n : Nat} {Ts : Fin n → Type}
    [∀ i, Inhabited (Ts i)] (conv : (i : Fin n) → α → Ts i) (c : Collection α) :
    (∀ i : Fin n, Collection.to_tuple conv c i
      = match c.container_[i.val]? with
        | some element => conv i element
        | none => default) ∧
    (∀ (i : Fin n) (h : i.val < c.container_.length),
      Collection.to_tuple conv c i = conv i c.container_[i.val]) ∧
    (∀ i : Fin n, c.size ≤ i.val → Collection.to_tuple conv c i = default) ∧
    (∀ c2 : Collection α, c2.container_.take n = c.container_.take n →
      Collection.to_tuple conv c2 = Collection.to_tuple conv c) ∧
    (List.ofFn (@Collection.to_tuple Nat 3 (fun _ => Nat) _ (fun _ e => e) ⟨[5, 6]⟩)
      = [5, 6, 0]) ∧
    (List.ofFn (@Collection.to_tuple Nat 2 (fun _ => Nat) _ (fun _ e => e) ⟨[5, 6, 7]⟩)
      = [5, 6]) := by
  refine ⟨Collection.to_tuple_apply conv c, ?_, ?_, ?_, by decide, by decide⟩
  · intro i h
    rw [Collection.to_tuple_apply conv c i, List.getElem?_eq_getElem h]
  · intro i h
    rw [Collection.to_tuple_apply conv c i,
      List.getElem?_eq_none (by simpa [Collection.size] using h)]
  · intro c2 h
    funext i
    rw [Collection.to_tuple_apply conv c2 i, Collection.to_tuple_apply conv c i]
    have h1 := congrArg (fun l => l[i.val]?) h
    simp only [List.getElem?_take, i.isLt, if_true] at h1
    rw [h1]

/-- C16, as stated, fails: converting the empty `Collection<int>` to a pair of
`std::optional<int>` puts `F(value_type{})`, the engaged optional holding `0`, in both slots,
not the default-constructed (disengaged) optional; with one element the second slot is the
engaged optional holding `0`. -/
theorem C16_missing_slot_is_not_slot_default :
    (Collection.to_pair (fun x : Int => some x) (fun x : Int => some x) ⟨[]⟩).1 = some 0 ∧
    (Collection.to_pair (fun x : Int => some x) (fun x : Int => some x) ⟨[]⟩).1
      ≠ (default : Option Int) ∧
    (Collection.to_pair (fun x : Int => some x) (fun x : Int => some x) ⟨[5]⟩).2 = some 0 ∧
    (Collection.to_pair (fun x : Int => some x) (fun x : Int => some x) ⟨[5]⟩).2
      ≠ (default : Option Int) := by
  decide

/-- C16, amended: for every Collection `c` and every pair target `(F, S)`, the conversion puts
`c[0]` converted to `F` in slot one when `size(c) >= 1` and `c[1]` converted to `S` in slot two
when `size(c) >= 2`; a slot with no corresponding element holds the conversion to the slot's
type of a default-constructed element (`F(T{})`, `S(T{})`), which is the default-constructed
value of the slot's type whenever the conversion maps the one to the other, as when the slot
type is the element type; the conversion always returns. -/
theorem C16_pair_conversion {α φ σ : Type} [Inhabited α] [Inhabited φ] [Inhabited σ]
    (F : α → φ) (S : α → σ) (c : Collection α) :
    Collection.to_pair F S c
      = (F ((c.container_[0]?).getD default), S ((c.container_[1]?).getD default)) ∧
    (∀ h : 0 < c.container_.length, (Collection.to_pair F S c).1 = F c.container_[0]) ∧
    (∀ h : 1 < c.container_.length, (Collection.to_pair F S c).2 = S c.container_[1]) ∧
    (c.size = 0 → (Collection.to_pair F S c).1 = F default) ∧
    (c.size < 2 → (Collection.to_pair F S c).2 = S default) ∧
    (F default = default → c.size = 0 → (Collection.to_pair F S c).1 = default) ∧
    (S default = default → c.size < 2 → (Collection.to_pair F S c).2 = default) ∧
    (c.size < 2 → (Collection.to_pair (fun x : α => x) (fun x : α => x) c).2 = default) := by
  obtain ⟨l⟩ := c
  match l with
  | [] => simp [Collection.to_pair, Collection.size]
  | [x] => simp [Collection.to_pair, Collection.size]
  | x :: y :: rest => simp [Collection.to_pair, Collection.size]

/-! ### Element access, comparison, boolean conversion -/

/-- C18, as stated, fails: `front()` and `back()` forward unchecked to the container, so on an
empty Collection nothing makes them fail: where the read of the (reserved) storage of the empty
vector yields `0`, each returns `0` and no error is raised. -/
theorem C18_front_back_on_empty_need_not_fail :
    Collection.front (Except.ok 0) (⟨[]⟩ : Collection Nat) = Except.ok 0 ∧
    Collection.back (Except.ok 0) (⟨[]⟩ : Collection Nat) = Except.ok 0 ∧
    ¬ (∀ undefined : Except Exception Nat,
        ∃ e, Collection.front undefined (⟨[]⟩ : Collection Nat) = Except.error e) ∧
    ¬ (∀ undefined : Except Exception Nat,
        ∃ e, Collection.back undefined (⟨[]⟩ : Collection Nat) = Except.error e) := by
  refine ⟨rfl, rfl, ?_, ?_⟩
  · intro h
    obtain ⟨e, he⟩ := h (Except.ok 0)
    cases he
  · intro h
    obtain ⟨e, he⟩ := h (Except.ok 0)
    cases he

/-- C18, amended: on a non-empty Collection `front()` and `back()` return the first and the
last element; on an empty Collection they check nothing and raise nothing: the outcome is
whatever the unchecked call on the empty container does; filter, transform, flat_transform,
reduce, sort, stable_sort, reverse, contains and the conversions return on an empty Collection
(an empty collection, the seed, `false`, defaulted slots). -/
theorem C18_front_back_and_empty {α β φ σ : Type} [BEq α] [Inhabited α] {n : Nat}
    {Ts : Fin n → Type} [∀ i, Inhabited (Ts i)] (x : α) (rest : List α) (p : α → Bool)
    (f : α → α) (g : α → β) (op : α → α → α) (init : α) (cmp : α → α → Bool) (v : α)
    (F : α → φ) (S : α → σ) (conv : (i : Fin n) → α → Ts i)
    (undefined : Except Exception α) :
    Collection.front undefined (⟨[]⟩ : Collection α) = undefined ∧
    Collection.back undefined (⟨[]⟩ : Collection α) = undefined ∧
    Collection.front undefined ⟨x :: rest⟩ = Except.ok x ∧
    Collection.back undefined ⟨rest ++ [x]⟩ = Except.ok x ∧
    (Collection.filtered p ⟨[]⟩).1 = ⟨[]⟩ ∧
    Collection.filter p ⟨[]⟩ = ⟨[]⟩ ∧
    (Collection.transform f ⟨[]⟩).1 = ⟨[]⟩ ∧
    (Collection.transform_rebind g ⟨[]⟩).1 = ⟨[]⟩ ∧
    (Collection.flat_transform g ⟨[]⟩).1 = ⟨[]⟩ ∧
    Collection.reduce op init ⟨[]⟩ = init ∧
    (Collection.sorted cmp ⟨[]⟩).1 = ⟨[]⟩ ∧
    (Collection.stable_sorted cmp ⟨[]⟩).1 = ⟨[]⟩ ∧
    (Collection.reversed (⟨[]⟩ : Collection α)).1 = ⟨[]⟩ ∧
    Collection.contains v ⟨[]⟩ = false ∧
    Collection.to_container (⟨[]⟩ : Collection α) = [] ∧
    Collection.to_bool (⟨[]⟩ : Collection α) = false ∧
    Collection.to_pair F S ⟨[]⟩ = (F default, S default) ∧
    Collection.to_tuple conv ⟨[]⟩ = (fun _ => default) := by
  refine ⟨rfl, rfl, rfl, ?_, rfl, rfl, rfl, rfl, rfl, rfl, rfl, rfl, rfl, rfl, rfl, rfl, rfl, ?_⟩
  · cases hr : rest ++ [x] with
    | nil => simp at hr
    | cons y ys =>
      simp only [Collection.back, std_back]
      congr 1
      simp [← hr]
  · funext i
    rw [Collection.to_tuple_apply conv ⟨[]⟩ i]
    simp

/-- When `std::vector::operator==` holds: same length and equal elements at every index. -/
theorem std_vector_eq_iff {α : Type} [BEq α] :
    ∀ (a b : List α), std_vector_eq a b = true ↔
      a.length = b.length ∧
        ∀ (i : Nat) (h1 : i < a.length) (h2 : i < b.length), (a[i] == b[i]) = true := by
  intro a
  induction a with
  | nil =>
    intro b
    cases b with
    | nil => simp [std_vector_eq, std_equal]
    | cons y ys => simp [std_vector_eq, std_equal]
  | cons x xs ih =>
    intro b
    cases b with
    | nil => simp [std_vector_eq, std_equal]
    | cons y ys =>
      have ih2 := ih ys
      simp only [std_vector_eq, Bool.and_eq_true, beq_iff_eq] at ih2
      simp only [std_vector_eq, std_equal, List.length_cons, Bool.and_eq_true, beq_iff_eq,
        Nat.add_right_cancel_iff]
      constructor
      · rintro ⟨hlen, hxy⟩
        by_cases hh : (x == y) = true
        · simp only [hh, if_true] at hxy
          obtain ⟨_, hrest⟩ := ih2.mp ⟨hlen, hxy⟩
          refine ⟨hlen, ?_⟩
          intro i h1 h2
          cases i with
          | zero => exact hh
          | succ i => exact hrest i (by simpa using h1) (by simpa using h2)
        · simp [hh] at hxy
      · rintro ⟨hlen, hall⟩
        have h0 := hall 0 (by simp) (by simp)
        simp only [List.getElem_cons_zero] at h0
        refine ⟨hlen, ?_⟩
        simp only [h0, if_true]
        exact (ih2.mpr ⟨hlen, fun i h1 h2 => by
          have := hall (i + 1) (by simpa using h1) (by simpa using h2)
          simpa using this⟩).2

/-- One step of the three-way comparison over a total order: the heads decide unless they are
equal. -/
theorem std_three_way_cons {α : Type} [LinearOrder α] (x y : α) (xs ys : List α) :
    std_lexicographical_compare_three_way compare (x :: xs) (y :: ys)
      = if x < y then Ordering.lt
        else if x = y then std_lexicographical_compare_three_way compare xs ys
        else Ordering.gt := by
  rcases lt_trichotomy x y with h | h | h
  · simp [std_lexicographical_compare_three_way, compare_lt_iff_lt.mpr h, h]
  · subst h
    have hxx : compare x x = Ordering.eq := compare_eq_iff_eq.mpr rfl
    simp [std_lexicographical_compare_three_way, hxx]
  · have h1 : ¬ x < y := not_lt.mpr (le_of_lt h)
    have h2 : ¬ x = y := fun e => (ne_of_gt h) e
    simp [std_lexicographical_compare_three_way, compare_gt_iff_gt.mpr h, h1, h2]

/-- The three-way comparison returns `eq` exactly on equal ranges. -/
theorem std_three_way_eq_iff {α : Type} [LinearOrder α] :
    ∀ (a b : List α), std_lexicographical_compare_three_way compare a b = Ordering.eq ↔ a = b := by
  intro a
  induction a with
  | nil => intro b; cases b <;> simp [std_lexicographical_compare_three_way]
  | cons x xs ih =>
    intro b
    cases b with
    | nil => simp [std_lexicographical_compare_three_way]
    | cons y ys =>
      rw [std_three_way_cons]
      by_cases h1 : x < y
      · simp [h1, ne_of_lt h1]
      · by_cases h2 : x = y
        · simp [h1, h2, ih ys]
        · simp [h1, h2]

/-- The three-way comparison returns `gt` exactly when the swapped comparison returns `lt`. -/
theorem std_three_way_gt_iff {α : Type} [LinearOrder α] :
    ∀ (a b : List α), std_lexicographical_compare_three_way compare a b = Ordering.gt ↔
      std_lexicographical_compare_three_way compare b a = Ordering.lt := by
  intro a
  induction a with
  | nil => intro b; cases b <;> simp [std_lexicographical_compare_three_way]
  | cons x xs ih =>
    intro b
    cases b with
    | nil => simp [std_lexicographical_compare_three_way]
    | cons y ys =>
      rw [std_three_way_cons, std_three_way_cons]
      rcases lt_trichotomy x y with h | h | h
      · simp [h, not_lt.mpr (le_of_lt h), ne_of_gt h]
      · subst h; simp [ih ys]
      · simp [h, not_lt.mpr (le_of_lt h), ne_of_gt h]

/-- The three-way comparison returns `lt` exactly on the lexicographic order of the ranges. -/
theorem std_three_way_lt_iff_lex {α : Type} [LinearOrder α] :
    ∀ (a b : List α), std_lexicographical_compare_three_way compare a b = Ordering.lt ↔
      List.Lex (fun x y => x < y) a b := by
  intro a
  induction a with
  | nil =>
    intro b
    cases b with
    | nil => simp [std_lexicographical_compare_three_way]
    | cons y ys => simp [std_lexicographical_compare_three_way, List.Lex.nil]
  | cons x xs ih =>
    intro b
    cases b with
    | nil => simp [std_lexicographical_compare_three_way]
    | cons y ys =>
      rw [std_three_way_cons]
      by_cases h1 : x < y
      · simp only [h1, if_true, true_iff]
        exact List.Lex.rel h1
      · by_cases h2 : x = y
        · subst h2
          simp only [h1, if_false, if_true, ih ys]
          exact ⟨List.Lex.cons, fun h => List.Lex.cons_iff.mp h⟩
        · simp only [h1, h2, if_false]
          constructor
          · intro h; cases h
          · intro h
            cases h with
            | cons _ => exact absurd rfl h2
            | rel h => exact absurd h h1

/-- The order given by the three-way comparison is transitive. -/
theorem std_three_way_lt_trans {α : Type} [LinearOrder α] :
    ∀ (a b c : List α), std_lexicographical_compare_three_way compare a b = Ordering.lt →
      std_lexicographical_compare_three_way compare b c = Ordering.lt →
      std_lexicographical_compare_three_way compare a c = Ordering.lt := by
  intro a
  induction a with
  | nil =>
    intro b c hab hbc
    cases b with
    | nil => simp [std_lexicographical_compare_three_way] at hab
    | cons y ys =>
      cases c with
      | nil => simp [std_lexicographical_compare_three_way] at hbc
      | cons z zs => simp [std_lexicographical_compare_three_way]
  | cons x xs ih =>
    intro b c hab hbc
    cases b with
    | nil => simp [std_lexicographical_compare_three_way] at hab
    | cons y ys =>
      cases c with
      | nil => simp [std_lexicographical_compare_three_way] at hbc
      | cons z zs =>
        rw [std_three_way_cons] at hab hbc ⊢
        by_cases hxy : x < y
        · by_cases hyz : y < z
          · simp [lt_trans hxy hyz]
          · by_cases hyz2 : y = z
            · subst hyz2; simp [hxy]
            · simp [hyz, hyz2] at hbc
        · by_cases hxy2 : x = y
          · subst hxy2
            simp only [hxy, if_false, if_true] at hab
            by_cases hyz : x < z
            · simp [hyz]
            · by_cases hyz2 : x = z
              · subst hyz2
                simp only [hyz, if_false, if_true] at hbc ⊢
                exact ih ys zs hab hbc
              · simp [hyz, hyz2] at hbc
          · simp [hxy, hxy2] at hab

/-- C19: for all Collections `a` and `b` of the same type, `a == b` holds iff they have the
same size and equal elements at every index; the three-way comparison is the lexicographic,
element-wise order (the first differing element decides, a proper prefix is less), and over a
totally ordered element type it is a total order: it returns `equal` exactly on equal
collections, `greater` exactly when the swapped comparison returns `less`, `less` is
transitive, and any two collections are equal or ordered one way. -/
theorem C19_equality_and_three_way {α β : Type} [BEq α] [LinearOrder β]
    (a b : Collection α) (x y z : Collection β) (pre s t : List β) (u v : β) :
    (Collection.eq a b = true ↔
      a.size = b.size ∧
        ∀ (i : Nat) (h1 : i < a.container_.length) (h2 : i < b.container_.length),
          (a.container_[i] == b.container_[i]) = true) ∧
    (u ≠ v → Collection.three_way ⟨pre ++ u :: s⟩ ⟨pre ++ v :: t⟩ = compare u v) ∧
    Collection.three_way ⟨pre⟩ ⟨pre ++ v :: t⟩ = Ordering.lt ∧
    (Collection.three_way x y = Ordering.lt ↔
      List.Lex (fun p q => p < q) x.container_ y.container_) ∧
    (Collection.three_way x y = Ordering.eq ↔ x = y) ∧
    (Collection.three_way x y = Ordering.gt ↔ Collection.three_way y x = Ordering.lt) ∧
    (Collection.three_way x y = Ordering.lt → Collection.three_way y z = Ordering.lt →
      Collection.three_way x z = Ordering.lt) ∧
    (Collection.three_way x y = Ordering.lt ∨ x = y ∨
      Collection.three_way y x = Ordering.lt) := by
  have hpre : ∀ (l m n : List β), std_lexicographical_compare_three_way compare (l ++ m) (l ++ n)
      = std_lexicographical_compare_three_way compare m n := by
    intro l m n
    induction l with
    | nil => rfl
    | cons w ws ih => simp [std_three_way_cons, ih]
  have heq : Collection.three_way x y = Ordering.eq ↔ x = y := by
    rw [Collection.three_way, std_three_way_eq_iff]
    constructor
    · intro h; cases x; cases y; simp_all
    · intro h; rw [h]
  refine ⟨std_vector_eq_iff a.container_ b.container_, ?_, ?_,
    std_three_way_lt_iff_lex x.container_ y.container_, heq,
    std_three_way_gt_iff x.container_ y.container_,
    std_three_way_lt_trans x.container_ y.container_ z.container_, ?_⟩
  · intro huv
    simp only [Collection.three_way]
    rw [hpre, std_three_way_cons]
    rcases lt_trichotomy u v with h | h | h
    · simp [h, compare_lt_iff_lt.mpr h]
    · exact absurd h huv
    · simp [not_lt.mpr (le_of_lt h), huv, compare_gt_iff_gt.mpr h]
  · simp only [Collection.three_way]
    have := hpre pre [] (v :: t)
    simp only [List.append_nil] at this
    rw [this]
    rfl
  · cases h : Collection.three_way x y with
    | lt => exact Or.inl rfl
    | eq => exact Or.inr (Or.inl (heq.mp h))
    | gt => exact Or.inr (Or.inr ((std_three_way_gt_iff x.container_ y.container_).mp h))

/-- C20: for every Collection `c`, the boolean conversion of `c` is true if and only if
`size(c) > 0`; it is the negation of `c.empty()`. -/
theorem C20_bool_conversion {α : Type} (c : Collection α) :
    (Collection.to_bool c = true ↔ 0 < c.size) ∧
    Collection.to_bool c = !c.empty ∧
    (Collection.to_bool c = false ↔ c.size = 0) := by
  obtain ⟨l⟩ := c
  cases l <;> simp [Collection.to_bool, Collection.empty, Collection.size]

/-! ### Rect2D -/

/-- A value of the type is left unchanged by the conversion to the type. -/
theorem IntegerType.cast_of_in_range (T : IntegerType) (z : Int) (h : T.in_range z) :
    T.cast z = z := by
  cases T <;> simp [IntegerType.in_range, IntegerType.bits] at h <;>
    simp [IntegerType.cast, wrap, IntegerType.bits, Int.bmod] <;> omega

/-- An exact result that is a value of the type is the result of the operation. -/
theorem IntegerType.arith_of_in_range (T : IntegerType) (z : Int) (h : T.in_range z) :
    T.arith z = z := by
  cases T <;> simp [IntegerType.in_range, IntegerType.bits] at h <;>
    simp [IntegerType.arith, wrap, IntegerType.promoted_bits, Int.bmod] <;> omega

/-- Without overflow, `contains` compares the point with the exact bounds. -/
theorem Rect2D.contains_iff (T : IntegerType) (r : Rect2D) (p : Point2D)
    (h : r.no_overflow T) :
    r.contains T p = true ↔
      r.top_left.x ≤ p.x ∧ p.x ≤ r.top_left.x + r.width ∧
      r.top_left.y ≤ p.y ∧ p.y ≤ r.top_left.y + r.height := by
  simp only [Rect2D.contains, T.arith_of_in_range _ h.1, T.arith_of_in_range _ h.2,
    Bool.and_eq_true, decide_eq_true_eq, ge_iff_le]
  tauto

/-- C23: for every Rect2D `r` over an integer type and every point `p`, when the sums
`top_left.x + width` and `top_left.y + height` do not overflow, `r.contains(p)` holds iff
`top_left.x <= p.x <= top_left.x + width` and `top_left.y <= p.y <= top_left.y + height`: the
rectangle is closed on all four edges.  The rectangle `(0,0,10,10)` contains `(0,0)`, its far
corner `(10,10)`, and not `(11,11)`. -/
theorem C23_contains_point (T : IntegerType) (r : Rect2D) (p : Point2D)
    (h : r.no_overflow T) :
    (r.contains T p = true ↔
      r.top_left.x ≤ p.x ∧ p.x ≤ r.top_left.x + r.width ∧
      r.top_left.y ≤ p.y ∧ p.y ≤ r.top_left.y + r.height) ∧
    Rect2D.contains T ⟨⟨0, 0⟩, 10, 10⟩ ⟨0, 0⟩ = true ∧
    Rect2D.contains T ⟨⟨0, 0⟩, 10, 10⟩ ⟨10, 10⟩ = true ∧
    Rect2D.contains T ⟨⟨0, 0⟩, 10, 10⟩ ⟨11, 11⟩ = false := by
  refine ⟨Rect2D.contains_iff T r p h, ?_, ?_, ?_⟩ <;> cases T <;> decide

/-- Witness of C23: the rectangle `(0,0,10,10)` over `std::int16_t` and the point `(3,10)`. -/
theorem C23_contains_point_witness :
    Rect2D.no_overflow IntegerType.int16 ⟨⟨0, 0⟩, 10, 10⟩ ∧
    Rect2D.contains IntegerType.int16 ⟨⟨0, 0⟩, 10, 10⟩ ⟨3, 10⟩ = true := by
  have h : Rect2D.no_overflow IntegerType.int16 ⟨⟨0, 0⟩, 10, 10⟩ := by
    simp [Rect2D.no_overflow, IntegerType.in_range, IntegerType.bits]
  exact ⟨h, ((C23_contains_point IntegerType.int16 ⟨⟨0, 0⟩, 10, 10⟩ ⟨3, 10⟩ h).1).mpr
    (by decide)⟩

/-- C24: for all Rect2D `r` and `s` over an integer type, `s` with non-negative width and
height, without overflow, `r.contains(s)` holds if and only if every point contained in `s` is
also contained in `r`.  `(0,0,10,10)` contains `(5,5,2,2)` and `(5,5,2,2)` does not contain
`(0,0,10,10)`. -/
theorem C24_contains_rect (T : IntegerType) (r s : Rect2D) (hw : 0 ≤ s.width)
    (hh : 0 ≤ s.height) (hr : r.no_overflow T) (hs : s.no_overflow T) (hv : s.valid T) :
    (r.contains_rect T s = true ↔
      ∀ p : Point2D, p.valid T → s.contains T p = true → r.contains T p = true) ∧
    Rect2D.contains_rect T ⟨⟨0, 0⟩, 10, 10⟩ ⟨⟨5, 5⟩, 2, 2⟩ = true ∧
    Rect2D.contains_rect T ⟨⟨5, 5⟩, 2, 2⟩ ⟨⟨0, 0⟩, 10, 10⟩ = false := by
  refine ⟨?_, by cases T <;> decide, by cases T <;> decide⟩
  have hcorner : Point2D.construct T (T.arith (s.top_left.x + s.width))
      (T.arith (s.top_left.y + s.height))
      = ⟨s.top_left.x + s.width, s.top_left.y + s.height⟩ := by
    simp only [Point2D.construct, T.arith_of_in_range _ hs.1, T.arith_of_in_range _ hs.2,
      T.cast_of_in_range _ hs.1, T.cast_of_in_range _ hs.2]
  simp only [Rect2D.contains_rect, hcorner, Bool.and_eq_true, Rect2D.contains_iff T r _ hr,
    Rect2D.contains_iff T s _ hs]
  constructor
  · rintro ⟨⟨h1, h2, h3, h4⟩, ⟨h5, h6, h7, h8⟩⟩ p _ ⟨q1, q2, q3, q4⟩
    exact ⟨by omega, by omega, by omega, by omega⟩
  · intro hall
    have p1 := hall s.top_left hv.1 ⟨by omega, by omega, by omega, by omega⟩
    have p2 := hall ⟨s.top_left.x + s.width, s.top_left.y + s.height⟩ ⟨hs.1, hs.2⟩
      ⟨by simp only; omega, by simp only; omega, by simp only; omega, by simp only; omega⟩
    exact ⟨p1, p2⟩

/-- Witness of C24: `(0,0,10,10)` and `(5,5,2,2)` over `std::int32_t`. -/
theorem C24_contains_rect_witness :
    (0 : Int) ≤ (Rect2D.mk ⟨5, 5⟩ 2 2).width ∧
    Rect2D.no_overflow IntegerType.int32 ⟨⟨0, 0⟩, 10, 10⟩ ∧
    Rect2D.valid IntegerType.int32 ⟨⟨5, 5⟩, 2, 2⟩ ∧
    (∀ p : Point2D, p.valid IntegerType.int32 →
      Rect2D.contains IntegerType.int32 ⟨⟨5, 5⟩, 2, 2⟩ p = true →
      Rect2D.contains IntegerType.int32 ⟨⟨0, 0⟩, 10, 10⟩ p = true) := by
  have h1 : Rect2D.no_overflow IntegerType.int32 ⟨⟨0, 0⟩, 10, 10⟩ := by
    simp [Rect2D.no_overflow, IntegerType.in_range, IntegerType.bits]
  have h2 : Rect2D.no_overflow IntegerType.int32 ⟨⟨5, 5⟩, 2, 2⟩ := by
    simp [Rect2D.no_overflow, IntegerType.in_range, IntegerType.bits]
  have h3 : Rect2D.valid IntegerType.int32 ⟨⟨5, 5⟩, 2, 2⟩ := by
    simp [Rect2D.valid, Point2D.valid, IntegerType.in_range, IntegerType.bits]
  exact ⟨by decide, h1, h3,
    ((C24_contains_rect IntegerType.int32 ⟨⟨0, 0⟩, 10, 10⟩ ⟨⟨5, 5⟩, 2, 2⟩ (by decide)
      (by decide) h1 h2 h3).1).mp (by decide)⟩

/-- When `intersects` returns true, without overflow and with non-negative extents, the
rectangles share a point: the top-left corner of one of them. -/
theorem Rect2D.intersects_sound (T : IntegerType) (a b : Rect2D) (ha : a.no_overflow T)
    (hb : b.no_overflow T) (haw : 0 ≤ a.width) (hah : 0 ≤ a.height) (hbw : 0 ≤ b.width)
    (hbh : 0 ≤ b.height) (h : a.intersects T b = true) :
    ∃ p : Point2D, a.contains T p = true ∧ b.contains T p = true := by
  simp only [Rect2D.intersects, Bool.or_eq_true] at h
  rcases h with h | h
  · refine ⟨b.top_left, h, ?_⟩
    rw [Rect2D.contains_iff T b _ hb]
    exact ⟨by omega, by omega, by omega, by omega⟩
  · refine ⟨a.top_left, ?_, h⟩
    rw [Rect2D.contains_iff T a _ ha]
    exact ⟨by omega, by omega, by omega, by omega⟩

/-- C25, the code at the failing input: the rectangles `a = (0,5,10,2)` and `b = (5,0,2,10)`
have non-negative extents, do not overflow and both contain the point `(5,5)`, yet neither
contains the top-left corner of the other and `a.intersects(b)` is false, for each integer
type; the three cases of the test hold. -/
theorem C25_intersects_misses_crossing (T : IntegerType) :
    Rect2D.contains T ⟨⟨0, 5⟩, 10, 2⟩ ⟨5, 5⟩ = true ∧
    Rect2D.contains T ⟨⟨5, 0⟩, 2, 10⟩ ⟨5, 5⟩ = true ∧
    Rect2D.intersects T ⟨⟨0, 5⟩, 10, 2⟩ ⟨⟨5, 0⟩, 2, 10⟩ = false ∧
    Rect2D.intersects T ⟨⟨5, 0⟩, 2, 10⟩ ⟨⟨0, 5⟩, 10, 2⟩ = false ∧
    Rect2D.no_overflow T ⟨⟨0, 5⟩, 10, 2⟩ ∧ Rect2D.no_overflow T ⟨⟨5, 0⟩, 2, 10⟩ ∧
    ¬ (Rect2D.intersects T ⟨⟨0, 5⟩, 10, 2⟩ ⟨⟨5, 0⟩, 2, 10⟩ = true ↔
      ∃ p : Point2D, Rect2D.contains T ⟨⟨0, 5⟩, 10, 2⟩ p = true ∧
        Rect2D.contains T ⟨⟨5, 0⟩, 2, 10⟩ p = true) ∧
    Rect2D.intersects T ⟨⟨0, 0⟩, 10, 10⟩ ⟨⟨5, 5⟩, 2, 2⟩ = true ∧
    Rect2D.intersects T ⟨⟨0, 0⟩, 10, 10⟩ ⟨⟨10, 10⟩, 10, 10⟩ = true ∧
    Rect2D.intersects T ⟨⟨10, 10⟩, 10, 10⟩ ⟨⟨5, 5⟩, 2, 2⟩ = false := by
  have h1 : Rect2D.contains T ⟨⟨0, 5⟩, 10, 2⟩ ⟨5, 5⟩ = true := by cases T <;> decide
  have h2 : Rect2D.contains T ⟨⟨5, 0⟩, 2, 10⟩ ⟨5, 5⟩ = true := by cases T <;> decide
  have h3 : Rect2D.intersects T ⟨⟨0, 5⟩, 10, 2⟩ ⟨⟨5, 0⟩, 2, 10⟩ = false := by
    cases T <;> decide
  refine ⟨h1, h2, h3, by cases T <;> decide, ?_, ?_, ?_, by cases T <;> decide,
    by cases T <;> decide, by cases T <;> decide⟩
  · cases T <;> simp [Rect2D.no_overflow, IntegerType.in_range, IntegerType.bits]
  · cases T <;> simp [Rect2D.no_overflow, IntegerType.in_range, IntegerType.bits]
  · intro hiff
    have := hiff.mpr ⟨⟨5, 5⟩, h1, h2⟩
    rw [h3] at this
    cases this

/-- C26: for all Rect2D `a` and `b`, `a.intersects(b) == b.intersects(a)`: over the integer
value types, and over any value type whatever its `<=` and `+` are (of which the integer
instantiation is a case). -/
theorem C26_intersects_symmetric (T : IntegerType) (a b : Rect2D) {V : Type}
    (le : V → V → Bool) (add : V → V → V) (x y w h x2 y2 w2 h2 : V) :
    a.intersects T b = b.intersects T a ∧
    intersects_any le add x y w h x2 y2 w2 h2 = intersects_any le add x2 y2 w2 h2 x y w h ∧
    a.intersects T b
      = intersects_any (fun u v => decide (u ≤ v)) (fun u v => T.arith (u + v))
          a.top_left.x a.top_left.y a.width a.height
          b.top_left.x b.top_left.y b.width b.height := by
  refine ⟨?_, ?_, ?_⟩
  · simp only [Rect2D.intersects, Bool.or_comm]
  · simp only [intersects_any, Bool.or_comm]
  · simp only [Rect2D.intersects, Rect2D.contains, intersects_any, contains_any, ge_iff_le]

/-- C27: for all points `tl` and `br` over an integer type, with arithmetic modulo the type
width, `Rect2D(tl, br)` has `top_left == tl`, `width == br.x - tl.x` and
`height == br.y - tl.y` (the difference reduced to the type, the exact difference when it is a
value of the type), so that `top_left + (width, height)`, reduced to the type, is `br`.
`Rect2D((10,0),(110,100))` has top-left `(10,0)`, width `100`, height `100`. -/
theorem C27_from_corners (T : IntegerType) (tl br : Point2D) (htl : tl.valid T)
    (hbr : br.valid T) :
    (Rect2D.from_corners T tl br).top_left = tl ∧
    (Rect2D.from_corners T tl br).width = wrap T.bits (br.x - tl.x) ∧
    (Rect2D.from_corners T tl br).height = wrap T.bits (br.y - tl.y) ∧
    (T.in_range (br.x - tl.x) → (Rect2D.from_corners T tl br).width = br.x - tl.x) ∧
    (T.in_range (br.y - tl.y) → (Rect2D.from_corners T tl br).height = br.y - tl.y) ∧
    T.cast (T.arith (tl.x + (Rect2D.from_corners T tl br).width)) = br.x ∧
    T.cast (T.arith (tl.y + (Rect2D.from_corners T tl br).height)) = br.y ∧
    (Rect2D.from_corners T tl br).valid T ∧
    Rect2D.from_corners T ⟨10, 0⟩ ⟨110, 100⟩ = ⟨⟨10, 0⟩, 100, 100⟩ := by
  obtain ⟨⟨h1, h2⟩, ⟨h3, h4⟩⟩ := htl
  obtain ⟨⟨h5, h6⟩, ⟨h7, h8⟩⟩ := hbr
  refine ⟨rfl, ?_, ?_, ?_, ?_, ?_, ?_, ?_, by cases T <;> decide⟩
  · cases T <;>
      simp only [Rect2D.from_corners, IntegerType.cast, IntegerType.arith, wrap,
        IntegerType.bits, IntegerType.promoted_bits, Int.bmod] <;>
      simp only [IntegerType.bits] at h1 h2 h5 h6 <;> norm_num at * <;> omega
  · cases T <;>
      simp only [Rect2D.from_corners, IntegerType.cast, IntegerType.arith, wrap,
        IntegerType.bits, IntegerType.promoted_bits, Int.bmod] <;>
      simp only [IntegerType.bits] at h3 h4 h7 h8 <;> norm_num at * <;> omega
  · intro h
    simp only [Rect2D.from_corners]
    rw [T.arith_of_in_range _ h, T.cast_of_in_range _ h]
  · intro h
    simp only [Rect2D.from_corners]
    rw [T.arith_of_in_range _ h, T.cast_of_in_range _ h]
  · cases T <;>
      simp only [Rect2D.from_corners, IntegerType.cast, IntegerType.arith, wrap,
        IntegerType.bits, IntegerType.promoted_bits, Int.bmod] <;>
      simp only [IntegerType.bits] at h1 h2 h5 h6 <;> norm_num at * <;> omega
  · cases T <;>
      simp only [Rect2D.from_corners, IntegerType.cast, IntegerType.arith, wrap,
        IntegerType.bits, IntegerType.promoted_bits, Int.bmod] <;>
      simp only [IntegerType.bits] at h3 h4 h7 h8 <;> norm_num at * <;> omega
  · refine ⟨⟨⟨h1, h2⟩, ⟨h3, h4⟩⟩, ?_, ?_⟩ <;>
    · cases T <;>
        simp only [Rect2D.from_corners, IntegerType.cast, IntegerType.arith, wrap,
          IntegerType.bits, IntegerType.promoted_bits, Int.bmod, IntegerType.in_range] <;>
        norm_num <;> omega

/-- Witness of C27: the corners `(-5,7)` and `(20,3)` over `std::int16_t`: width `25`, height
`-4`. -/
theorem C27_from_corners_witness :
    Point2D.valid IntegerType.int16 ⟨-5, 7⟩ ∧ Point2D.valid IntegerType.int16 ⟨20, 3⟩ ∧
    Rect2D.from_corners IntegerType.int16 ⟨-5, 7⟩ ⟨20, 3⟩ = ⟨⟨-5, 7⟩, 25, -4⟩ := by
  have h1 : Point2D.valid IntegerType.int16 ⟨-5, 7⟩ := by
    simp [Point2D.valid, IntegerType.in_range, IntegerType.bits]
  have h2 : Point2D.valid IntegerType.int16 ⟨20, 3⟩ := by
    simp [Point2D.valid, IntegerType.in_range, IntegerType.bits]
  have h := C27_from_corners IntegerType.int16 ⟨-5, 7⟩ ⟨20, 3⟩ h1 h2
  refine ⟨h1, h2, ?_⟩
  have hw := h.2.2.2.1 (by simp [IntegerType.in_range, IntegerType.bits])
  have hh := h.2.2.2.2.1 (by simp [IntegerType.in_range, IntegerType.bits])
  have ht := h.1
  cases hr : Rect2D.from_corners IntegerType.int16 ⟨-5, 7⟩ ⟨20, 3⟩ with
  | mk t w0 h0 =>
    rw [hr] at hw hh ht
    simp only at hw hh ht
    subst hw hh ht
    norm_num

/-- C28: for all Rect2D `a` and `b` over an integer type, `a == b` holds iff `top_left.x`,
`top_left.y`, `width` and `height` are pairwise equal; `==` is reflexive, symmetric and
transitive.  The cases of the test: `(0,0,0,0) == (0,0,0,0)` and `(0,0,0,0) != (1,2,30,40)`. -/
theorem C28_rect_equality (a b c : Rect2D) :
    (a.eq b = true ↔
      a.top_left.x = b.top_left.x ∧ a.top_left.y = b.top_left.y ∧ a.width = b.width ∧
        a.height = b.height) ∧
    (a.eq b = true ↔ a = b) ∧
    a.eq a = true ∧
    (a.eq b = true → b.eq a = true) ∧
    (a.eq b = true → b.eq c = true → a.eq c = true) ∧
    Rect2D.eq ⟨⟨0, 0⟩, 0, 0⟩ ⟨⟨0, 0⟩, 0, 0⟩ = true ∧
    Rect2D.eq ⟨⟨0, 0⟩, 0, 0⟩ ⟨⟨1, 2⟩, 30, 40⟩ = false := by
  have h1 : ∀ u v : Rect2D, u.eq v = true ↔
      u.top_left.x = v.top_left.x ∧ u.top_left.y = v.top_left.y ∧ u.width = v.width ∧
        u.height = v.height := by
    intro u v
    simp only [Rect2D.eq, Bool.and_eq_true, decide_eq_true_eq]
    tauto
  have h2 : ∀ u v : Rect2D, u.eq v = true ↔ u = v := by
    intro u v
    rw [h1]
    constructor
    · rintro ⟨e1, e2, e3, e4⟩
      obtain ⟨⟨ux, uy⟩, uw, uh⟩ := u
      obtain ⟨⟨vx, vy⟩, vw, vh⟩ := v
      simp_all
    · rintro rfl
      exact ⟨rfl, rfl, rfl, rfl⟩
  refine ⟨h1 a b, h2 a b, (h2 a a).mpr rfl, ?_, ?_, by decide, by decide⟩
  · intro h; exact (h2 b a).mpr ((h2 a b).mp h).symm
  · intro hab hbc; exact (h2 a c).mpr (((h2 a b).mp hab).trans ((h2 b c).mp hbc))

/-- C29: for every Rect2D `r` over an integer type, `r.isNull()` holds iff `top_left.x`,
`top_left.y`, `width` and `height` are all `0`; the default-constructed rectangle and
`Rect2D::create()` have all four members equal to `0` and are null; `(1,2,30,40)` is not
null. -/
theorem C29_is_null (r : Rect2D) :
    (r.isNull = true ↔
      r.top_left.x = 0 ∧ r.top_left.y = 0 ∧ r.width = 0 ∧ r.height = 0) ∧
    Rect2D.default_constructed = ⟨⟨0, 0⟩, 0, 0⟩ ∧
    Rect2D.create = ⟨⟨0, 0⟩, 0, 0⟩ ∧
    Rect2D.default_constructed.isNull = true ∧
    Rect2D.create.isNull = true ∧
    Rect2D.isNull (Rect2D.construct ⟨0, 0⟩ 0 0) = true ∧
    Rect2D.isNull (Rect2D.construct ⟨1, 2⟩ 30 40) = false := by
  refine ⟨?_, rfl, rfl, by decide, by decide, by decide, by decide⟩
  simp only [Rect2D.isNull, Bool.and_eq_true, decide_eq_true_eq]
  tauto

/-! ### Uniqueness of ordered ranges -/

/-- Every element is equivalent to itself. -/
theorem StrictWeakOrdering.equiv_self {α : Type} {comp : α → α → Bool}
    (h : StrictWeakOrdering comp) (a : α) : equiv comp a a = true := by
  simp [equiv, h.irrefl]

/-- Two ordered ranges that list every class of equivalent elements alike are equal: the result
of a stable sort is unique. -/
theorem sorted_eq_of_filter_eq {α : Type} {comp : α → α → Bool}
    (h : StrictWeakOrdering comp) :
    ∀ (r1 r2 : List α), r1.Pairwise (fun x y => comp y x = false) →
      r2.Pairwise (fun x y => comp y x = false) →
      (∀ a, r1.filter (fun b => equiv comp a b) = r2.filter (fun b => equiv comp a b)) →
      r1 = r2 := by
  intro r1
  induction r1 with
  | nil =>
    intro r2 _ _ hf
    cases r2 with
    | nil => rfl
    | cons y t2 =>
      have := hf y
      simp [List.filter_cons, h.equiv_self y] at this
  | cons x t1 ih =>
    intro r2 hs1 hs2 hf
    cases r2 with
    | nil =>
      have := hf x
      simp [List.filter_cons, h.equiv_self x] at this
    | cons y t2 =>
      have hs1c := List.pairwise_cons.mp hs1
      have hs2c := List.pairwise_cons.mp hs2
      have hx : x ∈ y :: t2 := by
        have hmem : x ∈ (x :: t1).filter (fun b => equiv comp x b) :=
          List.mem_filter.mpr ⟨List.mem_cons_self _ _, h.equiv_self x⟩
        rw [hf x] at hmem
        exact (List.mem_filter.mp hmem).1
      have hy : y ∈ x :: t1 := by
        have hmem : y ∈ (y :: t2).filter (fun b => equiv comp y b) :=
          List.mem_filter.mpr ⟨List.mem_cons_self _ _, h.equiv_self y⟩
        rw [← hf y] at hmem
        exact (List.mem_filter.mp hmem).1
      have hxy : comp x y = false := by
        rcases List.mem_cons.mp hx with e | e
        · rw [e]; exact h.irrefl y
        · exact hs2c.1 x e
      have hyx : comp y x = false := by
        rcases List.mem_cons.mp hy with e | e
        · rw [e]; exact h.irrefl x
        · exact hs1c.1 y e
      have heq : equiv comp x y = true := by simp [equiv, hxy, hyx]
      have hhead := hf x
      simp only [List.filter_cons, h.equiv_self x, heq, if_true, List.cons.injEq] at hhead
      obtain ⟨rfl, _⟩ := hhead
      congr 1
      apply ih t2 hs1c.2 hs2c.2
      intro a
      have := hf a
      by_cases ha : equiv comp a x = true
      · simpa [List.filter_cons, ha] using this
      · simpa [List.filter_cons, ha] using this

/-- Two ordered permutations of each other whose equivalent elements are equal are the same
list: where no two different elements are equivalent, the result of a sort is unique. -/
theorem sorted_eq_of_perm {α : Type} {comp : α → α → Bool} (h : StrictWeakOrdering comp) :
    ∀ (r1 r2 : List α), r1.Perm r2 → r1.Pairwise (fun x y => comp y x = false) →
      r2.Pairwise (fun x y => comp y x = false) →
      (∀ x ∈ r1, ∀ y ∈ r1, equiv comp x y = true → x = y) → r1 = r2 := by
  intro r1
  induction r1 with
  | nil => intro r2 hp _ _ _; exact hp.nil_eq
  | cons x t1 ih =>
    intro r2 hp hs1 hs2 huniq
    cases r2 with
    | nil => exact absurd hp.length_eq (by simp)
    | cons y t2 =>
      have hs1c := List.pairwise_cons.mp hs1
      have hs2c := List.pairwise_cons.mp hs2
      have hx : x ∈ y :: t2 := hp.subset (List.mem_cons_self _ _)
      have hy : y ∈ x :: t1 := hp.symm.subset (List.mem_cons_self _ _)
      have hxy : comp x y = false := by
        rcases List.mem_cons.mp hx with e | e
        · rw [e]; exact h.irrefl y
        · exact hs2c.1 x e
      have hyx : comp y x = false := by
        rcases List.mem_cons.mp hy with e | e
        · rw [e]; exact h.irrefl x
        · exact hs1c.1 y e
      have hxeq : x = y :=
        huniq x (List.mem_cons_self _ _) y hy (by simp [equiv, hxy, hyx])
      subst hxeq
      congr 1
      exact ih t2 (List.Perm.cons_inv hp) hs1c.2 hs2c.2
        (fun a ha b hb => huniq a (List.mem_cons_of_mem _ ha) b (List.mem_cons_of_mem _ hb))

/-- Two collections with the same container are equal. -/
theorem Collection.eq_of_container_eq {α : Type} (a b : Collection α)
    (h : a.container_ = b.container_) : a = b := by
  cases a; cases b; simp_all

/-! ### Shape rebinding -/

/-- C22, as stated, fails for the resizable families: rebinding
`std::vector<int, std::pmr::polymorphic_allocator<int>>` to `double` gives
`std::vector<double>`, that is `std::vector<double, std::allocator<double>>`, not the vector of
`double` with the remaining parameter unchanged; and for `std::vector<int>` the allocator
parameter becomes `std::allocator<double>`. -/
theorem C22_rebind_drops_remaining_parameters :
    template_container_type std_default_arguments
        (CppType.of_types "std::vector"
          [CppType.named "int",
            CppType.of_types "std::pmr::polymorphic_allocator" [CppType.named "int"]])
        (CppType.named "double")
      = some (CppType.of_types "std::vector"
          [CppType.named "double", CppType.of_types "std::allocator" [CppType.named "double"]]) ∧
    template_container_type std_default_arguments
        (CppType.of_types "std::vector"
          [CppType.named "int",
            CppType.of_types "std::pmr::polymorphic_allocator" [CppType.named "int"]])
        (CppType.named "double")
      ≠ some (CppType.of_types "std::vector"
          [CppType.named "double",
            CppType.of_types "std::pmr::polymorphic_allocator" [CppType.named "int"]]) ∧
    template_container_type std_default_arguments
        (CppType.of_types "std::vector"
          [CppType.named "int", CppType.of_types "std::allocator" [CppType.named "int"]])
        (CppType.named "double")
      ≠ some (CppType.of_types "std::vector"
          [CppType.named "double", CppType.of_types "std::allocator" [CppType.named "int"]]) := by
  refine ⟨?_, ?_, ?_⟩
  · simp [template_container_type, std_default_arguments]
  · simp [template_container_type, std_default_arguments]
  · simp [template_container_type, std_default_arguments]

/-- C22, amended: the shape-rebinding engine maps a fixed-arity family `Container<T, N>` and a
new element type `U` to `Container<U, N>`; it maps a resizable family `Container<T, Rest...>`
to `Container<U>`, the same template applied to `U` alone, in which every remaining parameter
has its default argument for `U` whatever `Rest` was, so the remaining parameters are kept
exactly when they are these defaults; a type that is not such a specialization has no
rebinding.  `std::vector<int>` rebinds to `std::vector<double>` and `std::array<int, 4>` to
`std::array<double, 4>`. -/
theorem C22_rebind (default_arguments : String → CppType → List CppType)
    (Container : String) (T U : CppType) (Rest : List CppType) (N : Nat) (name : String) :
    template_container_type default_arguments (CppType.of_type_and_size Container T N) U
      = some (CppType.of_type_and_size Container U N) ∧
    template_container_type default_arguments (CppType.of_types Container (T :: Rest)) U
      = some (CppType.of_types Container (U :: default_arguments Container U)) ∧
    (template_container_type default_arguments (CppType.of_types Container (T :: Rest)) U
        = some (CppType.of_types Container (U :: Rest))
      ↔ Rest = default_arguments Container U) ∧
    template_container_type default_arguments (CppType.named name) U = none ∧
    ResultCollection default_arguments (CppType.of_type_and_size Container T N) U
      = some (CppType.of_types "robocin::Collection"
          [U, CppType.of_type_and_size Container U N]) ∧
    ResultCollection default_arguments (CppType.of_types Container (T :: Rest)) U
      = some (CppType.of_types "robocin::Collection"
          [U, CppType.of_types Container (U :: default_arguments Container U)]) ∧
    template_container_type std_default_arguments
        (CppType.of_types "std::vector"
          [CppType.named "int", CppType.of_types "std::allocator" [CppType.named "int"]])
        (CppType.named "double")
      = some (CppType.of_types "std::vector"
          [CppType.named "double", CppType.of_types "std::allocator" [CppType.named "double"]]) ∧
    template_container_type std_default_arguments
        (CppType.of_type_and_size "std::array" (CppType.named "int") 4) (CppType.named "double")
      = some (CppType.of_type_and_size "std::array" (CppType.named "double") 4) := by
  refine ⟨rfl, rfl, ?_, rfl, rfl, rfl, ?_, rfl⟩
  · simp only [template_container_type, Option.some.injEq, CppType.of_types.injEq,
      List.cons.injEq, true_and]
    exact eq_comm
  · simp [template_container_type, std_default_arguments]

/-! ### Transform, flat transform and filter with an execution policy -/

/-- What `std::for_each` with a policy leaves in each cell, for a schedule that names no
position twice. -/
theorem std_for_each_policy_getElem {α : Type} (f : α → α) :
    ∀ (schedule : List Nat) (buf : List α), schedule.Nodup →
      ∀ j : Nat, (std_for_each_policy schedule f buf)[j]?
        = if j ∈ schedule then (buf[j]?).map f else buf[j]? := by
  intro schedule
  induction schedule with
  | nil => intro buf _ j; simp [std_for_each_policy]
  | cons i t ih =>
    intro buf hnd j
    have hnd2 := List.nodup_cons.mp hnd
    have ih2 := fun b => ih b hnd2.2 j
    simp only [std_for_each_policy, List.foldl_cons] at ih2 ⊢
    rw [ih2]
    cases hbi : buf[i]? with
    | none =>
      simp only
      by_cases hji : j = i
      · subst hji
        simp [hnd2.1, hbi]
      · simp [hji]
    | some v =>
      simp only
      by_cases hji : j = i
      · subst hji
        have hlt : j < buf.length := by
          by_contra hcon
          rw [List.getElem?_eq_none (by omega)] at hbi
          cases hbi
        simp [hnd2.1, hbi, hlt]
      · have hne : i ≠ j := fun e => hji e.symm
        simp [hji, List.getElem?_set_ne hne]

/-- `std::for_each` with a policy rewrites every cell once: the result is the mapped list. -/
theorem std_for_each_policy_eq_map {α : Type} (f : α → α) (schedule : List Nat)
    (buf : List α) (hs : is_schedule buf.length schedule) :
    std_for_each_policy schedule f buf = buf.map f := by
  apply List.ext_getElem?
  intro j
  rw [std_for_each_policy_getElem f schedule buf (hs.nodup_iff.mpr (List.nodup_range _)) j]
  by_cases hj : j < buf.length
  · have : j ∈ schedule := hs.symm.subset (List.mem_range.mpr hj)
    simp [this]
  · have : j ∉ schedule := fun hmem => hj (List.mem_range.mp (hs.subset hmem))
    simp [this, List.getElem?_eq_none (Nat.le_of_not_lt hj)]

/-- What `std::transform` with a policy leaves in each cell of the output range. -/
theorem std_transform_policy_getElem {α β : Type} (op : α → β) (src : List α) (result : Nat) :
    ∀ (schedule : List Nat) (out : List β) (k : Nat),
      (std_transform_policy schedule op src result out)[k]?
        = if result ≤ k ∧ k - result ∈ schedule ∧ k - result < src.length ∧ k < out.length
          then (src[k - result]?).map op else out[k]? := by
  intro schedule
  induction schedule with
  | nil => intro out k; simp [std_transform_policy]
  | cons i t ih =>
    intro out k
    have ih2 := fun o => ih o k
    simp only [std_transform_policy, List.foldl_cons] at ih2 ⊢
    rw [ih2]
    cases hsi : src[i]? with
    | none =>
      have hlen : src.length ≤ i := List.getElem?_eq_none_iff.mp hsi
      simp only
      by_cases hc : result ≤ k ∧ k - result ∈ t ∧ k - result < src.length ∧ k < out.length
      · have hc2 : result ≤ k ∧ k - result ∈ i :: t ∧ k - result < src.length
            ∧ k < out.length := ⟨hc.1, List.mem_cons_of_mem _ hc.2.1, hc.2.2⟩
        rw [if_pos hc, if_pos hc2]
      · have hc2 : ¬ (result ≤ k ∧ k - result ∈ i :: t ∧ k - result < src.length
            ∧ k < out.length) := by
          rintro ⟨h1, h2, h3, h4⟩
          rcases List.mem_cons.mp h2 with e | e
          · omega
          · exact hc ⟨h1, e, h3, h4⟩
        rw [if_neg hc, if_neg hc2]
    | some x =>
      have hlt : i < src.length := by
        by_contra hcon
        rw [List.getElem?_eq_none (by omega)] at hsi
        cases hsi
      simp only [List.length_set]
      by_cases hc : result ≤ k ∧ k - result ∈ t ∧ k - result < src.length ∧ k < out.length
      · have hc2 : result ≤ k ∧ k - result ∈ i :: t ∧ k - result < src.length
            ∧ k < out.length := ⟨hc.1, List.mem_cons_of_mem _ hc.2.1, hc.2.2⟩
        rw [if_pos hc, if_pos hc2]
      · rw [if_neg hc, List.getElem?_set]
        by_cases hk : result + i = k
        · have hki : k - result = i := by omega
          rw [if_pos hk]
          by_cases hko : k < out.length
          · have hc2 : result ≤ k ∧ k - result ∈ i :: t ∧ k - result < src.length
                ∧ k < out.length :=
              ⟨by omega, by rw [hki]; exact List.mem_cons_self _ _, by omega, hko⟩
            rw [if_pos hc2, if_pos (by omega), hki, hsi]
            rfl
          · have hc2 : ¬ (result ≤ k ∧ k - result ∈ i :: t ∧ k - result < src.length
                ∧ k < out.length) := fun h => hko h.2.2.2
            rw [if_neg hc2, if_neg (by omega), List.getElem?_eq_none (by omega)]
        · have hc2 : ¬ (result ≤ k ∧ k - result ∈ i :: t ∧ k - result < src.length
              ∧ k < out.length) := by
            rintro ⟨h1, h2, h3, h4⟩
            rcases List.mem_cons.mp h2 with e | e
            · omega
            · exact hc ⟨h1, e, h3, h4⟩
          rw [if_neg hk, if_neg hc2]

/-- `std::transform` with a policy overwrites the cells from `result` on with the mapped
source. -/
theorem std_transform_policy_spec {α β : Type} (op : α → β) (src : List α) (result : Nat)
    (schedule : List Nat) (out : List β) (hs : is_schedule src.length schedule)
    (hlen : result + src.length ≤ out.length) :
    std_transform_policy schedule op src result out
      = out.take result ++ src.map op ++ out.drop (result + src.length) := by
  apply List.ext_getElem?
  intro k
  rw [std_transform_policy_getElem]
  by_cases h1 : k < result
  · rw [if_neg (by omega), List.append_assoc, List.getElem?_append_left (by simp; omega),
      List.getElem?_take_of_lt h1]
  · by_cases h2 : k < result + src.length
    · have hmem : k - result ∈ schedule := hs.symm.subset (List.mem_range.mpr (by omega))
      rw [if_pos ⟨by omega, hmem, by omega, by omega⟩, List.append_assoc,
        List.getElem?_append_right (by simp; omega)]
      simp only [List.length_take, Nat.min_eq_left (by omega : result ≤ out.length)]
      rw [List.getElem?_append_left (by simp; omega), List.getElem?_map]
    · rw [if_neg (by omega), List.getElem?_append_right (by simp; omega)]
      simp only [List.length_append, List.length_take, List.length_map,
        Nat.min_eq_left (by omega : result ≤ out.length), List.getElem?_drop]
      congr 1
      omega

/-- The loop of `flat_transform` with a policy overwrites the cells from `out` on with the
mapped inner ranges, one after the other. -/
theorem flat_transform_policy_loop_spec {α β : Type} (f : α → β) :
    ∀ (elements : List (List α)) (schedules : List (List Nat)) (out : Nat) (result : List β),
      List.Forall₂ (fun (element : List α) s => is_schedule element.length s)
        elements schedules →
      out + (elements.map List.length).sum ≤ result.length →
      flat_transform_policy_loop f elements schedules out result
        = result.take out ++ (elements.map (List.map f)).flatten
          ++ result.drop (out + (elements.map List.length).sum) := by
  intro elements
  induction elements with
  | nil => intro schedules out result _ _; simp [flat_transform_policy_loop]
  | cons element rest ih =>
    intro schedules out result hs hlen
    cases hs with
    | cons h1 hrest =>
      rename_i s ss
      simp only [List.map_cons, List.sum_cons] at hlen
      simp only [flat_transform_policy_loop, List.headD_cons, List.tail_cons]
      have hstep := std_transform_policy_spec f element out s result h1 (by omega)
      rw [ih ss (out + element.length) _ hrest (by rw [hstep]; simp; omega), hstep]
      have ht : (result.take out ++ element.map f
          ++ result.drop (out + element.length)).take (out + element.length)
          = result.take out ++ element.map f := by
        rw [List.take_append_of_le_length (by simp; omega)]
        apply List.take_of_length_le
        simp
      have hd : (result.take out ++ element.map f
          ++ result.drop (out + element.length)).drop
            (out + element.length + (rest.map List.length).sum)
          = result.drop (out + (element.length + (rest.map List.length).sum)) := by
        rw [List.drop_append_eq_append_drop, List.drop_of_length_le (by simp; omega)]
        simp only [List.length_append, List.length_take, List.length_map,
          Nat.min_eq_left (by omega : out ≤ result.length), List.nil_append, List.drop_drop]
        congr 1
        omega
      rw [ht, hd]
      simp [List.append_assoc]

/-- Every grouping and order of the sum of the inner sizes gives their sum. -/
theorem generalizedSum_add_eq_sum (sizes : List Nat) (r : Nat)
    (h : GeneralizedSum (fun a b => a + b) (0 :: sizes) r) : r = sizes.sum := by
  rw [GeneralizedSum.eq_foldl (fun a b => a + b) Nat.add_assoc Nat.add_comm 0 sizes r h]
  have key : ∀ (l : List Nat) (x : Nat), l.foldl (fun a b => a + b) x = x + l.sum := by
    intro l
    induction l with
    | nil => intro x; simp
    | cons y ys ih => intro x; simp [ih, Nat.add_assoc]
  simpa using key sizes 0

/-- The contents `filter` with a policy leaves in the container. -/
theorem Collection.filter_policy_container {α : Type} (unspecified : List α)
    (predicate : α → Bool) (c : Collection α) :
    (Collection.filter_policy unspecified predicate c).container_
      = c.container_.filter predicate := by
  simp [Collection.filter_policy, std_remove_if_policy, std_erase_to_end]

/-- C30: for every Collection `c`, function `f` and predicate `p`, each execution-policy
overload returns the same collection as its policy-free overload, whatever order the library
processes the positions in: `transform(policy, f) == transform(f)` for same-type and for
type-changing `f`, `flat_transform(policy, f) == flat_transform(f)`, and
`filtered(policy, p) == filtered(p)`; the pre-sized and overwritten result buffer of the policy
path holds the same elements in the same order as the appended buffer of the policy-free path,
and the receiver is left unchanged. -/
theorem C30_policy_overloads {α β : Type} [Inhabited β] (c : Collection α)
    (cc : Collection (List α)) (f : α → α) (g : α → β) (p : α → Bool)
    (schedule : List Nat) (schedules : List (List Nat)) (result_size : Nat)
    (unspecified : List α)
    (hs : is_schedule c.size schedule)
    (hss : List.Forall₂ (fun (element : List α) s => is_schedule element.length s)
      cc.container_ schedules)
    (hsize : GeneralizedSum (fun a b => a + b) (0 :: cc.container_.map List.length)
      result_size) :
    (Collection.transform_policy schedule f c).1 = (Collection.transform f c).1 ∧
    (Collection.transform_rebind_policy schedule g c).1 = (Collection.transform_rebind g c).1 ∧
    (Collection.flat_transform_policy result_size schedules g cc).1
      = (Collection.flat_transform g cc).1 ∧
    (Collection.filtered_policy unspecified p c).1 = (Collection.filtered p c).1 ∧
    (Collection.filter_policy unspecified p c) = Collection.filter p c ∧
    (Collection.transform_policy schedule f c).2 = c ∧
    (Collection.transform_rebind_policy schedule g c).2 = c ∧
    (Collection.flat_transform_policy result_size schedules g cc).2 = cc ∧
    (Collection.filtered_policy unspecified p c).2 = c := by
  refine ⟨?_, ?_, ?_, ?_, ?_, rfl, rfl, rfl, rfl⟩
  · apply Collection.eq_of_container_eq
    rw [Collection.transform_container]
    exact std_for_each_policy_eq_map f schedule c.container_ hs
  · apply Collection.eq_of_container_eq
    rw [Collection.transform_rebind_container]
    simp only [Collection.transform_rebind_policy, Collection.transform_rebind_policy_rvalue,
      Collection.copy, Collection.of_count]
    rw [std_transform_policy_spec g c.container_ 0 schedule _ hs (by simp)]
    simp
  · apply Collection.eq_of_container_eq
    rw [Collection.flat_transform_container]
    have hsum := generalizedSum_add_eq_sum _ _ hsize
    simp only [Collection.flat_transform_policy, Collection.flat_transform_policy_rvalue,
      Collection.copy, Collection.of_count]
    rw [flat_transform_policy_loop_spec g cc.container_ schedules 0 _ hss (by simp [hsum])]
    simp [hsum]
  · apply Collection.eq_of_container_eq
    simp only [Collection.filtered_policy, Collection.filtered_policy_rvalue,
      Collection.filtered, Collection.filtered_rvalue, Collection.filter_policy_container,
      Collection.filter_container]
  · apply Collection.eq_of_container_eq
    rw [Collection.filter_policy_container, Collection.filter_container]

/-- Witness of C30: `[1, 2, 3]` processed in the order `2, 0, 1`, and `[[1, 2], [3], []]`
with the inner ranges processed in the orders `1, 0` and `0`, the sizes summed as
`(2 + 1) + (0 + 0)`. -/
theorem C30_policy_overloads_witness :
    is_schedule (Collection.mk [1, 2, 3]).size [2, 0, 1] ∧
    List.Forall₂ (fun (element : List Nat) s => is_schedule element.length s)
      [[1, 2], [3], []] [[1, 0], [0], []] ∧
    GeneralizedSum (fun a b => a + b) (0 :: [[1, 2], [3], []].map List.length)
      ((2 + 1) + (0 + 0)) ∧
    (Collection.transform_policy [2, 0, 1] (fun x => x + 1) ⟨[1, 2, 3]⟩).1
      = (Collection.transform (fun x => x + 1) ⟨[1, 2, 3]⟩).1 ∧
    (Collection.flat_transform_policy ((2 + 1) + (0 + 0)) [[1, 0], [0], []]
        (fun x : Nat => 2 * x) ⟨[[1, 2], [3], []]⟩).1
      = ⟨[2, 4, 6]⟩ := by
  have h1 : is_schedule (Collection.mk [1, 2, 3]).size [2, 0, 1] := by
    unfold is_schedule; decide
  have h2 : List.Forall₂ (fun (element : List Nat) s => is_schedule element.length s)
      [[1, 2], [3], []] [[1, 0], [0], []] :=
    List.Forall₂.cons (by unfold is_schedule; decide)
      (List.Forall₂.cons (by unfold is_schedule; decide)
        (List.Forall₂.cons (by unfold is_schedule; decide) List.Forall₂.nil))
  have h3 : GeneralizedSum (fun a b => a + b) (0 :: [[1, 2], [3], []].map List.length)
      ((2 + 1) + (0 + 0)) :=
    ⟨[2, 1, 0, 0], by decide,
      GeneralizedNoncommutativeSum.split [2, 1] [0, 0] (2 + 1) (0 + 0)
        (GeneralizedNoncommutativeSum.split [2] [1] 2 1
          (GeneralizedNoncommutativeSum.single 2) (GeneralizedNoncommutativeSum.single 1))
        (GeneralizedNoncommutativeSum.split [0] [0] 0 0
          (GeneralizedNoncommutativeSum.single 0) (GeneralizedNoncommutativeSum.single 0))⟩
  have h := C30_policy_overloads ⟨[1, 2, 3]⟩ ⟨[[1, 2], [3], []]⟩ (fun x => x + 1)
    (fun x : Nat => 2 * x) (fun _ => true) [2, 0, 1] [[1, 0], [0], []] ((2 + 1) + (0 + 0)) []
    h1 h2 h3
  exact ⟨h1, h2, h3, h.1, h.2.2.1.trans (by decide)⟩

/-! ### The array-like interface of Rect2D -/

/-- The iteration from `begin()` to `end()` ends, given at least five trips, and visits the
four members in order. -/
theorem rect2d_internal.iterate_begin_end {V : Type} (t : StructRect V) (fuel : Nat) :
    rect2d_internal.iterate (fuel + 5) t.cbegin t.cend []
      = some (Except.ok [t.top_left_x, t.top_left_y, t.width, t.height]) := by
  simp [rect2d_internal.iterate, StructRect.cbegin, StructRect.cend, StructRect.size,
    rect2d_internal.iterator.dereference, rect2d_internal.iterator.arrow,
    rect2d_internal.iterator.pre_increment]

/-- C31: for every Rect2D `r`, of any value type, `size()` is `4`; `r[0]`, `r[1]`, `r[2]`,
`r[3]` are `top_left.x`, `top_left.y`, `width` and `height`; `r[pos]` throws
`std::out_of_range` for every `pos >= 4`; iterating from `begin()` to `end()` ends and visits
exactly these four members in that order; dereferencing an iterator whose index is outside
`0..3` throws `std::out_of_range`, as does its `operator[]` when `index_ + n` is outside
`0..3`, and an iterator into `r` with index `0`, `1`, `2`, `3` dereferences to `r[index]`.  The
same holds of the rectangles over the integer value types. -/
theorem C31_array_like {V : Type} (r : StructRect V) (s : Rect2D) :
    r.size = 4 ∧
    r.subscript 0 = Except.ok r.top_left_x ∧
    r.subscript 1 = Except.ok r.top_left_y ∧
    r.subscript 2 = Except.ok r.width ∧
    r.subscript 3 = Except.ok r.height ∧
    (∀ pos, 4 ≤ pos → r.subscript pos = Except.error Exception.out_of_range) ∧
    (∀ fuel, rect2d_internal.iterate (fuel + 5) r.cbegin r.cend []
      = some (Except.ok [r.top_left_x, r.top_left_y, r.width, r.height])) ∧
    (∀ it : rect2d_internal.iterator V, it.index_ < 0 ∨ 3 < it.index_ →
      it.dereference = Except.error Exception.out_of_range) ∧
    (∀ (it : rect2d_internal.iterator V) (n : Int), it.index_ + n < 0 ∨ 3 < it.index_ + n →
      it.subscript n = Except.error Exception.out_of_range) ∧
    (∀ pos : Nat, pos < 4 →
      (⟨some r, (pos : Int)⟩ : rect2d_internal.iterator V).dereference = r.subscript pos) ∧
    (∀ fuel, rect2d_internal.iterate (fuel + 5) s.to_struct.cbegin s.to_struct.cend []
      = some (Except.ok [s.top_left.x, s.top_left.y, s.width, s.height])) ∧
    (∀ pos, s.to_struct.subscript pos
      = if pos = 0 then Except.ok s.top_left.x else if pos = 1 then Except.ok s.top_left.y
        else if pos = 2 then Except.ok s.width else if pos = 3 then Except.ok s.height
        else Except.error Exception.out_of_range) := by
  refine ⟨rfl, rfl, rfl, rfl, rfl, ?_, rect2d_internal.iterate_begin_end r, ?_, ?_, ?_,
    rect2d_internal.iterate_begin_end s.to_struct, ?_⟩
  · intro pos hpos
    match pos, hpos with
    | pos + 4, _ => rfl
  · intro it hit
    have h0 : it.index_ ≠ 0 := by omega
    have h1 : it.index_ ≠ 1 := by omega
    have h2 : it.index_ ≠ 2 := by omega
    have h3 : it.index_ ≠ 3 := by omega
    simp [rect2d_internal.iterator.dereference, h0, h1, h2, h3]
  · intro it n hit
    have h0 : it.index_ + n ≠ 0 := by omega
    have h1 : it.index_ + n ≠ 1 := by omega
    have h2 : it.index_ + n ≠ 2 := by omega
    have h3 : it.index_ + n ≠ 3 := by omega
    simp [rect2d_internal.iterator.subscript, h0, h1, h2, h3]
  · intro pos hpos
    match pos, hpos with
    | 0, _ => rfl
    | 1, _ => rfl
    | 2, _ => rfl
    | 3, _ => rfl
  · intro pos
    match pos with
    | 0 => rfl
    | 1 => rfl
    | 2 => rfl
    | 3 => rfl
    | pos + 4 => simp [StructRect.subscript]


/-! ### Fuzzy comparison -/

/-- Over exact arithmetic `fuzzyCmpEqual` tests `|lhs - rhs| <= epsilon`. -/
theorem fuzzyCmpEqual_exact {α : Type} [LinearOrderedField α] (lhs rhs epsilon : α) :
    fuzzyCmpEqual (exact_arithmetic α) lhs rhs epsilon = true ↔ |lhs - rhs| ≤ epsilon := by
  simp [fuzzyCmpEqual, exact_arithmetic]

/-- Over exact arithmetic `fuzzyCmpLess` holds when `lhs` is below `rhs` and not within
`epsilon` of it. -/
theorem fuzzyCmpLess_exact {α : Type} [LinearOrderedField α] (lhs rhs epsilon : α) :
    fuzzyCmpLess (exact_arithmetic α) lhs rhs epsilon = true
      ↔ ¬ |lhs - rhs| ≤ epsilon ∧ lhs < rhs := by
  by_cases h1 : |lhs - rhs| ≤ epsilon <;> by_cases h2 : lhs < rhs <;>
    simp [fuzzyCmpLess, fuzzyCmpThreeWay, fuzzyCmpEqual, exact_arithmetic, std_is_lt, h1, h2]

/-- Over exact arithmetic `fuzzyCmpGreater` holds when `lhs` is not below `rhs` and not within
`epsilon` of it. -/
theorem fuzzyCmpGreater_exact {α : Type} [LinearOrderedField α] (lhs rhs epsilon : α) :
    fuzzyCmpGreater (exact_arithmetic α) lhs rhs epsilon = true
      ↔ ¬ |lhs - rhs| ≤ epsilon ∧ ¬ lhs < rhs := by
  by_cases h1 : |lhs - rhs| ≤ epsilon <;> by_cases h2 : lhs < rhs <;>
    simp [fuzzyCmpGreater, fuzzyCmpThreeWay, fuzzyCmpEqual, exact_arithmetic, std_is_gt, h1, h2]

/-- The comparisons `<=` and `>=` are the negations of `>` and `<`, whatever the arithmetic. -/
theorem fuzzyCmp_negations {C E : Type} (A : ArithmeticType C E) (lhs rhs : C) (epsilon : E) :
    fuzzyCmpLessEqual A lhs rhs epsilon = !fuzzyCmpGreater A lhs rhs epsilon ∧
    fuzzyCmpGreaterEqual A lhs rhs epsilon = !fuzzyCmpLess A lhs rhs epsilon := by
  simp only [fuzzyCmpLessEqual, fuzzyCmpGreater, fuzzyCmpGreaterEqual, fuzzyCmpLess]
  cases fuzzyCmpThreeWay A lhs rhs epsilon <;> exact ⟨rfl, rfl⟩

/-- C32: over exact arithmetic (a linearly ordered field: the rationals, the reals), for all
`lhs`, `rhs` and every `epsilon >= 0`, `fuzzyCmpLessEqual(lhs, rhs, epsilon)` holds iff
`lhs <= rhs + epsilon`, `fuzzyCmpLess` iff `lhs < rhs - epsilon`, `fuzzyCmpGreaterEqual` iff
`lhs >= rhs - epsilon` and `fuzzyCmpGreater` iff `lhs > rhs + epsilon`. -/
theorem C32_fuzzy_order {α : Type} [LinearOrderedField α] (lhs rhs epsilon : α)
    (h : 0 ≤ epsilon) :
    (fuzzyCmpLessEqual (exact_arithmetic α) lhs rhs epsilon = true ↔ lhs ≤ rhs + epsilon) ∧
    (fuzzyCmpLess (exact_arithmetic α) lhs rhs epsilon = true ↔ lhs < rhs - epsilon) ∧
    (fuzzyCmpGreaterEqual (exact_arithmetic α) lhs rhs epsilon = true
      ↔ lhs ≥ rhs - epsilon) ∧
    (fuzzyCmpGreater (exact_arithmetic α) lhs rhs epsilon = true ↔ lhs > rhs + epsilon) := by
  have hl : fuzzyCmpLess (exact_arithmetic α) lhs rhs epsilon = true ↔ lhs < rhs - epsilon := by
    rw [fuzzyCmpLess_exact, abs_le]
    constructor
    · rintro ⟨h1, h2⟩
      by_contra h3
      exact h1 ⟨by linarith, by linarith⟩
    · intro h1
      exact ⟨fun h2 => by linarith [h2.1], by linarith⟩
  have hg : fuzzyCmpGreater (exact_arithmetic α) lhs rhs epsilon = true
      ↔ lhs > rhs + epsilon := by
    rw [fuzzyCmpGreater_exact, abs_le]
    constructor
    · rintro ⟨h1, h2⟩
      by_contra h3
      exact h1 ⟨by linarith, by linarith⟩
    · intro h1
      exact ⟨fun h2 => by linarith [h2.2], by linarith⟩
  obtain ⟨hle, hge⟩ := fuzzyCmp_negations (exact_arithmetic α) lhs rhs epsilon
  refine ⟨?_, hl, ?_, hg⟩
  · rw [hle, Bool.not_eq_true', ← Bool.not_eq_true, hg, not_lt]
  · rw [hge, Bool.not_eq_true', ← Bool.not_eq_true, hl, not_lt]

/-- Witness of C32: `lhs = 1`, `rhs = 2`, `epsilon = 1/2` over the rationals:
`1 < 2 - 1/2`, so `fuzzyCmpLess` holds. -/
theorem C32_fuzzy_order_witness :
    (0 : ℚ) ≤ 1 / 2 ∧ fuzzyCmpLess (exact_arithmetic ℚ) 1 2 (1 / 2) = true ∧
    fuzzyCmpGreaterEqual (exact_arithmetic ℚ) 1 2 (1 / 2) = false := by
  have h := C32_fuzzy_order (1 : ℚ) 2 (1 / 2) (by norm_num)
  refine ⟨by norm_num, h.2.1.mpr (by norm_num), ?_⟩
  rw [← Bool.not_eq_true, h.2.2.1]
  norm_num

/-- C33: for all `lhs`, `rhs` and `epsilon`, whatever the arithmetic of the types (exact or
floating-point), exactly one of `fuzzyCmpLess`, `fuzzyCmpEqual` and `fuzzyCmpGreater` is true;
`fuzzyCmpNotEqual` is the negation of `fuzzyCmpEqual`, `fuzzyCmpLessEqual` the negation of
`fuzzyCmpGreater` and `fuzzyCmpGreaterEqual` the negation of `fuzzyCmpLess`. -/
theorem C33_fuzzy_trichotomy {C E : Type} (A : ArithmeticType C E) (lhs rhs : C)
    (epsilon : E) :
    ((fuzzyCmpLess A lhs rhs epsilon = true ∧ fuzzyCmpEqual A lhs rhs epsilon = false ∧
        fuzzyCmpGreater A lhs rhs epsilon = false) ∨
      (fuzzyCmpLess A lhs rhs epsilon = false ∧ fuzzyCmpEqual A lhs rhs epsilon = true ∧
        fuzzyCmpGreater A lhs rhs epsilon = false) ∨
      (fuzzyCmpLess A lhs rhs epsilon = false ∧ fuzzyCmpEqual A lhs rhs epsilon = false ∧
        fuzzyCmpGreater A lhs rhs epsilon = true)) ∧
    fuzzyCmpNotEqual A lhs rhs epsilon = !fuzzyCmpEqual A lhs rhs epsilon ∧
    fuzzyCmpLessEqual A lhs rhs epsilon = !fuzzyCmpGreater A lhs rhs epsilon ∧
    fuzzyCmpGreaterEqual A lhs rhs epsilon = !fuzzyCmpLess A lhs rhs epsilon := by
  refine ⟨?_, rfl, (fuzzyCmp_negations A lhs rhs epsilon).1,
    (fuzzyCmp_negations A lhs rhs epsilon).2⟩
  simp only [fuzzyCmpLess, fuzzyCmpGreater, fuzzyCmpThreeWay]
  cases h1 : fuzzyCmpEqual A lhs rhs epsilon <;> cases h2 : A.lt lhs rhs <;>
    simp [std_is_lt, std_is_gt]

/-- Over exact arithmetic, fuzzy equality is reflexive and symmetric for every `epsilon >= 0`
and is the equivalence induced by `fuzzyCmpLess`; it is not transitive: `0 ~ 1` and `1 ~ 2` but
not `0 ~ 2` for `epsilon = 1`, and for every `epsilon > 0` the values `0`, `epsilon`,
`2 * epsilon` show it, so `fuzzyCmpLess` is not a strict weak ordering. -/
theorem fuzzyCmpEqual_exact_relation {α : Type} [LinearOrderedField α] (a b epsilon : α)
    (h : 0 ≤ epsilon) :
    fuzzyCmpEqual (exact_arithmetic α) a a epsilon = true ∧
    fuzzyCmpEqual (exact_arithmetic α) a b epsilon
      = fuzzyCmpEqual (exact_arithmetic α) b a epsilon ∧
    equiv (fun x y => fuzzyCmpLess (exact_arithmetic α) x y epsilon) a b
      = fuzzyCmpEqual (exact_arithmetic α) a b epsilon ∧
    (fuzzyCmpEqual (exact_arithmetic ℚ) 0 1 1 = true ∧
      fuzzyCmpEqual (exact_arithmetic ℚ) 1 2 1 = true ∧
      fuzzyCmpEqual (exact_arithmetic ℚ) 0 2 1 = false) ∧
    (0 < epsilon →
      fuzzyCmpEqual (exact_arithmetic α) 0 epsilon epsilon = true ∧
      fuzzyCmpEqual (exact_arithmetic α) epsilon (2 * epsilon) epsilon = true ∧
      fuzzyCmpEqual (exact_arithmetic α) 0 (2 * epsilon) epsilon = false) ∧
    (0 < epsilon →
      ¬ StrictWeakOrdering (fun x y => fuzzyCmpLess (exact_arithmetic α) x y epsilon)) := by
  have hsymm : ∀ x y : α, fuzzyCmpEqual (exact_arithmetic α) x y epsilon
      = fuzzyCmpEqual (exact_arithmetic α) y x epsilon := by
    intro x y
    simp only [fuzzyCmpEqual, exact_arithmetic, abs_sub_comm]
  have hequiv : ∀ x y : α,
      equiv (fun x y => fuzzyCmpLess (exact_arithmetic α) x y epsilon) x y
        = fuzzyCmpEqual (exact_arithmetic α) x y epsilon := by
    intro x y
    rw [Bool.eq_iff_iff, fuzzyCmpEqual_exact]
    simp only [equiv, Bool.and_eq_true, Bool.not_eq_true', ← Bool.not_eq_true,
      fuzzyCmpLess_exact, abs_sub_comm y x, abs_le]
    constructor
    · rintro ⟨h1, h2⟩
      by_contra h3
      rcases lt_trichotomy x y with h4 | h4 | h4
      · exact h1 ⟨fun h5 => h3 h5, h4⟩
      · subst h4
        exact h3 ⟨by simp [h], by simp [h]⟩
      · exact h2 ⟨fun h5 => h3 h5, h4⟩
    · intro h1
      exact ⟨fun h2 => h2.1 h1, fun h2 => h2.1 h1⟩
  have hgen : 0 < epsilon →
      fuzzyCmpEqual (exact_arithmetic α) 0 epsilon epsilon = true ∧
      fuzzyCmpEqual (exact_arithmetic α) epsilon (2 * epsilon) epsilon = true ∧
      fuzzyCmpEqual (exact_arithmetic α) 0 (2 * epsilon) epsilon = false := by
    intro hpos
    refine ⟨?_, ?_, ?_⟩
    · rw [fuzzyCmpEqual_exact, abs_le]; constructor <;> linarith
    · rw [fuzzyCmpEqual_exact, abs_le]; constructor <;> linarith
    · rw [← Bool.not_eq_true, fuzzyCmpEqual_exact, abs_le]
      intro h1
      linarith [h1.1]
  refine ⟨?_, hsymm a b, hequiv a b, ⟨?_, ?_, ?_⟩, hgen, ?_⟩
  · rw [fuzzyCmpEqual_exact]; simpa using h
  · rw [fuzzyCmpEqual_exact]; norm_num
  · rw [fuzzyCmpEqual_exact]; norm_num
  · rw [← Bool.not_eq_true, fuzzyCmpEqual_exact]; norm_num
  · intro hpos hswo
    obtain ⟨h1, h2, h3⟩ := hgen hpos
    rw [← hequiv] at h1 h2 h3
    simp only [equiv, Bool.and_eq_true, Bool.not_eq_true'] at h1 h2
    have := hswo.incomp_trans 0 epsilon (2 * epsilon) h1.1 h1.2 h2.1 h2.2
    simp [equiv, this.1, this.2] at h3

/-! ### Angles -/

/-- The remainder `std::fmod(x, y)` differs from `x` by an integral multiple of `y` and, for a
positive `y`, lies strictly between `-y` and `y`. -/
theorem std_fmod_spec {α : Type} [LinearOrderedField α] [FloorRing α] (x y : α) (hy : 0 < y) :
    std_fmod x y = x - (std_trunc (x / y) : α) * y ∧ -y < std_fmod x y ∧ std_fmod x y < y := by
  refine ⟨rfl, ?_, ?_⟩
  · unfold std_fmod std_trunc
    by_cases hq : 0 ≤ x / y
    · rw [if_pos hq]
      have h1 : (Int.floor (x / y) : α) ≤ x / y := Int.floor_le _
      have h2 : (Int.floor (x / y) : α) * y ≤ x := (le_div_iff₀ hy).mp h1
      linarith
    · rw [if_neg hq]
      have h1 : (Int.ceil (x / y) : α) < x / y + 1 := Int.ceil_lt_add_one _
      have h2 : (Int.ceil (x / y) : α) * y < (x / y + 1) * y :=
        mul_lt_mul_of_pos_right h1 hy
      have h3 : (x / y + 1) * y = x + y := by field_simp
      linarith
  · unfold std_fmod std_trunc
    by_cases hq : 0 ≤ x / y
    · rw [if_pos hq]
      have h1 : x / y < (Int.floor (x / y) : α) + 1 := Int.lt_floor_add_one _
      have h2 : x / y * y < ((Int.floor (x / y) : α) + 1) * y :=
        mul_lt_mul_of_pos_right h1 hy
      have h3 : x / y * y = x := by field_simp
      linarith
    · rw [if_neg hq]
      have h1 : x / y ≤ (Int.ceil (x / y) : α) := Int.le_ceil _
      have h2 : x ≤ (Int.ceil (x / y) : α) * y := (div_le_iff₀ hy).mp h1
      linarith

/-- The result of `normalizeAngle` lies in `[-kPi, kPi]`, differs from the angle by an integral
multiple of `2 * kPi`, and is the angle itself when the angle lies in `[-kPi, kPi]`. -/
theorem normalizeAngle_spec {α : Type} [LinearOrderedField α] [FloorRing α] (kPi a : α)
    (hpi : 0 < kPi) :
    (-kPi ≤ normalizeAngle kPi a ∧ normalizeAngle kPi a ≤ kPi) ∧
    (∃ k : Int, normalizeAngle kPi a - a = (k : α) * (2 * kPi)) ∧
    (-kPi ≤ a ∧ a ≤ kPi → normalizeAngle kPi a = a) ∧
    normalizeAngle kPi (normalizeAngle kPi a) = normalizeAngle kPi a := by
  have h2pi : (0 : α) < 2 * kPi := by linarith
  obtain ⟨hf, hlo, hhi⟩ := std_fmod_spec a (2 * kPi) h2pi
  have hfix : ∀ b : α, -kPi ≤ b ∧ b ≤ kPi → normalizeAngle kPi b = b := by
    intro b hb
    simp only [normalizeAngle, if_pos hb]
  have hrange : -kPi ≤ normalizeAngle kPi a ∧ normalizeAngle kPi a ≤ kPi := by
    unfold normalizeAngle
    by_cases h0 : -kPi ≤ a ∧ a ≤ kPi
    · rw [if_pos h0]; exact h0
    · rw [if_neg h0]
      by_cases h1 : std_fmod a (2 * kPi) < -kPi
      · rw [if_pos h1]; constructor <;> linarith
      · rw [if_neg h1]
        by_cases h2 : std_fmod a (2 * kPi) > kPi
        · rw [if_pos h2]; constructor <;> linarith
        · rw [if_neg h2]; constructor <;> linarith
  refine ⟨hrange, ?_, hfix a, hfix _ hrange⟩
  unfold normalizeAngle
  by_cases h0 : -kPi ≤ a ∧ a ≤ kPi
  · rw [if_pos h0]; exact ⟨0, by simp⟩
  · rw [if_neg h0]
    by_cases h1 : std_fmod a (2 * kPi) < -kPi
    · rw [if_pos h1]
      refine ⟨-std_trunc (a / (2 * kPi)) + 1, ?_⟩
      rw [hf]; push_cast; ring
    · rw [if_neg h1]
      by_cases h2 : std_fmod a (2 * kPi) > kPi
      · rw [if_pos h2]
        refine ⟨-std_trunc (a / (2 * kPi)) - 1, ?_⟩
        rw [hf]; push_cast; ring
      · rw [if_neg h2]
        refine ⟨-std_trunc (a / (2 * kPi)), ?_⟩
        rw [hf]; push_cast; ring

/-- C35: over exact arithmetic, for every angle `a`, `normalizeAngle(a)` returns a value `r`
with `-pi <= r <= pi` such that `r - a` is an integer multiple of `2 * pi`; an input already in
`[-pi, pi]` is returned unchanged, so `normalizeAngle` is idempotent.  This holds over every
linearly ordered field with a floor, whatever positive constant `kPi` is, and so over the reals
with `kPi` the number pi. -/
theorem C35_normalize_angle {α : Type} [LinearOrderedField α] [FloorRing α] (kPi a : α)
    (hpi : 0 < kPi) (x : ℝ) :
    ((-kPi ≤ normalizeAngle kPi a ∧ normalizeAngle kPi a ≤ kPi) ∧
      (∃ k : Int, normalizeAngle kPi a - a = (k : α) * (2 * kPi)) ∧
      (-kPi ≤ a ∧ a ≤ kPi → normalizeAngle kPi a = a) ∧
      normalizeAngle kPi (normalizeAngle kPi a) = normalizeAngle kPi a) ∧
    ((-Real.pi ≤ normalizeAngle Real.pi x ∧ normalizeAngle Real.pi x ≤ Real.pi) ∧
      (∃ k : Int, normalizeAngle Real.pi x - x = (k : ℝ) * (2 * Real.pi)) ∧
      (-Real.pi ≤ x ∧ x ≤ Real.pi → normalizeAngle Real.pi x = x) ∧
      normalizeAngle Real.pi (normalizeAngle Real.pi x) = normalizeAngle Real.pi x) :=
  ⟨normalizeAngle_spec kPi a hpi, normalizeAngle_spec Real.pi x Real.pi_pos⟩

/-- Witness of C35: over the rationals with the constant `22/7`, the angle `10` is normalized
to `10 - 2 * (22/7) = -18/7`. -/
theorem C35_normalize_angle_witness :
    (0 : ℚ) < 22 / 7 ∧ normalizeAngle (22 / 7 : ℚ) 10 = -18 / 7 ∧
    (-(22 / 7 : ℚ) ≤ normalizeAngle (22 / 7 : ℚ) 10 ∧
      normalizeAngle (22 / 7 : ℚ) 10 ≤ 22 / 7) := by
  refine ⟨by norm_num, ?_, (C35_normalize_angle (22 / 7 : ℚ) 10 (by norm_num) 0).1.1⟩
  have hfloor : Int.floor ((10 : ℚ) / (2 * (22 / 7))) = 1 := by
    rw [Int.floor_eq_iff]; norm_num
  have hf : std_fmod (10 : ℚ) (2 * (22 / 7)) = 26 / 7 := by
    unfold std_fmod std_trunc
    rw [if_pos (by norm_num), hfloor]
    norm_num
  unfold normalizeAngle
  rw [if_neg (by norm_num), hf, if_neg (by norm_num), if_pos (by norm_num)]
  norm_num


/-! ### Algebra of filter, reverse and the sorts -/

/-- C36: for every resizable Collection `c` and predicates `p` and `q`,
`c.filtered(p).filtered(q)` equals `c.filtered(x -> p(x) and q(x))`; filtering is idempotent,
and successive filters commute.  The same holds of the mutating `filter`. -/
theorem C36_filter_composition {α : Type} (c : Collection α) (p q : α → Bool) :
    (Collection.filtered q (Collection.filtered p c).1).1
      = (Collection.filtered (fun x => p x && q x) c).1 ∧
    (Collection.filtered p (Collection.filtered p c).1).1 = (Collection.filtered p c).1 ∧
    (Collection.filtered q (Collection.filtered p c).1).1
      = (Collection.filtered p (Collection.filtered q c).1).1 ∧
    Collection.filter q (Collection.filter p c) = Collection.filter (fun x => p x && q x) c ∧
    Collection.filter p (Collection.filter p c) = Collection.filter p c ∧
    Collection.filter q (Collection.filter p c) = Collection.filter p (Collection.filter q c) ∧
    (Collection.filtered (fun x => decide (x % 2 = 0))
      (Collection.filtered (fun x => decide (2 < x)) ⟨[1, 2, 3, 4, 5, 6]⟩).1).1
        = (⟨[4, 6]⟩ : Collection Nat) := by
  have hf : ∀ (r : α → Bool) (d : Collection α),
      (Collection.filtered r d).1.container_ = d.container_.filter r := by
    intro r d
    simp [Collection.filtered, Collection.filtered_rvalue, Collection.copy,
      Collection.filter_container]
  refine ⟨?_, ?_, ?_, ?_, ?_, ?_, by decide⟩
  · apply Collection.eq_of_container_eq
    rw [hf, hf, hf, List.filter_filter]
    congr 1
    funext x
    exact Bool.and_comm _ _
  · apply Collection.eq_of_container_eq
    rw [hf, hf, List.filter_filter]
    congr 1
    funext x
    exact Bool.and_self _
  · apply Collection.eq_of_container_eq
    rw [hf, hf, hf, hf, List.filter_filter, List.filter_filter]
    congr 1
    funext x
    exact Bool.and_comm _ _
  · apply Collection.eq_of_container_eq
    rw [Collection.filter_container, Collection.filter_container, Collection.filter_container,
      List.filter_filter]
    congr 1
    funext x
    exact Bool.and_comm _ _
  · apply Collection.eq_of_container_eq
    rw [Collection.filter_container, Collection.filter_container, List.filter_filter]
    congr 1
    funext x
    exact Bool.and_self _
  · apply Collection.eq_of_container_eq
    rw [Collection.filter_container, Collection.filter_container, Collection.filter_container,
      Collection.filter_container, List.filter_filter, List.filter_filter]
    congr 1
    funext x
    exact Bool.and_comm _ _

/-- C37: for every Collection `c`, resizable or fixed-arity, `c.reversed()` has the same size
as `c` and its element at every index `i` is `c[size - 1 - i]`; `c.reversed().reversed()` is
`c`. -/
theorem C37_reversed {α : Type} {N : Nat} (c : Collection α) (a : ArrayCollection α N) :
    (Collection.reversed c).1.size = c.size ∧
    (∀ (i : Nat) (hi : i < (Collection.reversed c).1.container_.length)
        (hc : c.size - 1 - i < c.container_.length),
      (Collection.reversed c).1.container_.get ⟨i, hi⟩ = c.container_.get ⟨c.size - 1 - i, hc⟩) ∧
    (∀ i, i < c.size →
      (Collection.reversed c).1.container_[i]? = c.container_[c.size - 1 - i]?) ∧
    (Collection.reversed (Collection.reversed c).1).1 = c ∧
    (ArrayCollection.reversed a).1.size = a.size ∧
    (ArrayCollection.reversed a).1.size = N ∧
    (∀ i, i < N →
      (ArrayCollection.reversed a).1.container_[i]? = a.container_[N - 1 - i]?) ∧
    (ArrayCollection.reversed (ArrayCollection.reversed a).1).1 = a ∧
    (Collection.reversed ⟨[1, 2, 3]⟩).1 = (⟨[3, 2, 1]⟩ : Collection Nat) := by
  have hc : (Collection.reversed c).1.container_ = c.container_.reverse :=
    Collection.reversed_container c
  have ha : ∀ b : ArrayCollection α N,
      (ArrayCollection.reversed b).1.container_ = b.container_.reverse := by
    intro b
    exact ArrayCollection.reverse_container ⟨b.container_, b.size_eq⟩
  have hget : ∀ (l : List α) (i : Nat), i < l.length →
      l.reverse[i]? = l[l.length - 1 - i]? := by
    intro l i hi
    rw [List.getElem?_reverse hi]
  refine ⟨?_, ?_, ?_, ?_, ?_, ?_, ?_, ?_, by decide⟩
  · rw [Collection.size, hc, List.length_reverse, Collection.size]
  · intro i hi hci
    have h1 := hget c.container_ i (by rw [hc, List.length_reverse] at hi; exact hi)
    rw [← hc, List.getElem?_eq_getElem hi, List.getElem?_eq_getElem (by
      rw [Collection.size] at hci; exact hci)] at h1
    simpa [Collection.size] using h1
  · intro i hi
    rw [hc]
    exact hget c.container_ i hi
  · apply Collection.eq_of_container_eq
    rw [Collection.reversed_container, hc, List.reverse_reverse]
  · rw [ArrayCollection.size, ArrayCollection.size, (ArrayCollection.reversed a).1.size_eq,
      a.size_eq]
  · exact (ArrayCollection.reversed a).1.size_eq
  · intro i hi
    rw [ha]
    have := hget a.container_ i (by rw [a.size_eq]; exact hi)
    rw [a.size_eq] at this
    exact this
  · apply ArrayCollection.ext_container
    rw [ha, ha, List.reverse_reverse]

/-- C38: constructing a fixed-arity Collection of arity `N` from an iterator range, a literal
list or a range of length `m` always returns a collection, of `N` cells: the cells `i < min(m, N)`
hold the `i`-th source element, the source elements at positions `>= N` are dropped, and when
`m >= N` the result is exactly the first `N` source elements in order.  (The constructor does
not touch the cells from `m` on when `m < N`: they keep whatever default-initialization left in
them, an indeterminate value for a trivially constructible element type.) -/
theorem C38_fixed_arity_construction {α : Type} (N : Nat) (indeterminate : Fin N → α)
    (source : List α) :
    (ArrayCollection.from_range N indeterminate source).size = N ∧
    (∀ i, i < min source.length N →
      (ArrayCollection.from_range N indeterminate source).container_[i]? = source[i]?) ∧
    (N ≤ source.length →
      (ArrayCollection.from_range N indeterminate source).container_ = source.take N) ∧
    (∀ extra : List α, N ≤ source.length →
      ArrayCollection.from_range N indeterminate (source ++ extra)
        = ArrayCollection.from_range N indeterminate source) ∧
    (∀ other : Fin N → α, N ≤ source.length →
      ArrayCollection.from_range N other source
        = ArrayCollection.from_range N indeterminate source) ∧
    (∀ (i : Nat) (hi : i < N), source.length ≤ i →
      (ArrayCollection.from_range N indeterminate source).container_[i]?
        = some (indeterminate ⟨i, hi⟩)) ∧
    ArrayCollection.from_initializer_list N indeterminate source
      = ArrayCollection.from_range N indeterminate source ∧
    ArrayCollection.of_range N indeterminate source
      = ArrayCollection.from_range N indeterminate source ∧
    (ArrayCollection.from_range 2 (fun i => 100 + i.val) [7, 8, 9]).container_ = [7, 8] ∧
    (ArrayCollection.from_range 4 (fun i => 100 + i.val) [7, 8, 9]).container_
      = [7, 8, 9, 103] := by
  have h := ArrayCollection.from_range_container N indeterminate source
  have hfull : ∀ (cells : Fin N → α) (src : List α), N ≤ src.length →
      (ArrayCollection.from_range N cells src).container_ = src.take N := by
    intro cells src hN
    rw [ArrayCollection.from_range_container, List.drop_of_length_le (by simpa using hN),
      List.append_nil]
  refine ⟨ArrayCollection.size_eq _, ?_, hfull indeterminate source, ?_, ?_, ?_, rfl, rfl,
    by decide, by decide⟩
  · intro i hi
    rw [h, List.getElem?_append_left (by rw [List.length_take]; omega),
      List.getElem?_take_of_lt (by omega)]
  · intro extra hN
    apply ArrayCollection.ext_container
    rw [hfull _ _ (by rw [List.length_append]; omega), hfull _ _ hN,
      List.take_append_of_le_length hN]
  · intro other hN
    apply ArrayCollection.ext_container
    rw [hfull _ _ hN, hfull _ _ hN]
  · intro i hi h1
    rw [h, List.getElem?_append_right (by rw [List.length_take]; omega), List.length_take,
      List.getElem?_drop, Nat.min_eq_right (by omega)]
    have h2 : source.length + (i - source.length) = i := by omega
    rw [h2, List.getElem?_eq_getElem (by simpa using hi), List.getElem_ofFn]

/-- A range ordered by a strict weak ordering is left as it is by the stable sort. -/
theorem std_ranges_stable_sort_of_sorted {α : Type} {comp : α → α → Bool}
    (h : StrictWeakOrdering comp) (buf : List α)
    (hs : buf.Pairwise (fun x y => comp y x = false)) :
    std_ranges_stable_sort comp buf = buf := by
  obtain ⟨hts, htf⟩ := std_stable_sort_rec_spec h buf.length buf (Nat.le_refl _)
  exact sorted_eq_of_filter_eq h _ _ hts hs htf

/-- For a strict weak ordering, a range in which no element compares less than its
predecessor (what `std::is_sorted` tests) has no element that compares less than any earlier
one. -/
theorem pairwise_of_chain {α : Type} {comp : α → α → Bool} (h : StrictWeakOrdering comp)
    (buf : List α) (hc : buf.Chain' (fun x y => comp y x = false)) :
    buf.Pairwise (fun x y => comp y x = false) := by
  induction buf with
  | nil => exact List.Pairwise.nil
  | cons x t ih =>
    rw [List.chain'_cons'] at hc
    have ht := ih hc.2
    refine List.pairwise_cons.mpr ⟨?_, ht⟩
    cases t with
    | nil => intro y hy; cases hy
    | cons z t2 =>
      have hzx : comp z x = false := hc.1 z (by simp)
      intro y hy
      rcases List.mem_cons.mp hy with e | e
      · rw [e]; exact hzx
      · have hyz : comp y z = false := (List.pairwise_cons.mp ht).1 y e
        exact h.neg_trans hyz hzx

/-- C39: for every Collection `c` and every strict weak ordering `cmp`, stable sorting is
idempotent, `c.stable_sorted(cmp).stable_sorted(cmp) == c.stable_sorted(cmp)`, and
`stable_sorted(cmp)` returns unchanged any collection that is already ordered by `cmp` (no
element compares less than an earlier one, or, what is the same, than its predecessor); the
same holds of the mutating `stable_sort`, also of the fixed-arity specialization. -/
theorem C39_stable_sort_idempotent {α : Type} {N : Nat} (c : Collection α)
    (a : ArrayCollection α N) (cmp : α → α → Bool) (h : StrictWeakOrdering cmp) :
    (Collection.stable_sorted cmp (Collection.stable_sorted cmp c).1).1
      = (Collection.stable_sorted cmp c).1 ∧
    (c.container_.Pairwise (fun x y => cmp y x = false) →
      (Collection.stable_sorted cmp c).1 = c) ∧
    (c.container_.Chain' (fun x y => cmp y x = false) →
      (Collection.stable_sorted cmp c).1 = c) ∧
    Collection.stable_sort cmp (Collection.stable_sort cmp c) = Collection.stable_sort cmp c ∧
    (c.container_.Pairwise (fun x y => cmp y x = false) → Collection.stable_sort cmp c = c) ∧
    ArrayCollection.stable_sort cmp (ArrayCollection.stable_sort cmp a)
      = ArrayCollection.stable_sort cmp a ∧
    (a.container_.Pairwise (fun x y => cmp y x = false) →
      ArrayCollection.stable_sort cmp a = a) := by
  have hsorted : ∀ l : List α,
      (std_ranges_stable_sort cmp l).Pairwise (fun x y => cmp y x = false) :=
    fun l => (std_stable_sort_rec_spec h l.length l (Nat.le_refl _)).1
  have hc : ∀ d : Collection α,
      (Collection.stable_sorted cmp d).1.container_ = std_ranges_stable_sort cmp d.container_ :=
    fun d => rfl
  have hm : ∀ d : Collection α,
      (Collection.stable_sort cmp d).container_ = std_ranges_stable_sort cmp d.container_ :=
    fun d => rfl
  have hfix : c.container_.Pairwise (fun x y => cmp y x = false) →
      (Collection.stable_sorted cmp c).1 = c := by
    intro hs
    apply Collection.eq_of_container_eq
    rw [hc, std_ranges_stable_sort_of_sorted h _ hs]
  refine ⟨?_, hfix, fun hch => hfix (pairwise_of_chain h _ hch), ?_, ?_, ?_, ?_⟩
  · apply Collection.eq_of_container_eq
    rw [hc, hc, std_ranges_stable_sort_of_sorted h _ (hsorted _)]
  · apply Collection.eq_of_container_eq
    rw [hm, hm, std_ranges_stable_sort_of_sorted h _ (hsorted _)]
  · intro hs
    apply Collection.eq_of_container_eq
    rw [hm, std_ranges_stable_sort_of_sorted h _ hs]
  · apply ArrayCollection.ext_container
    rw [ArrayCollection.stable_sort_container, ArrayCollection.stable_sort_container,
      std_ranges_stable_sort_of_sorted h _ (hsorted _)]
  · intro hs
    apply ArrayCollection.ext_container
    rw [ArrayCollection.stable_sort_container, std_ranges_stable_sort_of_sorted h _ hs]

/-- Witness of C39: `[3, 1, 2, 1]` under the default ascending order. -/
theorem C39_stable_sort_idempotent_witness :
    StrictWeakOrdering (@ranges_less Nat _) ∧
    (Collection.stable_sorted (@ranges_less Nat _) ⟨[3, 1, 2, 1]⟩).1 = ⟨[1, 1, 2, 3]⟩ ∧
    (Collection.stable_sorted (@ranges_less Nat _)
      (Collection.stable_sorted (@ranges_less Nat _) ⟨[3, 1, 2, 1]⟩).1).1
        = (Collection.stable_sorted (@ranges_less Nat _) ⟨[3, 1, 2, 1]⟩).1 :=
  ⟨ranges_less_strictWeakOrdering, by decide,
    (C39_stable_sort_idempotent ⟨[3, 1, 2, 1]⟩ (ArrayCollection.of_container (fun _ : Fin 0 => 0))
      (@ranges_less Nat _) ranges_less_strictWeakOrdering).1⟩

/-- C40: for every Collection `c` and every strict weak ordering `cmp` under which no two
different elements of `c` are equivalent (in particular when no two distinct positions of `c`
hold equivalent elements: `cmp` is a strict total order on the elements of `c`),
`c.sorted(cmp) == c.stable_sorted(cmp)`: the unstable and the stable sort return the same
sequence, as do the mutating `sort` and `stable_sort`. -/
theorem C40_sorted_eq_stable_sorted {α : Type} (c : Collection α) (cmp : α → α → Bool)
    (h : StrictWeakOrdering cmp)
    (htotal : ∀ x ∈ c.container_, ∀ y ∈ c.container_, equiv cmp x y = true → x = y) :
    (Collection.sorted cmp c).1 = (Collection.stable_sorted cmp c).1 ∧
    Collection.sort cmp c = Collection.stable_sort cmp c ∧
    ((∀ (i j : Nat) (hi : i < c.container_.length) (hj : j < c.container_.length), i ≠ j →
        equiv cmp (c.container_.get ⟨i, hi⟩) (c.container_.get ⟨j, hj⟩) = false) →
      ∀ x ∈ c.container_, ∀ y ∈ c.container_, equiv cmp x y = true → x = y) := by
  have hsp : (std_ranges_sort cmp c.container_).Perm c.container_ :=
    std_ranges_sort_perm cmp c.container_
  have hss : (std_ranges_sort cmp c.container_).Pairwise (fun x y => cmp y x = false) :=
    std_ranges_sort_sorted h c.container_
  have htp : (std_ranges_stable_sort cmp c.container_).Perm c.container_ :=
    std_stable_sort_rec_perm cmp c.container_.length c.container_
  have hts : (std_ranges_stable_sort cmp c.container_).Pairwise (fun x y => cmp y x = false) :=
    (std_stable_sort_rec_spec h c.container_.length c.container_ (Nat.le_refl _)).1
  have heq : std_ranges_sort cmp c.container_ = std_ranges_stable_sort cmp c.container_ :=
    sorted_eq_of_perm h _ _ (hsp.trans htp.symm) hss hts
      (fun x hx y hy => htotal x (hsp.subset hx) y (hsp.subset hy))
  refine ⟨?_, ?_, ?_⟩
  · apply Collection.eq_of_container_eq
    exact heq
  · apply Collection.eq_of_container_eq
    exact heq
  · intro hpos x hx y hy hxy
    obtain ⟨i, hi, rfl⟩ := List.getElem_of_mem hx
    obtain ⟨j, hj, rfl⟩ := List.getElem_of_mem hy
    by_cases hij : i = j
    · subst hij; rfl
    · have := hpos i j hi hj hij
      simp only [List.get_eq_getElem] at this
      rw [this] at hxy
      cases hxy

/-- Witness of C40: `[3, 1, 2]` under the default ascending order. -/
theorem C40_sorted_eq_stable_sorted_witness :
    StrictWeakOrdering (@ranges_less Nat _) ∧
    (Collection.sorted (@ranges_less Nat _) ⟨[3, 1, 2]⟩).1 = ⟨[1, 2, 3]⟩ ∧
    (Collection.sorted (@ranges_less Nat _) ⟨[3, 1, 2]⟩).1
      = (Collection.stable_sorted (@ranges_less Nat _) ⟨[3, 1, 2]⟩).1 := by
  refine ⟨ranges_less_strictWeakOrdering, by decide,
    (C40_sorted_eq_stable_sorted ⟨[3, 1, 2]⟩ (@ranges_less Nat _)
      ranges_less_strictWeakOrdering ?_).1⟩
  intro x _ y _ hxy
  simp only [equiv, ranges_less, Bool.and_eq_true, Bool.not_eq_true', decide_eq_false_iff_not,
    not_lt] at hxy
  omega


/-! ### Fuzzy equality on floating-point values -/

/-- Unary minus is an involution. -/
theorem IeeeValue.neg_neg (v : IeeeValue) : v.neg.neg = v := by
  cases v <;> simp [IeeeValue.neg]

/-- The absolute value does not see the sign. -/
theorem IeeeValue.abs_neg (v : IeeeValue) : v.neg.abs = v.abs := by
  cases v <;> simp [IeeeValue.neg, IeeeValue.abs]

/-- Rounding to `double` keeps zero. -/
theorem round_binary64_zero : round_binary64 0 = IeeeValue.finite 0 := by
  simp [round_binary64]

/-- Rounding to `double` is odd: the nearest value of `-q` is minus the nearest value of `q`. -/
theorem round_binary64_neg (q : ℚ) : round_binary64 (-q) = (round_binary64 q).neg := by
  rcases lt_trichotomy q 0 with h | h | h
  · have h1 : ¬ (-q = 0) := by intro h2; linarith [neg_eq_zero.mp h2]
    have h2 : (0 : ℚ) < -q := by linarith
    have h3 : ¬ (q = 0) := ne_of_lt h
    have h4 : ¬ (0 < q) := not_lt.mpr (le_of_lt h)
    simp only [round_binary64, if_neg h1, if_pos h2, if_neg h3, if_neg h4, IeeeValue.neg_neg]
  · subst h
    simp [round_binary64, IeeeValue.neg]
  · have h1 : ¬ (-q = 0) := by intro h2; linarith [neg_eq_zero.mp h2]
    have h2 : ¬ ((0 : ℚ) < -q) := by linarith
    have h3 : ¬ (q = 0) := ne_of_gt h
    simp only [round_binary64, if_neg h1, if_neg h2, if_neg h3, if_pos h, neg_neg]

/-- An integer is its own nearest integer. -/
theorem round_half_even_intCast (z : Int) : round_half_even (z : ℚ) = z := by
  simp [round_half_even]

/-- The `double` nearest to `1` is `1`. -/
theorem round_binary64_one : round_binary64 1 = IeeeValue.finite 1 := by
  have hlog : Int.log 2 (1 : ℚ) = 0 := Int.log_one_right 2
  have hr : round_half_even (4503599627370496 : ℚ) = 4503599627370496 := by
    exact_mod_cast round_half_even_intCast 4503599627370496
  simp only [round_binary64, round_binary64_positive, hlog]
  norm_num [hr]

/-- The `double` nearest to `2` is `2`. -/
theorem round_binary64_two : round_binary64 2 = IeeeValue.finite 2 := by
  have hlog : Int.log 2 (2 : ℚ) = 1 := by
    have h := Int.log_natCast (R := ℚ) 2 2
    rw [Nat.log_eq_of_pow_le_of_lt_pow (by norm_num : 2 ^ 1 ≤ 2) (by norm_num)] at h
    exact_mod_cast h
  have hr : round_half_even (4503599627370496 : ℚ) = 4503599627370496 := by
    exact_mod_cast round_half_even_intCast 4503599627370496
  simp only [round_binary64, round_binary64_positive, hlog]
  norm_num [hr]


/-- On floating-point values, whatever the rounding, `fuzzyCmpEqual(a, a, epsilon)` is false
when `a` is a NaN or an infinity: `a - a` is then a NaN, which no comparison accepts. -/
theorem fuzzyCmpEqual_ieee_not_finite (round : ℚ → IeeeValue) (e : IeeeValue) (s : Bool) :
    fuzzyCmpEqual (ieee_arithmetic round) IeeeValue.nan IeeeValue.nan e = false ∧
    fuzzyCmpEqual (ieee_arithmetic round) (IeeeValue.infinity s) (IeeeValue.infinity s) e
      = false := by
  constructor <;>
    simp [fuzzyCmpEqual, ieee_arithmetic, IeeeValue.sub, IeeeValue.abs, IeeeValue.le]

/-- On floating-point values, for a rounding that keeps zero and is odd (as rounding to nearest
is), fuzzy equality is symmetric, and for `epsilon >= 0` it is reflexive exactly at the finite
values. -/
theorem fuzzyCmpEqual_ieee_relation (round : ℚ → IeeeValue)
    (hzero : round 0 = IeeeValue.finite 0) (hodd : ∀ q, round (-q) = (round q).neg)
    (u v e : IeeeValue) (he : (ieee_arithmetic round).le (IeeeValue.finite 0) e = true) :
    fuzzyCmpEqual (ieee_arithmetic round) u v e = fuzzyCmpEqual (ieee_arithmetic round) v u e ∧
    (fuzzyCmpEqual (ieee_arithmetic round) u u e = true ↔ ∃ x, u = IeeeValue.finite x) := by
  constructor
  · have habs : ((ieee_arithmetic round).sub u v).abs = ((ieee_arithmetic round).sub v u).abs := by
      cases u with
      | nan => cases v <;> rfl
      | infinity s =>
        cases v with
        | nan => rfl
        | infinity t =>
          by_cases hst : s = t
          · subst hst; rfl
          · have hts : ¬ t = s := fun h => hst h.symm
            simp [ieee_arithmetic, IeeeValue.sub, IeeeValue.abs, hst, hts]
        | finite y => rfl
      | finite x =>
        cases v with
        | nan => rfl
        | infinity t => rfl
        | finite y =>
          have hxy : x - y = -(y - x) := by ring
          simp only [ieee_arithmetic, IeeeValue.sub]
          rw [hxy, hodd, IeeeValue.abs_neg]
    simp only [fuzzyCmpEqual]
    exact congrArg (fun w => (ieee_arithmetic round).le w e) habs
  · constructor
    · intro h
      cases u with
      | nan => rw [(fuzzyCmpEqual_ieee_not_finite round e false).1] at h; cases h
      | infinity s => rw [(fuzzyCmpEqual_ieee_not_finite round e s).2] at h; cases h
      | finite x => exact ⟨x, rfl⟩
    · rintro ⟨x, rfl⟩
      simp only [fuzzyCmpEqual, ieee_arithmetic, IeeeValue.sub, sub_self, hzero, IeeeValue.abs,
        abs_zero]
      exact he

/-- On `double`, fuzzy equality is not transitive: with `epsilon = 1`, `0 ~ 1` and `1 ~ 2` but
not `0 ~ 2`. -/
theorem fuzzyCmpEqual_binary64_not_transitive :
    fuzzyCmpEqual binary64 (IeeeValue.finite 0) (IeeeValue.finite 1) (IeeeValue.finite 1)
      = true ∧
    fuzzyCmpEqual binary64 (IeeeValue.finite 1) (IeeeValue.finite 2) (IeeeValue.finite 1)
      = true ∧
    fuzzyCmpEqual binary64 (IeeeValue.finite 0) (IeeeValue.finite 2) (IeeeValue.finite 1)
      = false := by
  have h1 : round_binary64 (-1) = IeeeValue.finite (-1) := by
    rw [round_binary64_neg, round_binary64_one]; rfl
  have h2 : round_binary64 (-2) = IeeeValue.finite (-2) := by
    rw [round_binary64_neg, round_binary64_two]; rfl
  refine ⟨?_, ?_, ?_⟩
  · simp only [fuzzyCmpEqual, binary64, ieee_arithmetic, IeeeValue.sub]
    norm_num [h1, IeeeValue.abs, IeeeValue.le]
  · simp only [fuzzyCmpEqual, binary64, ieee_arithmetic, IeeeValue.sub]
    norm_num [h1, IeeeValue.abs, IeeeValue.le]
  · simp only [fuzzyCmpEqual, binary64, ieee_arithmetic, IeeeValue.sub]
    norm_num [h2, IeeeValue.abs, IeeeValue.le]

/-- C34, as stated, fails: on `double`, with `epsilon = 1/2 >= 0`, fuzzy equality is not
reflexive at a NaN, and with `epsilon = 1 >= 0` it is not reflexive at either infinity:
`fuzzyCmpEqual(a, a, epsilon)` is false there. -/
theorem C34_fuzzy_equality_not_reflexive :
    binary64.le (IeeeValue.finite 0) (IeeeValue.finite (1 / 2)) = true ∧
    fuzzyCmpEqual binary64 IeeeValue.nan IeeeValue.nan (IeeeValue.finite (1 / 2)) = false ∧
    binary64.le (IeeeValue.finite 0) (IeeeValue.finite 1) = true ∧
    fuzzyCmpEqual binary64 (IeeeValue.infinity false) (IeeeValue.infinity false)
      (IeeeValue.finite 1) = false ∧
    fuzzyCmpEqual binary64 (IeeeValue.infinity true) (IeeeValue.infinity true)
      (IeeeValue.finite 1) = false := by
  refine ⟨?_, ?_, ?_, ?_, ?_⟩ <;>
    simp [fuzzyCmpEqual, binary64, ieee_arithmetic, IeeeValue.sub, IeeeValue.abs, IeeeValue.le]

/-- C34, amended: fuzzy equality is symmetric for every `epsilon >= 0`, and reflexive at every
finite value, but not at a floating-point NaN or infinity; it is not transitive: for
`epsilon = 1`, `0 ~ 1` and `1 ~ 2` but not `0 ~ 2`, so the equivalence induced by `fuzzyCmpLess`
is not an equivalence relation and `fuzzyCmpLess` is not a strict weak ordering.  Stated over
exact arithmetic (every linearly ordered field, where every value is finite) and over
floating-point values with a rounding that keeps zero and is odd, `double` among them. -/
theorem C34_fuzzy_equality {α : Type} [LinearOrderedField α] (a b epsilon : α)
    (h : 0 ≤ epsilon) (round : ℚ → IeeeValue) (hzero : round 0 = IeeeValue.finite 0)
    (hodd : ∀ q, round (-q) = (round q).neg) (u v e : IeeeValue)
    (he : (ieee_arithmetic round).le (IeeeValue.finite 0) e = true) :
    (fuzzyCmpEqual (exact_arithmetic α) a a epsilon = true ∧
      fuzzyCmpEqual (exact_arithmetic α) a b epsilon
        = fuzzyCmpEqual (exact_arithmetic α) b a epsilon ∧
      equiv (fun x y => fuzzyCmpLess (exact_arithmetic α) x y epsilon) a b
        = fuzzyCmpEqual (exact_arithmetic α) a b epsilon ∧
      (fuzzyCmpEqual (exact_arithmetic ℚ) 0 1 1 = true ∧
        fuzzyCmpEqual (exact_arithmetic ℚ) 1 2 1 = true ∧
        fuzzyCmpEqual (exact_arithmetic ℚ) 0 2 1 = false) ∧
      (0 < epsilon →
        fuzzyCmpEqual (exact_arithmetic α) 0 epsilon epsilon = true ∧
        fuzzyCmpEqual (exact_arithmetic α) epsilon (2 * epsilon) epsilon = true ∧
        fuzzyCmpEqual (exact_arithmetic α) 0 (2 * epsilon) epsilon = false) ∧
      (0 < epsilon →
        ¬ StrictWeakOrdering (fun x y => fuzzyCmpLess (exact_arithmetic α) x y epsilon))) ∧
    (fuzzyCmpEqual (ieee_arithmetic round) u v e = fuzzyCmpEqual (ieee_arithmetic round) v u e ∧
      (fuzzyCmpEqual (ieee_arithmetic round) u u e = true ↔ ∃ x, u = IeeeValue.finite x)) ∧
    (fuzzyCmpEqual binary64 (IeeeValue.finite 0) (IeeeValue.finite 1) (IeeeValue.finite 1)
        = true ∧
      fuzzyCmpEqual binary64 (IeeeValue.finite 1) (IeeeValue.finite 2) (IeeeValue.finite 1)
        = true ∧
      fuzzyCmpEqual binary64 (IeeeValue.finite 0) (IeeeValue.finite 2) (IeeeValue.finite 1)
        = false) :=
  ⟨fuzzyCmpEqual_exact_relation a b epsilon h,
    fuzzyCmpEqual_ieee_relation round hzero hodd u v e he,
    fuzzyCmpEqual_binary64_not_transitive⟩

/-- Witness of C34 amended: `epsilon = 1` over the rationals with `a = 0`, `b = 1`, and over
`double` with `u = 3/2`, `v = 2`: fuzzy equality holds of `3/2` and itself. -/
theorem C34_fuzzy_equality_witness :
    (0 : ℚ) ≤ 1 ∧ round_binary64 0 = IeeeValue.finite 0 ∧
    (∀ q, round_binary64 (-q) = (round_binary64 q).neg) ∧
    binary64.le (IeeeValue.finite 0) (IeeeValue.finite 1) = true ∧
    fuzzyCmpEqual (exact_arithmetic ℚ) 0 0 1 = true ∧
    fuzzyCmpEqual binary64 (IeeeValue.finite (3 / 2)) (IeeeValue.finite (3 / 2))
      (IeeeValue.finite 1) = true := by
  have he : binary64.le (IeeeValue.finite 0) (IeeeValue.finite 1) = true := by
    simp [binary64, ieee_arithmetic, IeeeValue.le]
  have h := C34_fuzzy_equality (0 : ℚ) 1 1 (by norm_num) round_binary64 round_binary64_zero
    round_binary64_neg (IeeeValue.finite (3 / 2)) (IeeeValue.finite 2) (IeeeValue.finite 1) he
  exact ⟨by norm_num, round_binary64_zero, round_binary64_neg, he, h.1.1,
    h.2.1.2.mpr ⟨3 / 2, rfl⟩⟩


end robocin
